import Mathlib

/-!
# Verification of the chainer-compiler graph IR and XCVM emitter

A shallow embedding of `compiler/graph.cc`, `compiler/value.cc` and
`compiler/xcvm/emitter.cc` (namespace `oniku`), together with theorems that
settle the specification's claims about them.

Two views of the in-memory IR are embedded:

* `AValue`/`ANode`/`AGraph`: the mutable graph used by `graph.cc`
  (construction from an ONNX `GraphProto`, `AddNode`/`AddNodeImpl`,
  `DetachNode`, `GenSym`).  Values and nodes live in arenas and are
  identified by their index, mirroring the C++ pointer identity.
* `GraphT`/`NodeT`: a recursive view needed only by `Graph::GetSubGraph`,
  which looks one level into each node's attached subgraphs.

Fatal `CHECK(...)` failures in the C++ abort the process; they are embedded
as `Except.error` with a message matching the C++ diagnostic.
-/

namespace ChainerCompiler

/-! ## Value kinds

`Value::Kind` is a bitmask (`value.h` is not part of the sampled sources; the
bit layout is modelled from the spec: `kTemp` has no bits and `kNull` composes
with `kInput`/`kOutput`). -/

def kTemp : Nat := 0
def kInput : Nat := 1
def kOutput : Nat := 2
def kNull : Nat := 4

/-- Modelled from the spec: `Value::IsNull` tests the `kNull` bit of the kind
bitmask (`value.h` is not in the sampled sources). -/
def kindIsNull (kind : Nat) : Bool := kind &&& kNull != 0

/-- Modelled from the spec: `Value::IsInput` tests the `kInput` bit. -/
def kindIsInput (kind : Nat) : Bool := kind &&& kInput != 0

/-- Modelled from the spec: `Value::IsTemp` holds when the kind is exactly
`kTemp` (the empty bitmask). -/
def kindIsTemp (kind : Nat) : Bool := kind == kTemp

/-- The constructor `Value::Value(name, type, kind)` from `value.cc`:
if the name is empty the `kNull` bit is or-ed into the kind. -/
def mkValueKind (name : String) (kind : Nat) : Nat :=
  if name = "" then kind ||| kNull else kind

/-! ## Arena model of `Graph` (`graph.cc` / `value.cc`)

A `Value*` is an index into `AGraph.values`; a `Node*` is an index into
`AGraph.nodes`.  The fields mirror the C++ members used by the sampled code.
Tensor payloads of initializers are irrelevant to every claim and are
represented by the `hasInit` flag set by `Value::ResetInitializer`. -/

structure AValue where
  name : String
  kind : Nat
  producer : Option Nat := none
  users : List Nat := []
  hasInit : Bool := false
  deriving Repr, DecidableEq

structure ANode where
  name : String
  op : String
  inputs : List Nat := []
  outputs : List Nat := []
  detached : Bool := false
  deriving Repr, DecidableEq

structure AGraph where
  name : String
  values : List AValue := []
  inputValues : List Nat := []
  outputValues : List Nat := []
  tempValues : List Nat := []
  nodes : List ANode := []
  genId : Nat := 0
  deriving Repr, DecidableEq

/-- `Graph::GenSym` from `graph.cc`: pre-increments `gen_id_` and builds
`"{base}_oniku_gensym_{gen_id}"`, dropping the `"{base}_"` part when `base`
is empty. -/
def AGraph.genSym (g : AGraph) (base : String) : String × AGraph :=
  let gid := g.genId + 1
  ((if base = "" then "" else base ++ "_") ++ "oniku_gensym_" ++ toString gid,
   { g with genId := gid })

/-! ## `Graph::GetSubGraph` (recursive view) -/

mutual
inductive GraphT where
  | mk (name : String) (nodes : List NodeT)
inductive NodeT where
  | mk (subGraphs : List GraphT)
end

def GraphT.name : GraphT → String
  | .mk n _ => n

def GraphT.nodes : GraphT → List NodeT
  | .mk _ ns => ns

def NodeT.subGraphs : NodeT → List GraphT
  | .mk sgs => sgs

/-- All subgraphs attached to the nodes of a graph, in node order (the nested
iteration order of `Graph::GetSubGraph`). -/
def GraphT.allSubGraphs (g : GraphT) : List GraphT :=
  g.nodes.flatMap NodeT.subGraphs

/-- The scan of `Graph::GetSubGraph`: walk the candidate subgraphs keeping the
unique one whose name matches; a second match triggers
`CHECK(found == nullptr)`. -/
def getSubGraphLoop (name : String) : List GraphT → Option GraphT →
    Except String (Option GraphT)
  | [], found => .ok found
  | sg :: rest, found =>
    if sg.name = name then
      match found with
      | some _ => .error ("Two subgraphs found for name: " ++ name)
      | none => getSubGraphLoop name rest (some sg)
    else getSubGraphLoop name rest found

/-- `Graph::GetSubGraph` from `graph.cc`: returns the unique subgraph of the
graph's nodes with the given name; `CHECK`-aborts when there are two or more
matches and when there is none. -/
def GraphT.getSubGraph (g : GraphT) (name : String) : Except String GraphT := do
  match ← getSubGraphLoop name g.allSubGraphs none with
  | some found => .ok found
  | none => .error ("No subgraph found for name: " ++ name)

/-! ### Lemmas about the `GetSubGraph` scan -/

theorem getSubGraphLoop_none_of_filter_nil (name : String) :
    ∀ (l : List GraphT), l.filter (fun sg => sg.name = name) = [] →
      getSubGraphLoop name l none = .ok none := by
  intro l
  induction l with
  | nil => intro _; rfl
  | cons sg rest ih =>
    intro h
    by_cases hn : sg.name = name
    · rw [List.filter_cons, if_pos (by simp [hn])] at h
      exact absurd h (by simp)
    · rw [List.filter_cons, if_neg (by simp [hn])] at h
      simpa [getSubGraphLoop, hn] using ih h

theorem getSubGraphLoop_found_of_filter_nil (name : String) (x : GraphT) :
    ∀ (l : List GraphT), l.filter (fun sg => sg.name = name) = [] →
      getSubGraphLoop name l (some x) = .ok (some x) := by
  intro l
  induction l with
  | nil => intro _; rfl
  | cons sg rest ih =>
    intro h
    by_cases hn : sg.name = name
    · rw [List.filter_cons, if_pos (by simp [hn])] at h
      exact absurd h (by simp)
    · rw [List.filter_cons, if_neg (by simp [hn])] at h
      simpa [getSubGraphLoop, hn] using ih h

theorem getSubGraphLoop_error_of_match (name : String) (x : GraphT) :
    ∀ (l : List GraphT), (l.filter (fun sg => sg.name = name)) ≠ [] →
      getSubGraphLoop name l (some x) =
        .error ("Two subgraphs found for name: " ++ name) := by
  intro l
  induction l with
  | nil => intro h; simp at h
  | cons sg rest ih =>
    intro h
    by_cases hn : sg.name = name
    · simp [getSubGraphLoop, hn]
    · rw [List.filter_cons, if_neg (by simp [hn])] at h
      simpa [getSubGraphLoop, hn] using ih h

/-- One candidate with the right name followed by a clean tail yields it. -/
theorem getSubGraphLoop_single (name : String) (l : List GraphT) (x : GraphT) :
    l.filter (fun sg => sg.name = name) = [x] →
      getSubGraphLoop name l none = .ok (some x) := by
  induction l with
  | nil => intro h; simp at h
  | cons sg rest ih =>
    intro h
    by_cases hn : sg.name = name
    · rw [List.filter_cons, if_pos (by simp [hn])] at h
      simp only [List.cons.injEq] at h
      obtain ⟨hx, hrest⟩ := h
      subst hx
      rw [show getSubGraphLoop name (sg :: rest) none =
            getSubGraphLoop name rest (some sg) from by
          simp [getSubGraphLoop, hn]]
      exact getSubGraphLoop_found_of_filter_nil name sg rest hrest
    · rw [List.filter_cons, if_neg (by simp [hn])] at h
      simpa [getSubGraphLoop, hn] using ih h

/-- Two or more candidates with the right name abort. -/
theorem getSubGraphLoop_two (name : String) (l : List GraphT) :
    2 ≤ (l.filter (fun sg => sg.name = name)).length →
      getSubGraphLoop name l none =
        .error ("Two subgraphs found for name: " ++ name) := by
  induction l with
  | nil => intro h; simp at h
  | cons sg rest ih =>
    intro h
    by_cases hn : sg.name = name
    · rw [List.filter_cons, if_pos (by simp [hn])] at h
      simp only [List.length_cons] at h
      have hrest : (rest.filter (fun sg => sg.name = name)) ≠ [] := by
        intro hnil
        rw [hnil] at h
        simp only [List.length_nil] at h
        omega
      rw [show getSubGraphLoop name (sg :: rest) none =
            getSubGraphLoop name rest (some sg) from by
          simp [getSubGraphLoop, hn]]
      exact getSubGraphLoop_error_of_match name sg rest hrest
    · rw [List.filter_cons, if_neg (by simp [hn])] at h
      simpa [getSubGraphLoop, hn] using ih h

/-- C10: `GetSubGraph(g, n)` returns the unique subgraph named `n` attached to
some node of `g`, and `CHECK`-aborts both when no subgraph of `g`'s nodes is
named `n` and when two or more are; uniqueness of subgraph names is thus
enforced at lookup time. -/
theorem getSubGraph_characterization (g : GraphT) (name : String) :
    (∀ x, g.allSubGraphs.filter (fun sg => sg.name = name) = [x] →
        g.getSubGraph name = .ok x) ∧
    (g.allSubGraphs.filter (fun sg => sg.name = name) = [] →
        g.getSubGraph name = .error ("No subgraph found for name: " ++ name)) ∧
    (2 ≤ (g.allSubGraphs.filter (fun sg => sg.name = name)).length →
        g.getSubGraph name =
          .error ("Two subgraphs found for name: " ++ name)) := by
  refine ⟨?_, ?_, ?_⟩
  · intro x hx
    unfold GraphT.getSubGraph
    rw [getSubGraphLoop_single name _ x hx]
    rfl
  · intro hnil
    unfold GraphT.getSubGraph
    rw [getSubGraphLoop_none_of_filter_nil name _ hnil]
    rfl
  · intro h2
    unfold GraphT.getSubGraph
    rw [getSubGraphLoop_two name _ h2]
    rfl

/-- Witness for C10 on a concrete graph: one node with two subgraphs named
`"a"` and `"b"`; looking up `"a"` returns the `"a"` subgraph. -/
theorem getSubGraph_characterization_witness :
    GraphT.getSubGraph
        (.mk "top" [.mk [.mk "a" [], .mk "b" []]]) "a" = .ok (.mk "a" []) :=
  (getSubGraph_characterization (.mk "top" [.mk [.mk "a" [], .mk "b" []]])
      "a").1 (.mk "a" []) rfl

/-! ### C9: `GenSym` -/

/-- An empty graph used by concrete counterexamples. -/
def emptyAGraph : AGraph := { name := "g" }

/-- C9 counterexample: the claim says `GenSym("x")` on a fresh graph returns
`"x_gensym_1"`; the code returns `"x_oniku_gensym_1"` (and likewise
`"oniku_gensym_1"` for an empty base, not `"gensym_1"`). -/
theorem genSym_claim_counterexample :
    (emptyAGraph.genSym "x").1 = "x_oniku_gensym_1" ∧
    "x_oniku_gensym_1" ≠ "x_gensym_1" ∧
    (emptyAGraph.genSym "").1 = "oniku_gensym_1" ∧
    "oniku_gensym_1" ≠ "gensym_1" := by
  refine ⟨rfl, by decide, rfl, by decide⟩

/-- C9 (amended): `GenSym(base)` increments the graph's `gen_id` counter and
returns `"{base}_oniku_gensym_{++gen_id}"` when `base` is non-empty and
`"oniku_gensym_{++gen_id}"` when `base` is empty. -/
theorem genSym_spec (g : AGraph) (base : String) :
    (g.genSym base).2.genId = g.genId + 1 ∧
    (g.genSym base).2 = { g with genId := g.genId + 1 } ∧
    (g.genSym base).1 =
      (if base = "" then "" else base ++ "_") ++ "oniku_gensym_" ++
        toString (g.genId + 1) := by
  refine ⟨rfl, rfl, rfl⟩

/-! ## Graph mutation (`graph.cc` / `value.cc`)

`Value::AddUser` appends to `users_`; `Value::DetachUser` erases the first
matching entry; `Value::SetProducer` overwrites `producer_`.  The value arena
is updated in place through `modifyValue`. -/

def modifyValue (vs : List AValue) (vi : Nat) (f : AValue → AValue) :
    List AValue :=
  match vs[vi]? with
  | none => vs
  | some v => vs.set vi (f v)

/-- The `Value::AddUser` loop of `Graph::AddNodeImpl`: every input gains one
`users` entry per occurrence. -/
def addUsersFold (ins : List Nat) (nid : Nat) (vs : List AValue) :
    List AValue :=
  match ins with
  | [] => vs
  | i :: rest =>
    addUsersFold rest nid
      (modifyValue vs i (fun v => { v with users := v.users ++ [nid] }))

/-- The `Value::SetProducer` loop of `Graph::AddNodeImpl`. -/
def setProducerFold (outs : List Nat) (nid : Nat) (vs : List AValue) :
    List AValue :=
  match outs with
  | [] => vs
  | o :: rest =>
    setProducerFold rest nid
      (modifyValue vs o (fun v => { v with producer := some nid }))

/-- `Graph::AddNodeImpl` from `graph.cc`: wire user edges for the inputs,
producer edges for the outputs, and append the node to storage.  The new
node's id is its arena index. -/
def AGraph.addNodeImpl (g : AGraph) (nodeName op : String)
    (ins outs : List Nat) : Nat × AGraph :=
  let nid := g.nodes.length
  let vs := setProducerFold outs nid (addUsersFold ins nid g.values)
  (nid,
   { g with
      values := vs
      nodes := g.nodes ++
        [{ name := nodeName, op := op, inputs := ins, outputs := outs }] })

/-- `Graph::AddNode` from `graph.cc`: generate a fresh node name with `GenSym`
(seeded from the op-type string when `base` is empty) and call `AddNodeImpl`.
-/
def AGraph.addNode (g : AGraph) (op : String) (ins outs : List Nat)
    (base : String := "") : Nat × AGraph :=
  let p := g.genSym (if base = "" then op else base)
  p.2.addNodeImpl p.1 op ins outs

/-- The `Value::DetachUser` loop of node detachment: each input of the node
loses one `users` entry per occurrence. -/
def eraseUsersFold (ins : List Nat) (nid : Nat) (vs : List AValue) :
    List AValue :=
  match ins with
  | [] => vs
  | i :: rest =>
    eraseUsersFold rest nid
      (modifyValue vs i (fun v => { v with users := v.users.erase nid }))

/-- The producer-clearing loop of node detachment. -/
def clearProducerFold (outs : List Nat) (nid : Nat) (vs : List AValue) :
    List AValue :=
  match outs with
  | [] => vs
  | o :: rest =>
    clearProducerFold rest nid
      (modifyValue vs o
        (fun v =>
          if v.producer = some nid then { v with producer := none } else v))

/-- `Graph::DetachNode` calls `Node::Detach`.  Modelled from the spec:
`node.cc` is not in the sampled sources; the spec says "Detaching a node:
symmetric removal; the node remains in storage but is excluded from
traversals".  The model removes one `users` entry per input occurrence (via
`Value::DetachUser`), clears the `producer` edge of each output that points at
this node, and sets the `detached` flag; detaching an already-detached node is
a no-op. -/
def AGraph.detachNode (g : AGraph) (nid : Nat) : AGraph :=
  match g.nodes[nid]? with
  | none => g
  | some nd =>
    if nd.detached then g
    else
      let vs := clearProducerFold nd.outputs nid
        (eraseUsersFold nd.inputs nid g.values)
      { g with
          values := vs
          nodes := g.nodes.set nid { nd with detached := true } }

/-! ## Construction from an ONNX `GraphProto` (`Graph::Graph(GraphProto)`)

Only the fields the constructor reads are modelled: names of declared inputs,
outputs and `value_info`s, names of initializers, and each node's op-type and
input/output name lists. -/

structure NodeProto where
  name : String
  op : String
  inputs : List String
  outputs : List String
  deriving Repr, DecidableEq

structure GraphProto where
  name : String
  inputs : List String
  outputs : List String
  valueInfos : List String
  initializers : List String
  nodes : List NodeProto
  deriving Repr, DecidableEq

/-- Construction state: the graph being built plus the `values_by_name` map
(an association list; entries are only ever inserted, never replaced, so
lookup order is immaterial). -/
structure BuildSt where
  g : AGraph
  m : List (String × Nat)
  deriving Repr, DecidableEq

/-- One iteration of the declared-input loop: build an input-kind value, push
it, and `CHECK` that the name is fresh. -/
def addDeclaredInput (st : BuildSt) (name : String) : Except String BuildSt :=
  let vid := st.g.values.length
  let g :=
    { st.g with
        values := st.g.values ++ [{ name := name, kind := mkValueKind name kInput }]
        inputValues := st.g.inputValues ++ [vid] }
  if (st.m.lookup name).isSome then .error ("Duplicated value name: " ++ name)
  else .ok { g := g, m := (name, vid) :: st.m }

/-- The graph after pushing a declared output value (the first half of one
iteration of the declared-output loop). -/
def pushOutputValue (st : BuildSt) (name : String) : AGraph :=
  { st.g with
      values := st.g.values ++ [{ name := name, kind := mkValueKind name kOutput }]
      outputValues := st.g.outputValues ++ [st.g.values.length] }

/-- One iteration of the declared-output loop: build an output-kind value and
push it; a duplicate name does not abort but adds an `Identity` node from the
already-defined value to the new one. -/
def addDeclaredOutput (st : BuildSt) (name : String) : BuildSt :=
  match st.m.lookup name with
  | some old =>
    { g := ((pushOutputValue st name).addNode "Identity" [old]
        [st.g.values.length]).2
      m := st.m }
  | none =>
    { g := pushOutputValue st name, m := (name, st.g.values.length) :: st.m }

/-- One iteration of the `value_info` loop: build a temp-kind value, push it,
and `CHECK` that the name is fresh. -/
def addDeclaredTemp (st : BuildSt) (name : String) : Except String BuildSt :=
  let vid := st.g.values.length
  let g :=
    { st.g with
        values := st.g.values ++ [{ name := name, kind := mkValueKind name kTemp }]
        tempValues := st.g.tempValues ++ [vid] }
  if (st.m.lookup name).isSome then .error ("Duplicated value name: " ++ name)
  else .ok { g := g, m := (name, vid) :: st.m }

/-- One iteration of the initializer loop: the name must resolve to a value of
kind exactly `kInput`; `Value::ResetInitializer` then attaches the tensor
(modelled as the `hasInit` flag). -/
def attachInitializer (st : BuildSt) (name : String) : Except String BuildSt :=
  match st.m.lookup name with
  | none => .error ("Invalid name for an initializer: " ++ name)
  | some vid =>
    match st.g.values[vid]? with
    | none => .error "dangling value pointer"
    | some v =>
      if v.kind = kInput then
        .ok { st with
                g := { st.g with
                        values := st.g.values.set vid { v with hasInit := true } } }
      else .error "Only input can have an initializer"

/-- `Graph::AddValue(name)` with default kind `kTemp`, as called by
`get_value`: an empty name is turned into a pure null value (not pushed on
any of the input/output/temp lists); otherwise a temp value is pushed. -/
def AGraph.addValueDefault (g : AGraph) (name : String) : Nat × AGraph :=
  let kind := mkValueKind name (if name = "" then kNull else kTemp)
  let vid := g.values.length
  let g := { g with values := g.values ++ [{ name := name, kind := kind }] }
  if name = "" then (vid, g)
  else (vid, { g with tempValues := g.tempValues ++ [vid] })

/-- The `get_value` lambda of the constructor: resolve a name through
`values_by_name`, auto-creating (and registering) a value for unseen names. -/
def getOrAddValue (st : BuildSt) (name : String) : Nat × BuildSt :=
  match st.m.lookup name with
  | some vid => (vid, st)
  | none =>
    let p := st.g.addValueDefault name
    (p.1, { g := p.2, m := (name, p.1) :: st.m })

/-- Resolve a node proto's input or output name list left to right. -/
def resolveNames (st : BuildSt) : List String → List Nat × BuildSt
  | [] => ([], st)
  | n :: rest =>
    let p := getOrAddValue st n
    let q := resolveNames p.2 rest
    (p.1 :: q.1, q.2)

/-- One iteration of the node loop: resolve inputs then outputs, then
`AddNodeImpl` a node carrying the proto's name and op-type. -/
def addNodeFromProto (st : BuildSt) (np : NodeProto) : BuildSt :=
  let pi := resolveNames st np.inputs
  let po := resolveNames pi.2 np.outputs
  { po.2 with g := (po.2.g.addNodeImpl np.name np.op pi.1 po.1).2 }

def inputsPhase : BuildSt → List String → Except String BuildSt
  | st, [] => .ok st
  | st, n :: rest =>
    match addDeclaredInput st n with
    | .error e => .error e
    | .ok st' => inputsPhase st' rest

def outputsPhase : BuildSt → List String → BuildSt
  | st, [] => st
  | st, n :: rest => outputsPhase (addDeclaredOutput st n) rest

def tempsPhase : BuildSt → List String → Except String BuildSt
  | st, [] => .ok st
  | st, n :: rest =>
    match addDeclaredTemp st n with
    | .error e => .error e
    | .ok st' => tempsPhase st' rest

def initsPhase : BuildSt → List String → Except String BuildSt
  | st, [] => .ok st
  | st, n :: rest =>
    match attachInitializer st n with
    | .error e => .error e
    | .ok st' => initsPhase st' rest

def nodesPhase : BuildSt → List NodeProto → BuildSt
  | st, [] => st
  | st, np :: rest => nodesPhase (addNodeFromProto st np) rest

/-- `Graph::Graph(const onnx::GraphProto&)` from `graph.cc`: declared inputs,
then outputs, then `value_info`s, then initializers, then nodes. -/
def AGraph.fromONNX (p : GraphProto) : Except String AGraph :=
  match inputsPhase { g := { name := p.name }, m := [] } p.inputs with
  | .error e => .error e
  | .ok st1 =>
    match tempsPhase (outputsPhase st1 p.outputs) p.valueInfos with
    | .error e => .error e
    | .ok st3 =>
      match initsPhase st3 p.initializers with
      | .error e => .error e
      | .ok st4 => .ok (nodesPhase st4 p.nodes).g

/-! ## Operation sequences on a graph (claim C5) -/

inductive GraphOp where
  | addNode (op : String) (ins outs : List Nat) (base : String)
  | addNodeImpl (nodeName op : String) (ins outs : List Nat)
  | detachNode (nid : Nat)
  deriving Repr, DecidableEq

def applyOp (g : AGraph) : GraphOp → AGraph
  | .addNode op ins outs base => (g.addNode op ins outs base).2
  | .addNodeImpl nodeName op ins outs => (g.addNodeImpl nodeName op ins outs).2
  | .detachNode nid => g.detachNode nid

def applyOps (g : AGraph) : List GraphOp → AGraph
  | [] => g
  | op :: rest => applyOps (applyOp g op) rest

/-- Preconditions the C++ caller guarantees: nodes are added over `Value*`s of
this graph, and only this graph's nodes are detached. -/
def opValid (g : AGraph) : GraphOp → Prop
  | .addNode _ ins outs _ =>
    (∀ vi ∈ ins, vi < g.values.length) ∧ (∀ vo ∈ outs, vo < g.values.length)
  | .addNodeImpl _ _ ins outs =>
    (∀ vi ∈ ins, vi < g.values.length) ∧ (∀ vo ∈ outs, vo < g.values.length)
  | .detachNode nid => nid < g.nodes.length

def opsValid : AGraph → List GraphOp → Prop
  | _, [] => True
  | g, op :: rest => opValid g op ∧ opsValid (applyOp g op) rest

/-! ## The producer/users edge invariant (claim C5) -/

/-- The invariant stated by the claim: every producer edge points at a stored
node listing the value among its outputs, and every entry of `users` is a
stored node listing the value among its inputs, appearing in `users` once per
input occurrence. -/
def UsersProducerInv (g : AGraph) : Prop :=
  ∀ (vi : Nat) (v : AValue), g.values[vi]? = some v →
    (∀ (n : Nat), v.producer = some n →
      ∃ nd, g.nodes[n]? = some nd ∧ vi ∈ nd.outputs) ∧
    (∀ n ∈ v.users, ∃ nd, g.nodes[n]? = some nd ∧ vi ∈ nd.inputs ∧
      v.users.count n = nd.inputs.count vi)

/-- Auxiliary strengthening: nodes reference only stored values. -/
def nodesClosed (g : AGraph) : Prop :=
  ∀ nd ∈ g.nodes,
    (∀ vi ∈ nd.inputs, vi < g.values.length) ∧
    (∀ vo ∈ nd.outputs, vo < g.values.length)

def producerOk (g : AGraph) : Prop :=
  ∀ (vi : Nat) (v : AValue), g.values[vi]? = some v →
    ∀ (n : Nat), v.producer = some n →
      ∃ nd, g.nodes[n]? = some nd ∧ vi ∈ nd.outputs

/-- Auxiliary strengthening: for every stored node (detached or not) the
multiplicity of the node in a value's `users` equals the multiplicity of the
value among the node's inputs, detached nodes appearing zero times. -/
def usersCountOk (g : AGraph) : Prop :=
  ∀ (vi : Nat) (v : AValue), g.values[vi]? = some v →
    ∀ (n : Nat) (nd : ANode), g.nodes[n]? = some nd →
      v.users.count n = if nd.detached then 0 else nd.inputs.count vi

def usersClosed (g : AGraph) : Prop :=
  ∀ (vi : Nat) (v : AValue), g.values[vi]? = some v →
    ∀ n ∈ v.users, n < g.nodes.length

def StrongInv (g : AGraph) : Prop :=
  nodesClosed g ∧ producerOk g ∧ usersCountOk g ∧ usersClosed g

theorem UsersProducerInv_of_StrongInv {g : AGraph} (h : StrongInv g) :
    UsersProducerInv g := by
  obtain ⟨-, hprod, hcount, hclosed⟩ := h
  unfold UsersProducerInv
  intro vi v hv
  refine ⟨hprod vi v hv, ?_⟩
  intro n hn
  have hlt : n < g.nodes.length := hclosed vi v hv n hn
  obtain ⟨nd, hnd⟩ : ∃ nd, g.nodes[n]? = some nd :=
    ⟨g.nodes[n], List.getElem?_eq_getElem hlt⟩
  have hcnt := hcount vi v hv n nd hnd
  have hpos : 0 < v.users.count n := List.count_pos_iff.mpr hn
  by_cases hd : nd.detached
  · rw [if_pos hd] at hcnt; omega
  · rw [if_neg hd] at hcnt
    refine ⟨nd, hnd, ?_, hcnt⟩
    have hp : 0 < nd.inputs.count vi := by omega
    exact List.count_pos_iff.mp hp

/-! ### Characterizations of the edge-update loops -/

theorem modifyValue_getElem? (vs : List AValue) (vi : Nat) (f : AValue → AValue)
    (vj : Nat) :
    (modifyValue vs vi f)[vj]? =
      if vi = vj then (vs[vj]?).map f else vs[vj]? := by
  unfold modifyValue
  cases h : vs[vi]? with
  | none =>
    by_cases he : vi = vj
    · subst he; simp [h]
    · simp [he]
  | some v =>
    rw [List.getElem?_set]
    have hlt : vi < vs.length := by
      by_contra hge
      push_neg at hge
      rw [List.getElem?_eq_none hge] at h
      cases h
    by_cases he : vi = vj
    · subst he; simp [hlt, h]
    · simp [he]

theorem modifyValue_length (vs : List AValue) (vi : Nat) (f : AValue → AValue) :
    (modifyValue vs vi f).length = vs.length := by
  unfold modifyValue
  cases vs[vi]? <;> simp

theorem addUsersFold_getElem? (ins : List Nat) (nid : Nat) :
    ∀ (vs : List AValue) (vi : Nat),
      (addUsersFold ins nid vs)[vi]? =
        (vs[vi]?).map
          (fun v =>
            { v with users := v.users ++ List.replicate (ins.count vi) nid }) := by
  induction ins with
  | nil =>
    intro vs vi
    cases hv : vs[vi]? <;> simp [addUsersFold, hv]
  | cons i rest ih =>
    intro vs vi
    rw [show addUsersFold (i :: rest) nid vs =
          addUsersFold rest nid
            (modifyValue vs i (fun v => { v with users := v.users ++ [nid] }))
        from rfl]
    rw [ih, modifyValue_getElem?]
    by_cases he : i = vi
    · rw [if_pos he, he]
      cases hv : vs[vi]? with
      | none => rfl
      | some v =>
        simp only [Option.map_some', Option.some.injEq]
        rw [List.count_cons_self]
        simp [List.replicate_succ, List.append_assoc]
    · rw [if_neg he]
      have hne : vi ≠ i := fun hc => he hc.symm
      rw [List.count_cons_of_ne hne]

theorem addUsersFold_length (ins : List Nat) (nid : Nat) :
    ∀ (vs : List AValue), (addUsersFold ins nid vs).length = vs.length := by
  induction ins with
  | nil => intro vs; rfl
  | cons i rest ih =>
    intro vs
    rw [show addUsersFold (i :: rest) nid vs =
          addUsersFold rest nid
            (modifyValue vs i (fun v => { v with users := v.users ++ [nid] }))
        from rfl]
    rw [ih, modifyValue_length]

theorem setProducerFold_getElem? (outs : List Nat) (nid : Nat) :
    ∀ (vs : List AValue) (vi : Nat),
      (setProducerFold outs nid vs)[vi]? =
        (vs[vi]?).map
          (fun v =>
            if vi ∈ outs then { v with producer := some nid } else v) := by
  induction outs with
  | nil =>
    intro vs vi
    cases hv : vs[vi]? <;> simp [setProducerFold, hv]
  | cons o rest ih =>
    intro vs vi
    rw [show setProducerFold (o :: rest) nid vs =
          setProducerFold rest nid
            (modifyValue vs o (fun v => { v with producer := some nid }))
        from rfl]
    rw [ih, modifyValue_getElem?]
    by_cases he : o = vi
    · rw [if_pos he]
      cases hv : vs[vi]? with
      | none => simp
      | some v =>
        by_cases hm : vi ∈ rest <;>
          simp [hm, List.mem_cons, he.symm]
    · rw [if_neg he]
      have hne : vi ≠ o := fun hc => he hc.symm
      cases hv : vs[vi]? with
      | none => simp
      | some v =>
        by_cases hm : vi ∈ rest <;> simp [List.mem_cons, hm, hne]

theorem setProducerFold_length (outs : List Nat) (nid : Nat) :
    ∀ (vs : List AValue), (setProducerFold outs nid vs).length = vs.length := by
  induction outs with
  | nil => intro vs; rfl
  | cons o rest ih =>
    intro vs
    rw [show setProducerFold (o :: rest) nid vs =
          setProducerFold rest nid
            (modifyValue vs o (fun v => { v with producer := some nid }))
        from rfl]
    rw [ih, modifyValue_length]

/-- `k`-fold first-occurrence erasure, the cumulative effect of the
`DetachUser` calls a detached node performs on one value. -/
def eraseN (l : List Nat) (a : Nat) : Nat → List Nat
  | 0 => l
  | k + 1 => eraseN (l.erase a) a k

theorem count_eraseN_self (a : Nat) : ∀ (k : Nat) (l : List Nat),
    (eraseN l a k).count a = l.count a - k := by
  intro k
  induction k with
  | zero => intro l; simp [eraseN]
  | succ k ih =>
    intro l
    rw [show eraseN l a (k + 1) = eraseN (l.erase a) a k from rfl, ih,
      List.count_erase_self]
    omega

theorem count_eraseN_ne {a b : Nat} (h : a ≠ b) : ∀ (k : Nat) (l : List Nat),
    (eraseN l b k).count a = l.count a := by
  intro k
  induction k with
  | zero => intro l; simp [eraseN]
  | succ k ih =>
    intro l
    rw [show eraseN l b (k + 1) = eraseN (l.erase b) b k from rfl, ih,
      List.count_erase_of_ne h]

theorem mem_of_mem_eraseN {a b : Nat} : ∀ {k : Nat} {l : List Nat},
    a ∈ eraseN l b k → a ∈ l := by
  intro k
  induction k with
  | zero => intro l h; exact h
  | succ k ih =>
    intro l h
    exact List.mem_of_mem_erase (ih h)

theorem eraseUsersFold_getElem? (ins : List Nat) (nid : Nat) :
    ∀ (vs : List AValue) (vi : Nat),
      (eraseUsersFold ins nid vs)[vi]? =
        (vs[vi]?).map
          (fun v => { v with users := eraseN v.users nid (ins.count vi) }) := by
  induction ins with
  | nil =>
    intro vs vi
    cases hv : vs[vi]? <;> simp [eraseUsersFold, eraseN, hv]
  | cons i rest ih =>
    intro vs vi
    rw [show eraseUsersFold (i :: rest) nid vs =
          eraseUsersFold rest nid
            (modifyValue vs i (fun v => { v with users := v.users.erase nid }))
        from rfl]
    rw [ih, modifyValue_getElem?]
    by_cases he : i = vi
    · rw [if_pos he, he]
      cases hv : vs[vi]? with
      | none => rfl
      | some v =>
        simp only [Option.map_some', Option.some.injEq]
        rw [List.count_cons_self]
        rfl
    · rw [if_neg he]
      have hne : vi ≠ i := fun hc => he hc.symm
      rw [List.count_cons_of_ne hne]

theorem eraseUsersFold_length (ins : List Nat) (nid : Nat) :
    ∀ (vs : List AValue), (eraseUsersFold ins nid vs).length = vs.length := by
  induction ins with
  | nil => intro vs; rfl
  | cons i rest ih =>
    intro vs
    rw [show eraseUsersFold (i :: rest) nid vs =
          eraseUsersFold rest nid
            (modifyValue vs i (fun v => { v with users := v.users.erase nid }))
        from rfl]
    rw [ih, modifyValue_length]

theorem clearProducerFold_getElem? (outs : List Nat) (nid : Nat) :
    ∀ (vs : List AValue) (vi : Nat),
      (clearProducerFold outs nid vs)[vi]? =
        (vs[vi]?).map
          (fun v =>
            if vi ∈ outs ∧ v.producer = some nid then
              { v with producer := none }
            else v) := by
  induction outs with
  | nil =>
    intro vs vi
    rw [show clearProducerFold [] nid vs = vs from rfl]
    cases hv : vs[vi]? <;> simp
  | cons o rest ih =>
    intro vs vi
    rw [show clearProducerFold (o :: rest) nid vs =
          clearProducerFold rest nid
            (modifyValue vs o
              (fun v =>
                if v.producer = some nid then { v with producer := none }
                else v))
        from rfl]
    rw [ih, modifyValue_getElem?]
    by_cases he : o = vi
    · rw [if_pos he]
      cases hv : vs[vi]? with
      | none => simp
      | some v =>
        by_cases hp : v.producer = some nid
        · by_cases hm : vi ∈ rest <;>
            simp [hp, hm, List.mem_cons, he.symm]
        · by_cases hm : vi ∈ rest <;>
            simp [hp, hm, List.mem_cons, he.symm]
    · rw [if_neg he]
      have hne : vi ≠ o := fun hc => he hc.symm
      cases hv : vs[vi]? with
      | none => simp
      | some v =>
        by_cases hp : v.producer = some nid <;>
          by_cases hm : vi ∈ rest <;>
            simp [List.mem_cons, hne, hm, hp]

theorem clearProducerFold_length (outs : List Nat) (nid : Nat) :
    ∀ (vs : List AValue), (clearProducerFold outs nid vs).length = vs.length := by
  induction outs with
  | nil => intro vs; rfl
  | cons o rest ih =>
    intro vs
    rw [show clearProducerFold (o :: rest) nid vs =
          clearProducerFold rest nid
            (modifyValue vs o
              (fun v =>
                if v.producer = some nid then { v with producer := none }
                else v))
        from rfl]
    rw [ih, modifyValue_length]

/-! ### Small helpers -/

theorem lt_length_of_getElem?_some {α : Type} {l : List α} {i : Nat} {a : α}
    (h : l[i]? = some a) : i < l.length := by
  by_contra hge
  push_neg at hge
  rw [List.getElem?_eq_none hge] at h
  cases h

theorem getElem?_append_left' {α : Type} {l l' : List α} {i : Nat}
    (h : i < l.length) : (l ++ l')[i]? = l[i]? := by
  rw [List.getElem?_append, if_pos h]

theorem mem_of_lookup_eq_some {m : List (String × Nat)} {k : String} {v : Nat} :
    m.lookup k = some v → (k, v) ∈ m := by
  induction m with
  | nil => intro h; cases h
  | cons p rest ih =>
    intro h
    rw [List.lookup] at h
    cases hbeq : k == p.1 with
    | false =>
      rw [hbeq] at h
      exact List.mem_cons_of_mem p (ih h)
    | true =>
      rw [hbeq] at h
      have hk : k = p.1 := eq_of_beq hbeq
      have hv2 : some p.2 = some v := h
      have hpv : p.2 = v := by injection hv2
      have hkv : (k, v) = p := by
        cases p with
        | mk a b =>
          simp only [Prod.mk.injEq]
          exact ⟨hk, hpv.symm⟩
      rw [hkv]
      exact List.mem_cons_self _ _

/-! ### `StrongInv` preservation -/

/-- The invariant only reads `values` and `nodes`. -/
theorem StrongInv_congr {g g' : AGraph} (h : StrongInv g)
    (hvals : g'.values = g.values) (hnodes : g'.nodes = g.nodes) :
    StrongInv g' := by
  obtain ⟨hnc, hprod, hcount, hclosed⟩ := h
  refine ⟨?_, ?_, ?_, ?_⟩
  · intro nd hnd
    rw [hvals]
    exact hnc nd (by rw [← hnodes]; exact hnd)
  · intro vi v hv n hp
    rw [hnodes]
    exact hprod vi v (by rw [← hvals]; exact hv) n hp
  · intro vi v hv n nd hnd
    exact hcount vi v (by rw [← hvals]; exact hv) n nd (by rw [← hnodes]; exact hnd)
  · intro vi v hv n hn
    rw [hnodes]
    exact hclosed vi v (by rw [← hvals]; exact hv) n hn

/-- Appending a fresh value with no edges preserves the invariant. -/
theorem StrongInv_appendValue {g g' : AGraph} (h : StrongInv g) {v : AValue}
    (hvals : g'.values = g.values ++ [v]) (hnodes : g'.nodes = g.nodes)
    (hu : v.users = []) (hp : v.producer = none) :
    StrongInv g' := by
  obtain ⟨hnc, hprod, hcount, hclosed⟩ := h
  have hlen : g'.values.length = g.values.length + 1 := by
    rw [hvals, List.length_append, List.length_singleton]
  have hlook : ∀ (vi : Nat) (w : AValue), g'.values[vi]? = some w →
      g.values[vi]? = some w ∨ (vi = g.values.length ∧ w = v) := by
    intro vi w hw
    rw [hvals] at hw
    by_cases hlt : vi < g.values.length
    · left; rw [getElem?_append_left' hlt] at hw; exact hw
    · right
      rw [List.getElem?_append, if_neg hlt] at hw
      push_neg at hlt
      rcases Nat.lt_or_ge vi (g.values.length + 1) with hv1 | hv1
      · have : vi = g.values.length := by omega
        subst this
        simp at hw
        exact ⟨rfl, hw.symm⟩
      · exfalso
        have : vi - g.values.length ≥ 1 := by omega
        rw [List.getElem?_eq_none (by simp [List.length_singleton]; omega)] at hw
        cases hw
  refine ⟨?_, ?_, ?_, ?_⟩
  · intro nd hnd
    rw [hnodes] at hnd
    obtain ⟨h1, h2⟩ := hnc nd hnd
    exact ⟨fun vi hvi => by rw [hlen]; exact (h1 vi hvi).trans (Nat.lt_succ_self _),
           fun vo hvo => by rw [hlen]; exact (h2 vo hvo).trans (Nat.lt_succ_self _)⟩
  · intro vi w hw n hpn
    rcases hlook vi w hw with hold | ⟨hvi, hwv⟩
    · rw [hnodes]
      exact hprod vi w hold n hpn
    · rw [hwv, hp] at hpn
      cases hpn
  · intro vi w hw n nd hnd
    rw [hnodes] at hnd
    rcases hlook vi w hw with hold | ⟨hvi, hwv⟩
    · exact hcount vi w hold n nd hnd
    · subst hvi
      rw [hwv, hu]
      have hmem : nd ∈ g.nodes := List.getElem?_mem hnd
      have hbound := (hnc nd hmem).1
      have hno : g.values.length ∉ nd.inputs := by
        intro hin
        exact absurd (hbound _ hin) (Nat.lt_irrefl _)
      rw [List.count_eq_zero_of_not_mem hno]
      simp
  · intro vi w hw n hn
    rw [hnodes]
    rcases hlook vi w hw with hold | ⟨hvi, hwv⟩
    · exact hclosed vi w hold n hn
    · rw [hwv, hu] at hn
      cases hn

/-- Replacing one stored value by a version with the same `users` and
`producer` preserves the invariant. -/
theorem StrongInv_setValue {g g' : AGraph} (h : StrongInv g) {vid : Nat}
    {v v' : AValue} (hv : g.values[vid]? = some v)
    (hvals : g'.values = g.values.set vid v') (hnodes : g'.nodes = g.nodes)
    (hu : v'.users = v.users) (hp : v'.producer = v.producer) :
    StrongInv g' := by
  obtain ⟨hnc, hprod, hcount, hclosed⟩ := h
  have hlen : g'.values.length = g.values.length := by
    rw [hvals, List.length_set]
  have hlook : ∀ (vi : Nat) (w : AValue), g'.values[vi]? = some w →
      g.values[vi]? = some w ∨ (vi = vid ∧ w = v') := by
    intro vi w hw
    rw [hvals, List.getElem?_set] at hw
    by_cases he : vid = vi
    · right
      subst he
      rw [if_pos rfl, if_pos (lt_length_of_getElem?_some hv)] at hw
      cases hw
      exact ⟨rfl, rfl⟩
    · left
      rw [if_neg he] at hw
      exact hw
  refine ⟨?_, ?_, ?_, ?_⟩
  · intro nd hnd
    rw [hnodes] at hnd
    rw [hlen]
    exact hnc nd hnd
  · intro vi w hw n hpn
    rw [hnodes]
    rcases hlook vi w hw with hold | ⟨hvi, hwv⟩
    · exact hprod vi w hold n hpn
    · rw [hwv, hp] at hpn
      rw [hvi]
      exact hprod vid v hv n hpn
  · intro vi w hw n nd hnd
    rw [hnodes] at hnd
    rcases hlook vi w hw with hold | ⟨hvi, hwv⟩
    · exact hcount vi w hold n nd hnd
    · rw [hwv, hu, hvi]
      exact hcount vid v hv n nd hnd
  · intro vi w hw n hn
    rw [hnodes]
    rcases hlook vi w hw with hold | ⟨hvi, hwv⟩
    · exact hclosed vi w hold n hn
    · rw [hwv, hu] at hn
      exact hclosed vid v hv n hn

/-- `Graph::AddNodeImpl` preserves the invariant when called (as the C++ does)
with values of this graph. -/
theorem StrongInv_addNodeImpl {g : AGraph} (h : StrongInv g)
    (nodeName op : String) {ins outs : List Nat}
    (hins : ∀ vi ∈ ins, vi < g.values.length)
    (houts : ∀ vo ∈ outs, vo < g.values.length) :
    StrongInv (g.addNodeImpl nodeName op ins outs).2 := by
  obtain ⟨hnc, hprod, hcount, hclosed⟩ := h
  have hval : ∀ (vi : Nat),
      (g.addNodeImpl nodeName op ins outs).2.values[vi]? =
        (g.values[vi]?).map (fun v =>
          if vi ∈ outs then
            { v with
                users := v.users ++ List.replicate (ins.count vi) g.nodes.length
                producer := some g.nodes.length }
          else
            { v with
                users := v.users ++ List.replicate (ins.count vi) g.nodes.length }) := by
    intro vi
    show (setProducerFold outs g.nodes.length
        (addUsersFold ins g.nodes.length g.values))[vi]? = _
    rw [setProducerFold_getElem?, addUsersFold_getElem?]
    cases hv : g.values[vi]? with
    | none => rfl
    | some v => by_cases hm : vi ∈ outs <;> simp [hm]
  have hvlen : (g.addNodeImpl nodeName op ins outs).2.values.length =
      g.values.length := by
    show (setProducerFold outs g.nodes.length
        (addUsersFold ins g.nodes.length g.values)).length = _
    rw [setProducerFold_length, addUsersFold_length]
  have hnodes : (g.addNodeImpl nodeName op ins outs).2.nodes =
      g.nodes ++ [{ name := nodeName, op := op, inputs := ins, outputs := outs }] :=
    rfl
  have hnode_new : (g.addNodeImpl nodeName op ins outs).2.nodes[g.nodes.length]? =
      some { name := nodeName, op := op, inputs := ins, outputs := outs } := by
    rw [hnodes]
    exact List.getElem?_concat_length _ _
  have hnode_char : ∀ (n : Nat) (nd : ANode),
      (g.addNodeImpl nodeName op ins outs).2.nodes[n]? = some nd →
      g.nodes[n]? = some nd ∨
        (n = g.nodes.length ∧
          nd = { name := nodeName, op := op, inputs := ins, outputs := outs }) := by
    intro n nd hnd
    rw [hnodes] at hnd
    by_cases hlt : n < g.nodes.length
    · left
      rw [getElem?_append_left' hlt] at hnd
      exact hnd
    · right
      rw [List.getElem?_append, if_neg hlt] at hnd
      push_neg at hlt
      rcases Nat.lt_or_ge n (g.nodes.length + 1) with h1 | h1
      · have he : n = g.nodes.length := by omega
        subst he
        simp at hnd
        exact ⟨rfl, hnd.symm⟩
      · exfalso
        rw [List.getElem?_eq_none (by simp [List.length_singleton]; omega)] at hnd
        cases hnd
  have hnlen : (g.addNodeImpl nodeName op ins outs).2.nodes.length =
      g.nodes.length + 1 := by
    rw [hnodes, List.length_append, List.length_singleton]
  refine ⟨?_, ?_, ?_, ?_⟩
  · intro nd hnd
    rw [hnodes] at hnd
    rw [hvlen]
    rcases List.mem_append.mp hnd with hold | hnew
    · exact hnc nd hold
    · have : nd = { name := nodeName, op := op, inputs := ins, outputs := outs } := by
        simpa using hnew
      rw [this]
      exact ⟨hins, houts⟩
  · intro vi w hw n hpn
    rw [hval vi] at hw
    cases hv : g.values[vi]? with
    | none => rw [hv] at hw; cases hw
    | some v =>
      rw [hv] at hw
      simp only [Option.map_some', Option.some.injEq] at hw
      by_cases hm : vi ∈ outs
      · rw [if_pos hm] at hw
        rw [← hw] at hpn
        simp only at hpn
        cases hpn
        exact ⟨_, hnode_new, hm⟩
      · rw [if_neg hm] at hw
        rw [← hw] at hpn
        simp only at hpn
        obtain ⟨nd, hnd, hmem⟩ := hprod vi v hv n hpn
        refine ⟨nd, ?_, hmem⟩
        rw [hnodes]
        exact (getElem?_append_left' (lt_length_of_getElem?_some hnd)).trans hnd
  · intro vi w hw n nd hnd
    rw [hval vi] at hw
    cases hv : g.values[vi]? with
    | none => rw [hv] at hw; cases hw
    | some v =>
      rw [hv] at hw
      simp only [Option.map_some', Option.some.injEq] at hw
      have husers : w.users =
          v.users ++ List.replicate (ins.count vi) g.nodes.length := by
        by_cases hm : vi ∈ outs
        · rw [if_pos hm] at hw; rw [← hw]
        · rw [if_neg hm] at hw; rw [← hw]
      rw [husers, List.count_append, List.count_replicate]
      rcases hnode_char n nd hnd with hold | ⟨hn, hndv⟩
      · have hlt : n < g.nodes.length := lt_length_of_getElem?_some hold
        have hne2 : (g.nodes.length == n) = false :=
          beq_eq_false_iff_ne.mpr (by omega)
        rw [hne2]
        rw [hcount vi v hv n nd hold]
        cases nd.detached <;> simp
      · subst hn
        have hzero : v.users.count g.nodes.length = 0 := by
          apply List.count_eq_zero_of_not_mem
          intro hmem
          exact absurd (hclosed vi v hv _ hmem) (Nat.lt_irrefl _)
        rw [hzero, hndv]
        simp
  · intro vi w hw n hn
    rw [hval vi] at hw
    cases hv : g.values[vi]? with
    | none => rw [hv] at hw; cases hw
    | some v =>
      rw [hv] at hw
      simp only [Option.map_some', Option.some.injEq] at hw
      have husers : w.users =
          v.users ++ List.replicate (ins.count vi) g.nodes.length := by
        by_cases hm : vi ∈ outs
        · rw [if_pos hm] at hw; rw [← hw]
        · rw [if_neg hm] at hw; rw [← hw]
      rw [husers] at hn
      rw [hnlen]
      rcases List.mem_append.mp hn with hold | hrep
      · exact (hclosed vi v hv n hold).trans (Nat.lt_succ_self _)
      · rw [List.eq_of_mem_replicate hrep]
        exact Nat.lt_succ_self _

/-- Core of node detachment: the value/node updates it performs preserve the
invariant. -/
theorem StrongInv_detachCore {g : AGraph} (h : StrongInv g) {nid : Nat}
    {nd : ANode} (hnd : g.nodes[nid]? = some nd) (hdet : ¬(nd.detached = true))
    {g' : AGraph}
    (hvals : g'.values =
      clearProducerFold nd.outputs nid (eraseUsersFold nd.inputs nid g.values))
    (hnodes : g'.nodes = g.nodes.set nid { nd with detached := true }) :
    StrongInv g' := by
  obtain ⟨hnc, hprod, hcount, hclosed⟩ := h
  have hval : ∀ (vi : Nat),
      (clearProducerFold nd.outputs nid
          (eraseUsersFold nd.inputs nid g.values))[vi]? =
        (g.values[vi]?).map (fun v =>
          if vi ∈ nd.outputs ∧ v.producer = some nid then
            { v with
                users := eraseN v.users nid (nd.inputs.count vi)
                producer := none }
          else { v with users := eraseN v.users nid (nd.inputs.count vi) }) := by
    intro vi
    rw [clearProducerFold_getElem?, eraseUsersFold_getElem?]
    cases hv : g.values[vi]? with
    | none => rfl
    | some v =>
      by_cases hm : vi ∈ nd.outputs <;>
        by_cases hp : v.producer = some nid <;> simp [hm, hp]
  have hvlen : g'.values.length = g.values.length := by
    rw [hvals, clearProducerFold_length, eraseUsersFold_length]
  have hnode_char : ∀ (n : Nat) (nd' : ANode),
      g'.nodes[n]? = some nd' →
      (n ≠ nid ∧ g.nodes[n]? = some nd') ∨
        (n = nid ∧ nd' = { nd with detached := true }) := by
    intro n nd' hnd'
    rw [hnodes, List.getElem?_set] at hnd'
    by_cases he : nid = n
    · right
      rw [if_pos he, if_pos (by
        have := lt_length_of_getElem?_some hnd
        omega)] at hnd'
      cases hnd'
      exact ⟨he.symm, rfl⟩
    · left
      rw [if_neg he] at hnd'
      exact ⟨fun hc => he hc.symm, hnd'⟩
  refine ⟨?_, ?_, ?_, ?_⟩
  · intro nd' hnd'
    rw [hnodes] at hnd'
    rw [hvlen]
    rcases List.mem_or_eq_of_mem_set hnd' with hold | hnew
    · exact hnc nd' hold
    · rw [hnew]
      exact hnc nd (List.getElem?_mem hnd)
  · intro vi w hw n hpn
    rw [hvals, hval vi] at hw
    cases hv : g.values[vi]? with
    | none => rw [hv] at hw; cases hw
    | some v =>
      rw [hv] at hw
      simp only [Option.map_some', Option.some.injEq] at hw
      by_cases hcnd : vi ∈ nd.outputs ∧ v.producer = some nid
      · rw [if_pos hcnd] at hw
        rw [← hw] at hpn
        cases hpn
      · rw [if_neg hcnd] at hw
        rw [← hw] at hpn
        simp only at hpn
        obtain ⟨ndm, hndm, hmem⟩ := hprod vi v hv n hpn
        by_cases hne : n = nid
        · exfalso
          rw [hne, hnd] at hndm
          rw [hne] at hpn
          cases hndm
          exact hcnd ⟨hmem, hpn⟩
        · refine ⟨ndm, ?_, hmem⟩
          rw [hnodes, List.getElem?_set, if_neg (fun hc => hne hc.symm)]
          exact hndm
  · intro vi w hw n nd' hnd'
    rw [hvals, hval vi] at hw
    cases hv : g.values[vi]? with
    | none => rw [hv] at hw; cases hw
    | some v =>
      rw [hv] at hw
      simp only [Option.map_some', Option.some.injEq] at hw
      have husers : w.users = eraseN v.users nid (nd.inputs.count vi) := by
        by_cases hcnd : vi ∈ nd.outputs ∧ v.producer = some nid
        · rw [if_pos hcnd] at hw; rw [← hw]
        · rw [if_neg hcnd] at hw; rw [← hw]
      rw [husers]
      rcases hnode_char n nd' hnd' with ⟨hne, hold⟩ | ⟨he, hndv⟩
      · rw [count_eraseN_ne hne]
        exact hcount vi v hv n nd' hold
      · rw [he, hndv, count_eraseN_self]
        have h0 : v.users.count nid = nd.inputs.count vi := by
          have hc := hcount vi v hv nid nd hnd
          rwa [if_neg hdet] at hc
        rw [h0]
        simp
  · intro vi w hw n hn
    rw [hvals, hval vi] at hw
    cases hv : g.values[vi]? with
    | none => rw [hv] at hw; cases hw
    | some v =>
      rw [hv] at hw
      simp only [Option.map_some', Option.some.injEq] at hw
      have husers : w.users = eraseN v.users nid (nd.inputs.count vi) := by
        by_cases hcnd : vi ∈ nd.outputs ∧ v.producer = some nid
        · rw [if_pos hcnd] at hw; rw [← hw]
        · rw [if_neg hcnd] at hw; rw [← hw]
      rw [husers] at hn
      rw [hnodes, List.length_set]
      exact hclosed vi v hv n (mem_of_mem_eraseN hn)

/-- Detaching a node preserves the invariant. -/
theorem StrongInv_detachNode {g : AGraph} (h : StrongInv g) (nid : Nat) :
    StrongInv (g.detachNode nid) := by
  unfold AGraph.detachNode
  split
  · exact h
  · next nd hnd =>
    split
    · exact h
    · next hdet => exact StrongInv_detachCore h hnd hdet rfl rfl

theorem addNodeImpl_values_length (g : AGraph) (nm op : String)
    (ins outs : List Nat) :
    (g.addNodeImpl nm op ins outs).2.values.length = g.values.length := by
  show (setProducerFold outs g.nodes.length
      (addUsersFold ins g.nodes.length g.values)).length = _
  rw [setProducerFold_length, addUsersFold_length]

/-- `Graph::AddNode` preserves the invariant when called with values of this
graph. -/
theorem StrongInv_addNode {g : AGraph} (h : StrongInv g) (op : String)
    {ins outs : List Nat} (hins : ∀ vi ∈ ins, vi < g.values.length)
    (houts : ∀ vo ∈ outs, vo < g.values.length) (base : String) :
    StrongInv (g.addNode op ins outs base).2 := by
  unfold AGraph.addNode
  exact StrongInv_addNodeImpl (StrongInv_congr h rfl rfl) _ op hins houts

theorem addNode_values_length (g : AGraph) (op : String) (ins outs : List Nat)
    (base : String) :
    (g.addNode op ins outs base).2.values.length = g.values.length := by
  unfold AGraph.addNode
  rw [addNodeImpl_values_length]
  rfl

/-! ### The invariant through ONNX construction -/

/-- Every id in `values_by_name` refers to a stored value. -/
def mapValid (st : BuildSt) : Prop := ∀ p ∈ st.m, p.2 < st.g.values.length

def BuildInv (st : BuildSt) : Prop := StrongInv st.g ∧ mapValid st

theorem BuildInv_addDeclaredInput {st st' : BuildSt} {name : String}
    (h : BuildInv st) (heq : addDeclaredInput st name = .ok st') :
    BuildInv st' := by
  obtain ⟨hs, hm⟩ := h
  simp only [addDeclaredInput] at heq
  split at heq
  · cases heq
  · injection heq with h2
    subst h2
    refine ⟨StrongInv_appendValue hs rfl rfl rfl rfl, ?_⟩
    intro q hq
    simp only [List.length_append, List.length_singleton]
    rcases List.mem_cons.mp hq with hq1 | hq2
    · rw [hq1]; omega
    · exact (hm q hq2).trans (Nat.lt_succ_self _)

theorem BuildInv_addDeclaredTemp {st st' : BuildSt} {name : String}
    (h : BuildInv st) (heq : addDeclaredTemp st name = .ok st') :
    BuildInv st' := by
  obtain ⟨hs, hm⟩ := h
  simp only [addDeclaredTemp] at heq
  split at heq
  · cases heq
  · injection heq with h2
    subst h2
    refine ⟨StrongInv_appendValue hs rfl rfl rfl rfl, ?_⟩
    intro q hq
    simp only [List.length_append, List.length_singleton]
    rcases List.mem_cons.mp hq with hq1 | hq2
    · rw [hq1]; omega
    · exact (hm q hq2).trans (Nat.lt_succ_self _)

theorem BuildInv_addDeclaredOutput {st : BuildSt} (h : BuildInv st)
    (name : String) : BuildInv (addDeclaredOutput st name) := by
  obtain ⟨hs, hm⟩ := h
  have happ : StrongInv (pushOutputValue st name) :=
    StrongInv_appendValue hs rfl rfl rfl rfl
  have hplen : (pushOutputValue st name).values.length =
      st.g.values.length + 1 := by
    unfold pushOutputValue
    simp [List.length_append]
  unfold addDeclaredOutput
  split
  · next old hold =>
    have holdlt : old < st.g.values.length :=
      hm (name, old) (mem_of_lookup_eq_some hold)
    constructor
    · refine StrongInv_addNode happ "Identity" ?_ ?_ _
      · intro vi hvi
        simp only [List.mem_singleton] at hvi
        rw [hvi, hplen]
        omega
      · intro vo hvo
        simp only [List.mem_singleton] at hvo
        rw [hvo, hplen]
        omega
    · intro q hq
      show q.2 < ((pushOutputValue st name).addNode "Identity" [old]
        [st.g.values.length]).2.values.length
      rw [addNode_values_length, hplen]
      exact (hm q hq).trans (Nat.lt_succ_self _)
  · refine ⟨happ, ?_⟩
    intro q hq
    show q.2 < (pushOutputValue st name).values.length
    rw [hplen]
    rcases List.mem_cons.mp hq with hq1 | hq2
    · rw [hq1]; omega
    · exact (hm q hq2).trans (Nat.lt_succ_self _)

theorem BuildInv_attachInitializer {st st' : BuildSt} {name : String}
    (h : BuildInv st) (heq : attachInitializer st name = .ok st') :
    BuildInv st' := by
  obtain ⟨hs, hm⟩ := h
  simp only [attachInitializer] at heq
  split at heq
  · cases heq
  · next vid hvid =>
    split at heq
    · cases heq
    · next v hv =>
      split at heq
      · injection heq with h2
        subst h2
        refine ⟨StrongInv_setValue hs hv rfl rfl rfl rfl, ?_⟩
        intro q hq
        simp only [List.length_set]
        exact hm q hq
      · cases heq

theorem BuildInv_getOrAddValue {st : BuildSt} (h : BuildInv st) (name : String) :
    BuildInv (getOrAddValue st name).2 ∧
    (getOrAddValue st name).1 < (getOrAddValue st name).2.g.values.length ∧
    st.g.values.length ≤ (getOrAddValue st name).2.g.values.length := by
  obtain ⟨hs, hm⟩ := h
  unfold getOrAddValue
  split
  · next vid hvid =>
    exact ⟨⟨hs, hm⟩, hm (name, vid) (mem_of_lookup_eq_some hvid), le_rfl⟩
  · unfold AGraph.addValueDefault
    by_cases hn : name = ""
    · rw [if_pos hn]
      refine ⟨⟨StrongInv_appendValue hs rfl rfl rfl rfl, ?_⟩, ?_, ?_⟩
      · intro q hq
        simp only [List.length_append, List.length_singleton]
        rcases List.mem_cons.mp hq with hq1 | hq2
        · rw [hq1]; omega
        · exact (hm q hq2).trans (Nat.lt_succ_self _)
      · simp [List.length_append]
      · simp [List.length_append]
    · rw [if_neg hn]
      refine ⟨⟨StrongInv_appendValue hs rfl rfl rfl rfl, ?_⟩, ?_, ?_⟩
      · intro q hq
        simp only [List.length_append, List.length_singleton]
        rcases List.mem_cons.mp hq with hq1 | hq2
        · rw [hq1]; omega
        · exact (hm q hq2).trans (Nat.lt_succ_self _)
      · simp [List.length_append]
      · simp [List.length_append]

theorem BuildInv_resolveNames (names : List String) :
    ∀ (st : BuildSt), BuildInv st →
      BuildInv (resolveNames st names).2 ∧
      (∀ v ∈ (resolveNames st names).1,
        v < (resolveNames st names).2.g.values.length) ∧
      st.g.values.length ≤ (resolveNames st names).2.g.values.length := by
  induction names with
  | nil =>
    intro st h
    exact ⟨h, fun v hv => absurd hv (List.not_mem_nil v), le_rfl⟩
  | cons n rest ih =>
    intro st h
    obtain ⟨h1, hlt, hle⟩ := BuildInv_getOrAddValue h n
    obtain ⟨h2, hall, hle2⟩ := ih (getOrAddValue st n).2 h1
    refine ⟨?_, ?_, ?_⟩
    · show BuildInv (resolveNames (getOrAddValue st n).2 rest).2
      exact h2
    · intro v hv
      rw [show (resolveNames st (n :: rest)).1 =
            (getOrAddValue st n).1 :: (resolveNames (getOrAddValue st n).2 rest).1
          from rfl] at hv
      rcases List.mem_cons.mp hv with hv1 | hv2
      · rw [hv1]
        exact Nat.lt_of_lt_of_le hlt hle2
      · exact hall v hv2
    · exact le_trans hle hle2

theorem BuildInv_addNodeFromProto {st : BuildSt} (h : BuildInv st)
    (np : NodeProto) : BuildInv (addNodeFromProto st np) := by
  obtain ⟨hi1, hiall, hile⟩ := BuildInv_resolveNames np.inputs st h
  obtain ⟨ho1, hoall, hole⟩ :=
    BuildInv_resolveNames np.outputs (resolveNames st np.inputs).2 hi1
  obtain ⟨hs, hm⟩ := ho1
  unfold addNodeFromProto
  constructor
  · refine StrongInv_addNodeImpl hs np.name np.op ?_ ?_
    · intro vi hvi
      exact Nat.lt_of_lt_of_le (hiall vi hvi) hole
    · intro vo hvo
      exact hoall vo hvo
  · intro q hq
    rw [addNodeImpl_values_length]
    exact hm q hq

theorem BuildInv_inputsPhase : ∀ (names : List String) (st st' : BuildSt),
    BuildInv st → inputsPhase st names = .ok st' → BuildInv st' := by
  intro names
  induction names with
  | nil =>
    intro st st' h heq
    injection heq with h2
    subst h2
    exact h
  | cons n rest ih =>
    intro st st' h heq
    rw [show inputsPhase st (n :: rest) =
          (match addDeclaredInput st n with
           | .error e => .error e
           | .ok st1 => inputsPhase st1 rest) from rfl] at heq
    split at heq
    · cases heq
    · next st1 hst1 =>
      exact ih st1 st' (BuildInv_addDeclaredInput h hst1) heq

theorem BuildInv_outputsPhase : ∀ (names : List String) (st : BuildSt),
    BuildInv st → BuildInv (outputsPhase st names) := by
  intro names
  induction names with
  | nil => intro st h; exact h
  | cons n rest ih =>
    intro st h
    exact ih (addDeclaredOutput st n) (BuildInv_addDeclaredOutput h n)

theorem BuildInv_tempsPhase : ∀ (names : List String) (st st' : BuildSt),
    BuildInv st → tempsPhase st names = .ok st' → BuildInv st' := by
  intro names
  induction names with
  | nil =>
    intro st st' h heq
    injection heq with h2
    subst h2
    exact h
  | cons n rest ih =>
    intro st st' h heq
    rw [show tempsPhase st (n :: rest) =
          (match addDeclaredTemp st n with
           | .error e => .error e
           | .ok st1 => tempsPhase st1 rest) from rfl] at heq
    split at heq
    · cases heq
    · next st1 hst1 =>
      exact ih st1 st' (BuildInv_addDeclaredTemp h hst1) heq

theorem BuildInv_initsPhase : ∀ (names : List String) (st st' : BuildSt),
    BuildInv st → initsPhase st names = .ok st' → BuildInv st' := by
  intro names
  induction names with
  | nil =>
    intro st st' h heq
    injection heq with h2
    subst h2
    exact h
  | cons n rest ih =>
    intro st st' h heq
    rw [show initsPhase st (n :: rest) =
          (match attachInitializer st n with
           | .error e => .error e
           | .ok st1 => initsPhase st1 rest) from rfl] at heq
    split at heq
    · cases heq
    · next st1 hst1 =>
      exact ih st1 st' (BuildInv_attachInitializer h hst1) heq

theorem BuildInv_nodesPhase : ∀ (nps : List NodeProto) (st : BuildSt),
    BuildInv st → BuildInv (nodesPhase st nps) := by
  intro nps
  induction nps with
  | nil => intro st h; exact h
  | cons np rest ih =>
    intro st h
    exact ih (addNodeFromProto st np) (BuildInv_addNodeFromProto h np)

theorem StrongInv_init (nm : String) : StrongInv { name := nm } := by
  refine ⟨?_, ?_, ?_, ?_⟩
  · intro nd hnd
    cases hnd
  · intro vi v hv
    cases hv
  · intro vi v hv
    cases hv
  · intro vi v hv
    cases hv

/-- A graph built from an ONNX proto satisfies the strengthened invariant. -/
theorem StrongInv_fromONNX {p : GraphProto} {g : AGraph}
    (h : AGraph.fromONNX p = .ok g) : StrongInv g := by
  unfold AGraph.fromONNX at h
  split at h
  · cases h
  · next st1 hst1 =>
    split at h
    · cases h
    · next st3 hst3 =>
      split at h
      · cases h
      · next st4 hst4 =>
        injection h with h2
        subst h2
        have h0 : BuildInv { g := { name := p.name }, m := [] } :=
          ⟨StrongInv_init p.name, by intro q hq; cases hq⟩
        have h1 := BuildInv_inputsPhase p.inputs _ st1 h0 hst1
        have h2 := BuildInv_outputsPhase p.outputs st1 h1
        have h3 := BuildInv_tempsPhase p.valueInfos _ st3 h2 hst3
        have h4 := BuildInv_initsPhase p.initializers st3 st4 h3 hst4
        exact (BuildInv_nodesPhase p.nodes st4 h4).1

/-! ### The invariant through mutation sequences -/

theorem StrongInv_applyOp {g : AGraph} {op : GraphOp} (h : StrongInv g)
    (hv : opValid g op) : StrongInv (applyOp g op) := by
  cases op with
  | addNode o ins outs base =>
    obtain ⟨hins, houts⟩ := hv
    exact StrongInv_addNodeImpl (StrongInv_congr h rfl rfl) _ o hins houts
  | addNodeImpl nm o ins outs =>
    obtain ⟨hins, houts⟩ := hv
    exact StrongInv_addNodeImpl h nm o hins houts
  | detachNode nid =>
    exact StrongInv_detachNode h nid

theorem StrongInv_applyOps : ∀ (ops : List GraphOp) (g : AGraph),
    StrongInv g → opsValid g ops → StrongInv (applyOps g ops) := by
  intro ops
  induction ops with
  | nil => intro g h _; exact h
  | cons op rest ih =>
    intro g h hv
    obtain ⟨hv1, hv2⟩ := hv
    exact ih (applyOp g op) (StrongInv_applyOp h hv1) hv2

/-- C5: after constructing a graph from an ONNX proto and applying any valid
sequence of `AddNode`/`AddNodeImpl`/`DetachNode` operations, every value's
`producer` is either absent or a stored node listing it among its outputs,
and every node in its `users` lists the value among its inputs, appearing in
`users` once per input occurrence. -/
theorem graph_edge_invariant (p : GraphProto) (g : AGraph) (ops : List GraphOp)
    (hg : AGraph.fromONNX p = .ok g) (hops : opsValid g ops) :
    UsersProducerInv (applyOps g ops) :=
  UsersProducerInv_of_StrongInv
    (StrongInv_applyOps ops g (StrongInv_fromONNX hg) hops)

/-- Witness for C5: a one-`Identity` graph built from a proto, then an
`AddNode` of a `Relu` over the same values followed by a `DetachNode` of the
original node. -/
theorem graph_edge_invariant_witness :
    UsersProducerInv (applyOps
      { name := "g"
        values := [{ name := "x", kind := 1, producer := none, users := [0] },
                   { name := "y", kind := 2, producer := some 0, users := [] }]
        inputValues := [0]
        outputValues := [1]
        tempValues := []
        nodes := [{ name := "n0", op := "Identity", inputs := [0], outputs := [1] }]
        genId := 0 }
      [GraphOp.addNode "Relu" [0] [1] "", GraphOp.detachNode 0]) :=
  graph_edge_invariant
    { name := "g", inputs := ["x"], outputs := ["y"], valueInfos := [],
      initializers := []
      nodes := [{ name := "n0", op := "Identity", inputs := ["x"], outputs := ["y"] }] }
    _ _ rfl ⟨⟨by decide, by decide⟩, ⟨by show 0 < _; decide, trivial⟩⟩

/-! ## Claim C7: duplicate names during ONNX construction -/

/-- Standalone description of the value arena after `AddNodeImpl`. -/
theorem addNodeImpl_values_getElem? (g : AGraph) (nm op : String)
    (ins outs : List Nat) (vi : Nat) :
    (g.addNodeImpl nm op ins outs).2.values[vi]? =
      (g.values[vi]?).map (fun v =>
        if vi ∈ outs then
          { v with
              users := v.users ++ List.replicate (ins.count vi) g.nodes.length
              producer := some g.nodes.length }
        else
          { v with
              users := v.users ++ List.replicate (ins.count vi) g.nodes.length }) := by
  show (setProducerFold outs g.nodes.length
      (addUsersFold ins g.nodes.length g.values))[vi]? = _
  rw [setProducerFold_getElem?, addUsersFold_getElem?]
  cases hv : g.values[vi]? with
  | none => rfl
  | some v => by_cases hm : vi ∈ outs <;> simp [hm]

/-- Name-and-kind preserving extension of a value arena. -/
def valuesExtend (vs vs' : List AValue) : Prop :=
  ∀ (i : Nat) (v : AValue), vs[i]? = some v →
    ∃ v', vs'[i]? = some v' ∧ v'.name = v.name ∧ v'.kind = v.kind

theorem valuesExtend_refl (vs : List AValue) : valuesExtend vs vs :=
  fun _ v hv => ⟨v, hv, rfl, rfl⟩

theorem valuesExtend_trans {a b c : List AValue} (h1 : valuesExtend a b)
    (h2 : valuesExtend b c) : valuesExtend a c := by
  intro i v hv
  obtain ⟨v1, hv1, hn1, hk1⟩ := h1 i v hv
  obtain ⟨v2, hv2, hn2, hk2⟩ := h2 i v1 hv1
  exact ⟨v2, hv2, hn2.trans hn1, hk2.trans hk1⟩

theorem valuesExtend_append (vs ws : List AValue) :
    valuesExtend vs (vs ++ ws) := by
  intro i v hv
  exact ⟨v, (getElem?_append_left' (lt_length_of_getElem?_some hv)).trans hv,
    rfl, rfl⟩

theorem valuesExtend_set {vs : List AValue} {i : Nat} {v v' : AValue}
    (hv : vs[i]? = some v) (hn : v'.name = v.name) (hk : v'.kind = v.kind) :
    valuesExtend vs (vs.set i v') := by
  intro j w hw
  rw [List.getElem?_set]
  by_cases he : i = j
  · subst he
    rw [hv] at hw
    injection hw with hw
    subst hw
    exact ⟨v', by rw [if_pos rfl, if_pos (lt_length_of_getElem?_some hv)], hn, hk⟩
  · exact ⟨w, by rw [if_neg he]; exact hw, rfl, rfl⟩

theorem valuesExtend_addNodeImpl (g : AGraph) (nm op : String)
    (ins outs : List Nat) :
    valuesExtend g.values (g.addNodeImpl nm op ins outs).2.values := by
  intro i v hv
  rw [addNodeImpl_values_getElem?, hv]
  by_cases hm : i ∈ outs
  · exact ⟨{ v with
        users := v.users ++ List.replicate (ins.count i) g.nodes.length
        producer := some g.nodes.length },
      by rw [Option.map_some', if_pos hm], rfl, rfl⟩
  · exact ⟨{ v with
        users := v.users ++ List.replicate (ins.count i) g.nodes.length },
      by rw [Option.map_some', if_neg hm], rfl, rfl⟩

/-- One construction step only extends the build state: values keep their
name and kind, nodes and declared outputs are only appended, and
`values_by_name` only gains entries. -/
def BuildExtends (st st' : BuildSt) : Prop :=
  valuesExtend st.g.values st'.g.values ∧
  (∃ t, st'.g.nodes = st.g.nodes ++ t) ∧
  (∃ t, st'.g.outputValues = st.g.outputValues ++ t) ∧
  (∀ n : String, (st.m.lookup n).isSome → (st'.m.lookup n).isSome)

theorem BuildExtends_refl (st : BuildSt) : BuildExtends st st :=
  ⟨valuesExtend_refl _, ⟨[], by simp⟩, ⟨[], by simp⟩, fun _ h => h⟩

theorem BuildExtends_trans {a b c : BuildSt} (h1 : BuildExtends a b)
    (h2 : BuildExtends b c) : BuildExtends a c := by
  obtain ⟨hv1, ⟨t1, hn1⟩, ⟨s1, ho1⟩, hm1⟩ := h1
  obtain ⟨hv2, ⟨t2, hn2⟩, ⟨s2, ho2⟩, hm2⟩ := h2
  refine ⟨valuesExtend_trans hv1 hv2, ⟨t1 ++ t2, ?_⟩, ⟨s1 ++ s2, ?_⟩,
    fun n h => hm2 n (hm1 n h)⟩
  · rw [hn2, hn1, List.append_assoc]
  · rw [ho2, ho1, List.append_assoc]

theorem lookup_cons_isSome {m : List (String × Nat)} {n : String}
    (p : String × Nat) (h : (m.lookup n).isSome) :
    ((p :: m).lookup n).isSome := by
  rw [List.lookup]
  cases hbeq : n == p.1 with
  | true => rfl
  | false => exact h

theorem BuildExtends_addDeclaredInput {st st' : BuildSt} {name : String}
    (heq : addDeclaredInput st name = .ok st') : BuildExtends st st' := by
  simp only [addDeclaredInput] at heq
  split at heq
  · cases heq
  · injection heq with h2
    subst h2
    exact ⟨valuesExtend_append _ _, ⟨[], by simp⟩, ⟨[], by simp⟩,
      fun n h => lookup_cons_isSome _ h⟩

theorem BuildExtends_addDeclaredTemp {st st' : BuildSt} {name : String}
    (heq : addDeclaredTemp st name = .ok st') : BuildExtends st st' := by
  simp only [addDeclaredTemp] at heq
  split at heq
  · cases heq
  · injection heq with h2
    subst h2
    exact ⟨valuesExtend_append _ _, ⟨[], by simp⟩, ⟨[], by simp⟩,
      fun n h => lookup_cons_isSome _ h⟩

theorem addNode_nodes (g : AGraph) (op : String) (ins outs : List Nat)
    (base : String) :
    (g.addNode op ins outs base).2.nodes =
      g.nodes ++
        [{ name := (g.genSym (if base = "" then op else base)).1, op := op
           inputs := ins, outputs := outs }] := rfl

theorem valuesExtend_addNode (g : AGraph) (op : String) (ins outs : List Nat)
    (base : String) :
    valuesExtend g.values (g.addNode op ins outs base).2.values := by
  intro i v hv
  exact valuesExtend_addNodeImpl (g.genSym (if base = "" then op else base)).2
    (g.genSym (if base = "" then op else base)).1 op ins outs i v hv

theorem BuildExtends_addDeclaredOutput (st : BuildSt) (name : String) :
    BuildExtends st (addDeclaredOutput st name) := by
  unfold addDeclaredOutput
  split
  · next old hold =>
    refine ⟨?_, ?_, ?_, ?_⟩
    · exact valuesExtend_trans (valuesExtend_append _ _)
        (valuesExtend_addNode (pushOutputValue st name) "Identity" _ _ _)
    · exact ⟨_, addNode_nodes (pushOutputValue st name) "Identity" _ _ _⟩
    · exact ⟨[st.g.values.length], rfl⟩
    · exact fun n h => h
  · exact ⟨valuesExtend_append _ _, ⟨[], by simp [pushOutputValue]⟩,
      ⟨[st.g.values.length], rfl⟩, fun n h => lookup_cons_isSome _ h⟩

theorem BuildExtends_attachInitializer {st st' : BuildSt} {name : String}
    (heq : attachInitializer st name = .ok st') : BuildExtends st st' := by
  simp only [attachInitializer] at heq
  split at heq
  · cases heq
  · next vid hvid =>
    split at heq
    · cases heq
    · next v hv =>
      split at heq
      · injection heq with h2
        subst h2
        exact ⟨valuesExtend_set hv rfl rfl, ⟨[], by simp⟩, ⟨[], by simp⟩,
          fun n h => h⟩
      · cases heq

theorem BuildExtends_getOrAddValue (st : BuildSt) (name : String) :
    BuildExtends st (getOrAddValue st name).2 := by
  unfold getOrAddValue
  split
  · exact BuildExtends_refl st
  · unfold AGraph.addValueDefault
    by_cases hn : name = ""
    · rw [if_pos hn]
      exact ⟨valuesExtend_append _ _, ⟨[], by simp⟩, ⟨[], by simp⟩,
        fun n h => lookup_cons_isSome _ h⟩
    · rw [if_neg hn]
      exact ⟨valuesExtend_append _ _, ⟨[], by simp⟩, ⟨[], by simp⟩,
        fun n h => lookup_cons_isSome _ h⟩

theorem BuildExtends_resolveNames : ∀ (names : List String) (st : BuildSt),
    BuildExtends st (resolveNames st names).2 := by
  intro names
  induction names with
  | nil => intro st; exact BuildExtends_refl st
  | cons n rest ih =>
    intro st
    exact BuildExtends_trans (BuildExtends_getOrAddValue st n)
      (ih (getOrAddValue st n).2)

theorem BuildExtends_addNodeFromProto (st : BuildSt) (np : NodeProto) :
    BuildExtends st (addNodeFromProto st np) := by
  have h1 := BuildExtends_resolveNames np.inputs st
  have h2 := BuildExtends_resolveNames np.outputs (resolveNames st np.inputs).2
  refine BuildExtends_trans (BuildExtends_trans h1 h2) ?_
  unfold addNodeFromProto
  exact ⟨valuesExtend_addNodeImpl _ _ _ _ _, ⟨_, rfl⟩,
    ⟨[], by simp [AGraph.addNodeImpl]⟩, fun n h => h⟩

theorem BuildExtends_outputsPhase : ∀ (names : List String) (st : BuildSt),
    BuildExtends st (outputsPhase st names) := by
  intro names
  induction names with
  | nil => intro st; exact BuildExtends_refl st
  | cons n rest ih =>
    intro st
    exact BuildExtends_trans (BuildExtends_addDeclaredOutput st n)
      (ih (addDeclaredOutput st n))

theorem BuildExtends_tempsPhase : ∀ (names : List String) (st st' : BuildSt),
    tempsPhase st names = .ok st' → BuildExtends st st' := by
  intro names
  induction names with
  | nil =>
    intro st st' heq
    injection heq with h2
    subst h2
    exact BuildExtends_refl st
  | cons n rest ih =>
    intro st st' heq
    rw [show tempsPhase st (n :: rest) =
          (match addDeclaredTemp st n with
           | .error e => .error e
           | .ok st1 => tempsPhase st1 rest) from rfl] at heq
    split at heq
    · cases heq
    · next st1 hst1 =>
      exact BuildExtends_trans (BuildExtends_addDeclaredTemp hst1)
        (ih st1 st' heq)

theorem BuildExtends_initsPhase : ∀ (names : List String) (st st' : BuildSt),
    initsPhase st names = .ok st' → BuildExtends st st' := by
  intro names
  induction names with
  | nil =>
    intro st st' heq
    injection heq with h2
    subst h2
    exact BuildExtends_refl st
  | cons n rest ih =>
    intro st st' heq
    rw [show initsPhase st (n :: rest) =
          (match attachInitializer st n with
           | .error e => .error e
           | .ok st1 => initsPhase st1 rest) from rfl] at heq
    split at heq
    · cases heq
    · next st1 hst1 =>
      exact BuildExtends_trans (BuildExtends_attachInitializer hst1)
        (ih st1 st' heq)

theorem BuildExtends_nodesPhase : ∀ (nps : List NodeProto) (st : BuildSt),
    BuildExtends st (nodesPhase st nps) := by
  intro nps
  induction nps with
  | nil => intro st; exact BuildExtends_refl st
  | cons np rest ih =>
    intro st
    exact BuildExtends_trans (BuildExtends_addNodeFromProto st np)
      (ih (addNodeFromProto st np))

theorem lookup_cons_self {m : List (String × Nat)} {n : String} {v : Nat} :
    ((n, v) :: m).lookup n = some v := by
  rw [List.lookup, show (n == n) = true from beq_self_eq_true n]

theorem lookup_cons_none {m : List (String × Nat)} {p : String × Nat}
    {x : String} (h : ((p :: m).lookup x) = none) :
    x ≠ p.1 ∧ m.lookup x = none := by
  rw [List.lookup] at h
  cases hbeq : x == p.1 with
  | true =>
    rw [hbeq] at h
    exact Option.noConfusion h
  | false =>
    rw [hbeq] at h
    exact ⟨beq_eq_false_iff_ne.mp hbeq, h⟩

/-- Inserting all names of a list succeeds only when they are pairwise
distinct and fresh: the success characterization of the declared-input loop.
-/
theorem inputsPhase_ok_nodup : ∀ (names : List String) (st st' : BuildSt),
    inputsPhase st names = .ok st' →
      names.Nodup ∧ ∀ n ∈ names, st.m.lookup n = none := by
  intro names
  induction names with
  | nil =>
    intro st st' _
    exact ⟨List.nodup_nil, fun n hn => absurd hn (List.not_mem_nil n)⟩
  | cons n rest ih =>
    intro st st' heq
    rw [show inputsPhase st (n :: rest) =
          (match addDeclaredInput st n with
           | .error e => .error e
           | .ok st1 => inputsPhase st1 rest) from rfl] at heq
    split at heq
    · cases heq
    · next st1 hst1 =>
      simp only [addDeclaredInput] at hst1
      split at hst1
      · cases hst1
      · next hcond =>
        injection hst1 with h2
        subst h2
        obtain ⟨hnd, hnone⟩ := ih _ st' heq
        have hself : ∀ x ∈ rest, x ≠ n ∧ st.m.lookup x = none := by
          intro x hx
          exact lookup_cons_none (hnone x hx)
        refine ⟨List.nodup_cons.mpr ⟨?_, hnd⟩, ?_⟩
        · intro hmem
          exact (hself n hmem).1 rfl
        · intro x hx
          rcases List.mem_cons.mp hx with hx1 | hx2
          · rw [hx1]
            exact Option.not_isSome_iff_eq_none.mp hcond
          · exact (hself x hx2).2

theorem tempsPhase_ok_nodup : ∀ (names : List String) (st st' : BuildSt),
    tempsPhase st names = .ok st' →
      names.Nodup ∧ ∀ n ∈ names, st.m.lookup n = none := by
  intro names
  induction names with
  | nil =>
    intro st st' _
    exact ⟨List.nodup_nil, fun n hn => absurd hn (List.not_mem_nil n)⟩
  | cons n rest ih =>
    intro st st' heq
    rw [show tempsPhase st (n :: rest) =
          (match addDeclaredTemp st n with
           | .error e => .error e
           | .ok st1 => tempsPhase st1 rest) from rfl] at heq
    split at heq
    · cases heq
    · next st1 hst1 =>
      simp only [addDeclaredTemp] at hst1
      split at hst1
      · cases hst1
      · next hcond =>
        injection hst1 with h2
        subst h2
        obtain ⟨hnd, hnone⟩ := ih _ st' heq
        have hself : ∀ x ∈ rest, x ≠ n ∧ st.m.lookup x = none := by
          intro x hx
          exact lookup_cons_none (hnone x hx)
        refine ⟨List.nodup_cons.mpr ⟨?_, hnd⟩, ?_⟩
        · intro hmem
          exact (hself n hmem).1 rfl
        · intro x hx
          rcases List.mem_cons.mp hx with hx1 | hx2
          · rw [hx1]
            exact Option.not_isSome_iff_eq_none.mp hcond
          · exact (hself x hx2).2

theorem BuildExtends_inputsPhase : ∀ (names : List String) (st st' : BuildSt),
    inputsPhase st names = .ok st' → BuildExtends st st' := by
  intro names
  induction names with
  | nil =>
    intro st st' heq
    injection heq with h2
    subst h2
    exact BuildExtends_refl st
  | cons n rest ih =>
    intro st st' heq
    rw [show inputsPhase st (n :: rest) =
          (match addDeclaredInput st n with
           | .error e => .error e
           | .ok st1 => inputsPhase st1 rest) from rfl] at heq
    split at heq
    · cases heq
    · next st1 hst1 =>
      exact BuildExtends_trans (BuildExtends_addDeclaredInput hst1)
        (ih st1 st' heq)

/-- After a successful declared-input loop, every declared input name is
present in `values_by_name`. -/
theorem inputsPhase_keys : ∀ (names : List String) (st st' : BuildSt),
    inputsPhase st names = .ok st' →
      ∀ n ∈ names, (st'.m.lookup n).isSome := by
  intro names
  induction names with
  | nil =>
    intro st st' _ n hn
    exact absurd hn (List.not_mem_nil n)
  | cons n rest ih =>
    intro st st' heq x hx
    rw [show inputsPhase st (n :: rest) =
          (match addDeclaredInput st n with
           | .error e => .error e
           | .ok st1 => inputsPhase st1 rest) from rfl] at heq
    split at heq
    · cases heq
    · next st1 hst1 =>
      rcases List.mem_cons.mp hx with hx1 | hx2
      · subst hx1
        refine (BuildExtends_inputsPhase rest st1 st' heq).2.2.2 x ?_
        simp only [addDeclaredInput] at hst1
        split at hst1
        · cases hst1
        · injection hst1 with h2
          subst h2
          show (((x, st.g.values.length) :: st.m).lookup x).isSome
          rw [lookup_cons_self]
          rfl
      · exact ih st1 st' heq x hx2

/-- Every `values_by_name` entry points at a value carrying that name. -/
def mapNames (st : BuildSt) : Prop :=
  ∀ q ∈ st.m, ∃ v, st.g.values[q.2]? = some v ∧ v.name = q.1

theorem mapNames_addDeclaredInput {st st' : BuildSt} {name : String}
    (heq : addDeclaredInput st name = .ok st') (h : mapNames st) :
    mapNames st' := by
  simp only [addDeclaredInput] at heq
  split at heq
  · cases heq
  · injection heq with h2
    subst h2
    intro q hq
    rcases List.mem_cons.mp hq with hq1 | hq2
    · subst hq1
      exact ⟨_, List.getElem?_concat_length _ _, rfl⟩
    · obtain ⟨v, hv, hn⟩ := h q hq2
      exact ⟨v, by
        show (st.g.values ++ _)[q.2]? = some v
        rw [getElem?_append_left' (lt_length_of_getElem?_some hv)]
        exact hv, hn⟩

theorem mapNames_addDeclaredOutput {st : BuildSt} (h : mapNames st)
    (name : String) : mapNames (addDeclaredOutput st name) := by
  unfold addDeclaredOutput
  split
  · next old hold =>
    intro q hq
    obtain ⟨v, hv, hn⟩ := h q hq
    have hext : valuesExtend st.g.values
        ((pushOutputValue st name).addNode "Identity" [old]
          [st.g.values.length]).2.values :=
      valuesExtend_trans (valuesExtend_append _ _)
        (valuesExtend_addNode (pushOutputValue st name) "Identity" _ _ _)
    obtain ⟨v', hv', hn', -⟩ := hext q.2 v hv
    exact ⟨v', hv', hn'.trans hn⟩
  · intro q hq
    rcases List.mem_cons.mp hq with hq1 | hq2
    · subst hq1
      exact ⟨_, List.getElem?_concat_length _ _, rfl⟩
    · obtain ⟨v, hv, hn⟩ := h q hq2
      exact ⟨v, by
        show (st.g.values ++ _)[q.2]? = some v
        rw [getElem?_append_left' (lt_length_of_getElem?_some hv)]
        exact hv, hn⟩

theorem mapNames_inputsPhase : ∀ (names : List String) (st st' : BuildSt),
    inputsPhase st names = .ok st' → mapNames st → mapNames st' := by
  intro names
  induction names with
  | nil =>
    intro st st' heq h
    injection heq with h2
    subst h2
    exact h
  | cons n rest ih =>
    intro st st' heq h
    rw [show inputsPhase st (n :: rest) =
          (match addDeclaredInput st n with
           | .error e => .error e
           | .ok st1 => inputsPhase st1 rest) from rfl] at heq
    split at heq
    · cases heq
    · next st1 hst1 =>
      exact ih st1 st' heq (mapNames_addDeclaredInput hst1 h)

/-- The witness structure claim C7 requires: an `Identity` node from an older
value named `name` to a newer output-kind value also named `name` that is
listed among the graph's declared outputs. -/
def IdentityWired (g : AGraph) (name : String) : Prop :=
  ∃ nd ∈ g.nodes, nd.op = "Identity" ∧
    ∃ oldVid newVid : Nat, nd.inputs = [oldVid] ∧ nd.outputs = [newVid] ∧
      oldVid < newVid ∧
      (∃ v, g.values[oldVid]? = some v ∧ v.name = name) ∧
      (∃ v, g.values[newVid]? = some v ∧ v.name = name ∧
        v.kind &&& kOutput ≠ 0) ∧
      newVid ∈ g.outputValues

theorem IdentityWired_extends {st st' : BuildSt} (h : BuildExtends st st')
    {name : String} (hw : IdentityWired st.g name) : IdentityWired st'.g name := by
  obtain ⟨hve, ⟨t, hnodes⟩, ⟨s, houts⟩, -⟩ := h
  obtain ⟨nd, hnd, hop, oldVid, newVid, hin, hout, hlt, ⟨v1, hv1, hn1⟩,
    ⟨v2, hv2, hn2, hk2⟩, hmem⟩ := hw
  refine ⟨nd, by rw [hnodes]; exact List.mem_append_left t hnd, hop,
    oldVid, newVid, hin, hout, hlt, ?_, ?_, ?_⟩
  · obtain ⟨v1', hv1', hn1', -⟩ := hve oldVid v1 hv1
    exact ⟨v1', hv1', hn1'.trans hn1⟩
  · obtain ⟨v2', hv2', hn2', hk2'⟩ := hve newVid v2 hv2
    exact ⟨v2', hv2', hn2'.trans hn2, by rw [hk2']; exact hk2⟩
  · rw [houts]
    exact List.mem_append_left s hmem

theorem mkValueKind_output_bit (name : String) :
    mkValueKind name kOutput &&& kOutput ≠ 0 := by
  unfold mkValueKind kOutput kNull
  by_cases hn : name = ""
  · rw [if_pos hn]
    decide
  · rw [if_neg hn]
    decide

/-- Processing a declared output whose name is already bound adds the
`Identity` wiring. -/
theorem addDeclaredOutput_dup {st : BuildSt} (hInv : BuildInv st)
    (hNames : mapNames st) {name : String}
    (hdup : (st.m.lookup name).isSome) :
    IdentityWired (addDeclaredOutput st name).g name := by
  unfold addDeclaredOutput
  split
  · next old hold =>
    have holdlt : old < st.g.values.length :=
      hInv.2 (name, old) (mem_of_lookup_eq_some hold)
    have hext : valuesExtend (pushOutputValue st name).values
        ((pushOutputValue st name).addNode "Identity" [old]
          [st.g.values.length]).2.values :=
      valuesExtend_addNode (pushOutputValue st name) "Identity" _ _ _
    refine ⟨{ name := ((pushOutputValue st name).genSym "Identity").1
              op := "Identity", inputs := [old]
              outputs := [st.g.values.length] },
      ?_, rfl, old, st.g.values.length, rfl, rfl, holdlt, ?_, ?_, ?_⟩
    · rw [addNode_nodes]
      exact List.mem_append_right _ (List.mem_singleton.mpr rfl)
    · obtain ⟨v, hv, hn⟩ := hNames (name, old) (mem_of_lookup_eq_some hold)
      have hv' : (pushOutputValue st name).values[old]? = some v := by
        show (st.g.values ++ _)[old]? = some v
        rw [getElem?_append_left' holdlt]
        exact hv
      obtain ⟨v', hv'', hn', -⟩ := hext old v hv'
      exact ⟨v', hv'', hn'.trans hn⟩
    · have hvnew : (pushOutputValue st name).values[st.g.values.length]? =
          some { name := name, kind := mkValueKind name kOutput } := by
        show (st.g.values ++ _)[st.g.values.length]? = _
        exact List.getElem?_concat_length _ _
      obtain ⟨v', hv', hn', hk'⟩ := hext st.g.values.length _ hvnew
      refine ⟨v', hv', hn', ?_⟩
      rw [hk']
      exact mkValueKind_output_bit name
    · show st.g.values.length ∈
        ((pushOutputValue st name).addNode "Identity" [old]
          [st.g.values.length]).2.outputValues
      rw [show ((pushOutputValue st name).addNode "Identity" [old]
            [st.g.values.length]).2.outputValues =
          st.g.outputValues ++ [st.g.values.length] from rfl]
      exact List.mem_append_right _ (List.mem_singleton.mpr rfl)
  · next hnone =>
    rw [hnone] at hdup
    cases hdup

/-- After processing a declared output name, the name is bound. -/
theorem addDeclaredOutput_key (st : BuildSt) (name : String) :
    (((addDeclaredOutput st name).m).lookup name).isSome := by
  unfold addDeclaredOutput
  split
  · next old hold =>
    show ((st.m).lookup name).isSome
    rw [hold]
    rfl
  · show (((name, st.g.values.length) :: st.m).lookup name).isSome
    rw [lookup_cons_self]
    rfl

/-- Walking the declared-output loop past a name that is either already bound
or declared earlier in the loop produces the `Identity` wiring. -/
theorem outputsPhase_dup (name : String) : ∀ (pre : List String)
    (st : BuildSt) (post : List String), BuildInv st → mapNames st →
    ((st.m.lookup name).isSome ∨ name ∈ pre) →
    IdentityWired (outputsPhase st (pre ++ name :: post)).g name := by
  intro pre
  induction pre with
  | nil =>
    intro st post hInv hNames hcase
    rcases hcase with hdup | hmem
    · show IdentityWired
        (outputsPhase (addDeclaredOutput st name) post).g name
      exact IdentityWired_extends (BuildExtends_outputsPhase post _)
        (addDeclaredOutput_dup hInv hNames hdup)
    · exact absurd hmem (List.not_mem_nil name)
  | cons q pre' ih =>
    intro st post hInv hNames hcase
    show IdentityWired
      (outputsPhase (addDeclaredOutput st q) (pre' ++ name :: post)).g name
    refine ih (addDeclaredOutput st q) post
      (BuildInv_addDeclaredOutput hInv q)
      (mapNames_addDeclaredOutput hNames q) ?_
    rcases hcase with hdup | hmem
    · exact Or.inl ((BuildExtends_addDeclaredOutput st q).2.2.2 name hdup)
    · rcases List.mem_cons.mp hmem with hq | hmem'
      · subst hq
        exact Or.inl (addDeclaredOutput_key st name)
      · exact Or.inr hmem'

/-- C7: during `Graph::Graph(GraphProto)` a declared output whose name
already names a previously inserted value does not abort: an `Identity` node
is inserted from the already-defined value to a new output-kind value.  A
duplicate name among declared inputs, or among `value_info`s, aborts
construction. -/
theorem fromONNX_duplicate_names (p : GraphProto) :
    (¬p.inputs.Nodup → ∃ msg, AGraph.fromONNX p = .error msg) ∧
    (¬p.valueInfos.Nodup → ∃ msg, AGraph.fromONNX p = .error msg) ∧
    (∀ (pre post : List String) (name : String) (g : AGraph),
      AGraph.fromONNX p = .ok g →
      p.outputs = pre ++ name :: post →
      (name ∈ p.inputs ∨ name ∈ pre) →
      IdentityWired g name) := by
  refine ⟨?_, ?_, ?_⟩
  · intro hdup
    cases hin : inputsPhase { g := { name := p.name }, m := [] } p.inputs with
    | error e =>
      refine ⟨e, ?_⟩
      unfold AGraph.fromONNX
      rw [hin]
    | ok st1 =>
      exact absurd (inputsPhase_ok_nodup p.inputs _ st1 hin).1 hdup
  · intro hdup
    cases hin : inputsPhase { g := { name := p.name }, m := [] } p.inputs with
    | error e =>
      refine ⟨e, ?_⟩
      unfold AGraph.fromONNX
      rw [hin]
    | ok st1 =>
      cases htm : tempsPhase (outputsPhase st1 p.outputs) p.valueInfos with
      | error e =>
        refine ⟨e, ?_⟩
        have hred : AGraph.fromONNX p =
            (match tempsPhase (outputsPhase st1 p.outputs) p.valueInfos with
             | .error e => .error e
             | .ok st3 =>
               match initsPhase st3 p.initializers with
               | .error e => .error e
               | .ok st4 => .ok (nodesPhase st4 p.nodes).g) := by
          unfold AGraph.fromONNX
          rw [hin]
        rw [hred, htm]
      | ok st3 =>
        exact absurd (tempsPhase_ok_nodup p.valueInfos _ st3 htm).1 hdup
  · intro pre post name g hok houts hcase
    unfold AGraph.fromONNX at hok
    split at hok
    · cases hok
    · next st1 hst1 =>
      split at hok
      · cases hok
      · next st3 hst3 =>
        split at hok
        · cases hok
        · next st4 hst4 =>
          injection hok with h2
          subst h2
          have h0 : BuildInv { g := { name := p.name }, m := [] } :=
            ⟨StrongInv_init p.name, by intro q hq; cases hq⟩
          have h0n : mapNames { g := { name := p.name }, m := [] } := by
            intro q hq
            cases hq
          have h1 := BuildInv_inputsPhase p.inputs _ st1 h0 hst1
          have h1n := mapNames_inputsPhase p.inputs _ st1 hst1 h0n
          have hcase' : (st1.m.lookup name).isSome ∨ name ∈ pre := by
            rcases hcase with hmem | hpre
            · exact Or.inl (inputsPhase_keys p.inputs _ st1 hst1 name hmem)
            · exact Or.inr hpre
          have hwired : IdentityWired (outputsPhase st1 p.outputs).g name := by
            rw [houts]
            exact outputsPhase_dup name pre st1 post h1 h1n hcase'
          exact IdentityWired_extends
            (BuildExtends_trans (BuildExtends_tempsPhase p.valueInfos _ st3 hst3)
              (BuildExtends_trans (BuildExtends_initsPhase p.initializers st3 st4 hst4)
                (BuildExtends_nodesPhase p.nodes st4))) hwired

/-- Witness for C7: a proto declaring output `"x"` over an input also named
`"x"` builds successfully, and the resulting graph carries the `Identity`
wiring from the old value to the new output-kind value. -/
theorem fromONNX_duplicate_names_witness :
    IdentityWired
      { name := "g"
        values := [{ name := "x", kind := 1, producer := none, users := [0] },
                   { name := "x", kind := 2, producer := some 0, users := [] }]
        inputValues := [0]
        outputValues := [1]
        tempValues := []
        nodes := [{ name := "Identity_oniku_gensym_1", op := "Identity"
                    inputs := [0], outputs := [1] }]
        genId := 1 } "x" :=
  (fromONNX_duplicate_names
    { name := "g", inputs := ["x"], outputs := ["x"], valueInfos := [],
      initializers := [], nodes := [] }).2.2 [] [] "x" _ rfl rfl
    (Or.inl (by decide))

/-! # The XCVM emitter (`compiler/xcvm/emitter.cc`)

The emitter view of the IR: values carry the fields `EmitNode`/`EmitGraph`
read (`name`, kind bitmask, type kind, `users`), and are identified by `vid`
(C++ pointer identity).  Nodes carry `op_type`, input/output value lists,
`onikux_order` and the attributes of the modelled operators.  Nested
control-flow bodies are passed to `EmitIfImpl`/`EmitLoopImpl` as explicit
`EGraph` arguments, exactly like the C++ functions' parameters; the modelled
operator universe covers the uniform unary/binary families, the sequence
ops, and `BatchNormalization` (the ops the claims mention).

An `XInst` mirrors one `XCInstructionProto`: op-code, input operand list, and
output register list; `debug_info` and `id` metadata (set by `FillOpInfo`)
carry no semantics and are omitted.  Destination registers are the builder's
leading arguments and land in `outputs`; jump targets are the input operands
the patch code rewrites (`mutable_inputs(1)` for `JmpTrue`/`JmpFalse`,
`mutable_inputs(0)` for `Jmp`). -/

inductive DtypeE where
  | int64
  | boolean
  deriving Repr, DecidableEq

inductive XArg where
  | reg (r : Int)
  | imm (v : Int)
  | str (s : String)
  | dt (d : DtypeE)
  | bool' (b : Bool)
  | flt (tok : Nat)
  deriving Repr, DecidableEq

structure XInst where
  op : String
  inputs : List XArg := []
  outputs : List Int := []
  deriving Repr, DecidableEq

/-- `mutable_inputs(idx)->set_i(v)`: overwrite one input operand with an
integer (used to patch jump targets). -/
def XInst.setInputI (i : XInst) (idx : Nat) (v : Int) : XInst :=
  { i with inputs := i.inputs.set idx (.imm v) }

/-- Patch instruction `at'` of the program. -/
def patchInst (prog : List XInst) (at' : Nat) (idx : Nat) (v : Int) :
    List XInst :=
  match prog[at']? with
  | none => prog
  | some inst => prog.set at' (inst.setInputI idx v)

inductive OpType where
  | kNeg | kReciprocal | kExp | kLog | kSqrt | kTanh | kAbs | kRelu
  | kFloor | kCeil | kSigmoid | kNot | kIdentity
  | kAdd | kSub | kMul | kDiv | kPow | kEqual | kGreater | kOnikuxGenericIs
  | kAnd | kOr | kXor
  | kOnikuxReluGrad | kOnikuxMaxPoolGrad | kOnikuxAveragePoolGrad
  | kOnikuxSelectItem
  | kBatchNormalization
  | kOnikuxSequenceCreate | kOnikuxSequenceAppend | kOnikuxSequencePop
  deriving Repr, DecidableEq

/-- The type-kind tag; `1` stands for `Type::Kind::kOpaque` (used by the
`BatchNormalization` saved-state output). -/
def typeOpaque : Nat := 1

structure EValue where
  vid : Nat
  name : String
  kind : Nat
  typeKind : Nat := 0
  users : List Nat := []
  deriving Repr, DecidableEq

def EValue.isNull (v : EValue) : Bool := kindIsNull v.kind
def EValue.isInput (v : EValue) : Bool := kindIsInput v.kind
def EValue.isTemp (v : EValue) : Bool := kindIsTemp v.kind

structure ENode where
  nid : Nat
  op : OpType
  inputs : List EValue := []
  outputs : List EValue := []
  order : Int := -1
  stackAxis : Int := 0
  epsilon : Nat := 0
  momentum : Nat := 0
  spatial : Int := 1
  deriving Repr, DecidableEq

structure EGraph where
  inputValues : List EValue := []
  outputValues : List EValue := []
  tempValues : List EValue := []
  nodes : List ENode := []
  deriving Repr, DecidableEq

/-- The emission session state: `next_value_id_`, `value_ids_`, `emitted_`,
`stack_ids_`, plus the program under construction (the C++ threads the
program as an out-parameter). -/
structure EmSt where
  nextValueId : Nat := 1
  valueIds : List (Nat × Nat) := []
  emitted : List Nat := []
  stackIds : List (Nat × Nat) := []
  prog : List XInst := []
  deriving Repr, DecidableEq

def emit (st : EmSt) (inst : XInst) : EmSt :=
  { st with prog := st.prog ++ [inst] }

/-- `XCVMEmitter::GetValueId`: `CHECK(!v->name().empty())`, then a map
lookup that `CHECK`s the value is registered. -/
def getValueId (st : EmSt) (v : EValue) : Except String Int :=
  if v.name = "" then .error "GetValueId: empty name"
  else
    match st.valueIds.lookup v.vid with
    | some id => .ok (Int.ofNat id)
    | none => .error ("Value not exist: " ++ v.name)

/-- One emplace of `AssignValueIds` for inputs and temps:
`CHECK(value_ids_.emplace(v, next_value_id_++).second)`. -/
def assignId (st : EmSt) (v : EValue) : Except String EmSt :=
  if (st.valueIds.lookup v.vid).isSome then
    .error ("AssignValueIds: duplicate " ++ v.name)
  else
    .ok { st with
            valueIds := (v.vid, st.nextValueId) :: st.valueIds
            nextValueId := st.nextValueId + 1 }

/-- One emplace of `AssignValueIds` for graph outputs:
`CHECK(value_ids_.emplace(v, next_value_id_++).second || v->name().empty())`.
`next_value_id_++` is an argument of the emplace, so the id is consumed even
when the insertion fails for an already-registered empty-named output. -/
def assignOutputId (st : EmSt) (v : EValue) : Except String EmSt :=
  if (st.valueIds.lookup v.vid).isSome then
    if v.name = "" then .ok { st with nextValueId := st.nextValueId + 1 }
    else .error ("AssignValueIds: duplicate " ++ v.name)
  else
    .ok { st with
            valueIds := (v.vid, st.nextValueId) :: st.valueIds
            nextValueId := st.nextValueId + 1 }

def assignIdList (f : EmSt → EValue → Except String EmSt) :
    EmSt → List EValue → Except String EmSt
  | st, [] => .ok st
  | st, v :: rest =>
    match f st v with
    | .error e => .error e
    | .ok st' => assignIdList f st' rest

/-- `XCVMEmitter::AssignValueIds(const Graph&)`: ids for `input_values`, then
`temp_values`, then `output_values` (null outputs allowed). -/
def assignValueIds (g : EGraph) (st : EmSt) : Except String EmSt :=
  match assignIdList assignId st g.inputValues with
  | .error e => .error e
  | .ok st1 =>
    match assignIdList assignId st1 g.tempValues with
    | .error e => .error e
    | .ok st2 => assignIdList assignOutputId st2 g.outputValues

/-- The `in` lambda of `EmitNode`: a mandatory input must exist, be non-null,
and be registered. -/
def inF (node : ENode) (st : EmSt) (i : Nat) : Except String Int :=
  match node.inputs[i]? with
  | none => .error "mandatory input: index out of range"
  | some input =>
    if input.isNull then .error "mandatory input is null"
    else getValueId st input

/-- The `oin` lambda of `EmitNode`: a slot past the end or holding a
null-kind value encodes as `-1`. -/
def oinF (node : ENode) (st : EmSt) (i : Nat) : Except String Int :=
  match node.inputs[i]? with
  | none => .ok (-1)
  | some input =>
    if input.isNull then .ok (-1)
    else inF node st i

/-- The `out` lambda of `EmitNode`. -/
def outF (node : ENode) (st : EmSt) (i : Nat) : Except String Int :=
  match node.outputs[i]? with
  | none => .error "mandatory output: index out of range"
  | some output =>
    if output.isNull then .error "mandatory output is null"
    else getValueId st output

/-- The `oout` lambda of `EmitNode`. -/
def ooutF (node : ENode) (st : EmSt) (i : Nat) : Except String Int :=
  match node.outputs[i]? with
  | none => .ok (-1)
  | some output =>
    if output.isNull then .ok (-1)
    else outF node st i

/-! ## `EmitNode`: the per-operator dispatch (modelled operator subset) -/

/-- The `EMIT_SIMPLE_UNARY_OP` family of `EmitNode`. -/
def unaryMnemonic : OpType → Option String
  | .kNeg => some "Neg"
  | .kReciprocal => some "Reciprocal"
  | .kExp => some "Exp"
  | .kLog => some "Log"
  | .kSqrt => some "Sqrt"
  | .kTanh => some "Tanh"
  | .kAbs => some "Abs"
  | .kRelu => some "Relu"
  | .kFloor => some "Floor"
  | .kCeil => some "Ceil"
  | .kSigmoid => some "Sigmoid"
  | .kNot => some "Not"
  | .kIdentity => some "Identity"
  | _ => none

/-- The `EMIT_SIMPLE_BINARY_OP` family of `EmitNode`. -/
def binaryMnemonic : OpType → Option String
  | .kAdd => some "Add"
  | .kSub => some "Sub"
  | .kMul => some "Mul"
  | .kDiv => some "Div"
  | .kPow => some "Pow"
  | .kEqual => some "Equal"
  | .kGreater => some "Greater"
  | .kOnikuxGenericIs => some "GenericIs"
  | .kAnd => some "And"
  | .kOr => some "Or"
  | .kXor => some "Xor"
  | .kOnikuxReluGrad => some "ReluGrad"
  | .kOnikuxMaxPoolGrad => some "MaxPoolGrad"
  | .kOnikuxAveragePoolGrad => some "AveragePoolGrad"
  | .kOnikuxSelectItem => some "SelectItem"
  | _ => none

/-- Collect `out(i)` for each index of a list. -/
def collectOut (node : ENode) (st : EmSt) : List Nat → Except String (List Int)
  | [] => .ok []
  | i :: rest =>
    match outF node st i with
    | .error e => .error e
    | .ok o =>
      match collectOut node st rest with
      | .error e => .error e
      | .ok os => .ok (o :: os)

/-- Collect `in(i)` for each index of a list. -/
def collectIn (node : ENode) (st : EmSt) : List Nat → Except String (List Int)
  | [] => .ok []
  | i :: rest =>
    match inF node st i with
    | .error e => .error e
    | .ok a =>
      match collectIn node st rest with
      | .error e => .error e
      | .ok as' => .ok (a :: as')

/-- The `kBatchNormalization` branch of `EmitNode`: when the trailing output
is opaque saved state it is remapped to slot 1 and the remaining ONNX outputs
shift; missing slots are filled with `-1` up to six outputs. -/
def emitBatchNorm (node : ENode) (st : EmSt) : Except String EmSt :=
  if node.inputs.length = 5 then
    match node.outputs.getLast? with
    | none => .error "BatchNormalization: no outputs"
    | some lastOut =>
      match outF node st 0 with
      | .error e => .error e
      | .ok o0 =>
        let isOpq := lastOut.typeKind = typeOpaque
        let numOnnx := if isOpq then node.outputs.length - 1 else node.outputs.length
        match (if isOpq then outF node st numOnnx else .ok (-1)) with
        | .error e => .error e
        | .ok slot1 =>
          match collectOut node st (List.range' 1 (numOnnx - 1)) with
          | .error e => .error e
          | .ok mids =>
            match collectIn node st (List.range 5) with
            | .error e => .error e
            | .ok ins =>
              let outs := [o0, slot1] ++ mids ++
                List.replicate (6 - numOnnx) (-1 : Int)
              .ok (emit st
                { op := "BatchNormalization"
                  inputs := ins.map .reg ++
                    [.flt node.epsilon, .flt node.momentum, .imm node.spatial]
                  outputs := outs.take 6 })
  else .error "CHECK_EQ(5UL, node.inputs().size())"

/-- `XCVMEmitter::EmitNode` restricted to the modelled operator universe; the
final wildcard is the `CHECK(false) << "Unsupported op"` branch. -/
def emitNode (node : ENode) (st : EmSt) : Except String EmSt :=
  match unaryMnemonic node.op with
  | some m =>
    if node.inputs.length = 1 then
      if node.outputs.length = 1 then
        match outF node st 0 with
        | .error e => .error e
        | .ok o =>
          match inF node st 0 with
          | .error e => .error e
          | .ok a => .ok (emit st { op := m, inputs := [.reg a], outputs := [o] })
      else .error "CHECK_EQ(1UL, node.outputs().size())"
    else .error "CHECK_EQ(1UL, node.inputs().size())"
  | none =>
    match binaryMnemonic node.op with
    | some m =>
      if node.inputs.length = 2 then
        if node.outputs.length = 1 then
          match outF node st 0 with
          | .error e => .error e
          | .ok o =>
            match inF node st 0 with
            | .error e => .error e
            | .ok a =>
              match inF node st 1 with
              | .error e => .error e
              | .ok b =>
                .ok (emit st { op := m, inputs := [.reg a, .reg b], outputs := [o] })
        else .error "CHECK_EQ(1UL, node.outputs().size())"
      else .error "CHECK_EQ(2UL, node.inputs().size())"
    | none =>
      match node.op with
      | .kBatchNormalization => emitBatchNorm node st
      | .kOnikuxSequenceCreate =>
        match outF node st 0 with
        | .error e => .error e
        | .ok o => .ok (emit st { op := "SequenceCreate", outputs := [o] })
      | .kOnikuxSequenceAppend =>
        match node.inputs[0]? with
        | none => .error "SequenceAppend: input 0 out of range"
        | some seqIn =>
          match outF node st 0 with
          | .error e => .error e
          | .ok o =>
            match inF node st 0 with
            | .error e => .error e
            | .ok a =>
              match inF node st 1 with
              | .error e => .error e
              | .ok b =>
                if seqIn.users.length = 1 then
                  .ok (emit
                    (emit st { op := "SequenceMove", inputs := [.reg a], outputs := [o] })
                    { op := "SequenceAppend", inputs := [.reg b], outputs := [o] })
                else
                  .ok (emit
                    (emit st { op := "SequenceCopy", inputs := [.reg a], outputs := [o] })
                    { op := "SequenceAppend", inputs := [.reg b], outputs := [o] })
      | .kOnikuxSequencePop =>
        match node.inputs[0]? with
        | none => .error "SequencePop: input 0 out of range"
        | some seqIn =>
          match outF node st 0 with
          | .error e => .error e
          | .ok o =>
            match inF node st 0 with
            | .error e => .error e
            | .ok a =>
              match outF node st 1 with
              | .error e => .error e
              | .ok o1 =>
                if seqIn.users.length = 1 then
                  .ok (emit
                    (emit st { op := "SequenceMove", inputs := [.reg a], outputs := [o] })
                    { op := "SequencePop", inputs := [.reg o], outputs := [o1] })
                else
                  .ok (emit
                    (emit st { op := "SequenceCopy", inputs := [.reg a], outputs := [o] })
                    { op := "SequencePop", inputs := [.reg o], outputs := [o1] })
      | _ => .error "Unsupported op"

/-! ## `EmitGraph`: the liveness-driven driver -/

/-- The input-staging loop of `EmitGraph` (not performed in loop mode): emit
an `In` on the first reference to each top-level input. -/
def stageInputsFold : List EValue → List Nat → EmSt →
    Except String (List Nat × EmSt)
  | [], staged, st => .ok (staged, st)
  | v :: rest, staged, st =>
    if v.isInput then
      if v.vid ∈ staged then stageInputsFold rest staged st
      else
        match getValueId st v with
        | .error e => .error e
        | .ok id =>
          stageInputsFold rest (v.vid :: staged)
            (emit st { op := "In", inputs := [.str v.name], outputs := [id] })
    else stageInputsFold rest staged st

/-- The output auto-free loop of `EmitGraph`: outputs still expected by the
caller are checked off; a temp, non-null, user-less output of any node other
than `BatchNormalization` is freed immediately. -/
def freeOutputsFold (op : OpType) : List EValue → List Nat → EmSt →
    Except String (List Nat × EmSt)
  | [], todo, st => .ok (todo, st)
  | o :: rest, todo, st =>
    if o.vid ∈ todo then freeOutputsFold op rest (todo.erase o.vid) st
    else
      if o.isTemp && !o.isNull && o.users.isEmpty &&
          !(op == OpType.kBatchNormalization) then
        match getValueId st o with
        | .error e => .error e
        | .ok id =>
          freeOutputsFold op rest todo
            (emit st { op := "Free", inputs := [.reg id] })
      else freeOutputsFold op rest todo st

def assocSet : List (Nat × Int) → Nat → Int → List (Nat × Int)
  | [], _, _ => []
  | p :: rest, k, v => if p.1 = k then (k, v) :: rest else p :: assocSet rest k v

/-- The input release loop of `EmitGraph`: decrement the users-remaining
counter of each input occurrence and free the register at zero. -/
def freeInputsFold : List EValue → List (Nat × Int) → EmSt →
    Except String (List (Nat × Int) × EmSt)
  | [], m, st => .ok (m, st)
  | v :: rest, m, st =>
    match m.lookup v.vid with
    | none => freeInputsFold rest m st
    | some c =>
      if c - 1 = 0 then
        match getValueId st v with
        | .error e => .error e
        | .ok id =>
          freeInputsFold rest (assocSet m v.vid (c - 1))
            (emit st { op := "Free", inputs := [.reg id] })
      else freeInputsFold rest (assocSet m v.vid (c - 1)) st

/-- One iteration of the node loop of `EmitGraph`. -/
def emitGraphStep (inLoop : Bool) (node : ENode) (staged todo : List Nat)
    (numUsers : List (Nat × Int)) (st : EmSt) :
    Except String (List Nat × List Nat × List (Nat × Int) × EmSt) :=
  if node.nid ∈ st.emitted then .ok (staged, todo, numUsers, st)
  else
    let st := { st with emitted := node.nid :: st.emitted }
    match (if inLoop then .ok (staged, st)
           else stageInputsFold node.inputs staged st) with
    | .error e => .error e
    | .ok (staged, st) =>
      match emitNode node st with
      | .error e => .error e
      | .ok st =>
        match freeOutputsFold node.op node.outputs todo st with
        | .error e => .error e
        | .ok (todo, st) =>
          match freeInputsFold node.inputs numUsers st with
          | .error e => .error e
          | .ok (numUsers, st) => .ok (staged, todo, numUsers, st)

def emitGraphNodes (inLoop : Bool) : List ENode → List Nat → List Nat →
    List (Nat × Int) → EmSt → Except String EmSt
  | [], _, _, _, st => .ok st
  | nd :: rest, staged, todo, numUsers, st =>
    match emitGraphStep inLoop nd staged todo numUsers st with
    | .error e => .error e
    | .ok (staged, todo, numUsers, st) =>
      emitGraphNodes inLoop rest staged todo numUsers st

/-- Insert a node into a list sorted ascending by `onikux_order`. -/
def insertByOrder (nd : ENode) : List ENode → List ENode
  | [] => [nd]
  | x :: rest =>
    if nd.order < x.order then nd :: x :: rest
    else x :: insertByOrder nd rest

/-- Stable ascending sort by `onikux_order` (a determinization of
`std::sort` with the comparator `a->onikux_order() < b->onikux_order()`;
ties between equal orders are unspecified in C++). -/
def sortByOrder : List ENode → List ENode
  | [] => []
  | nd :: rest => insertByOrder nd (sortByOrder rest)

/-- `Graph::GetComputationSequence`: the nodes with `onikux_order ≥ 0` sorted
ascending by that order. -/
def getComputationSequence (g : EGraph) : List ENode :=
  sortByOrder (g.nodes.filter (fun n => decide (0 ≤ n.order)))

/-- `XCVMEmitter::EmitGraph`: seed users-remaining counters (inputs only at
top level, temps always), track not-yet-produced outputs, and run the node
loop over the computation sequence. -/
def emitGraph (g : EGraph) (inLoop : Bool) (outputValues : List EValue)
    (st : EmSt) : Except String EmSt :=
  let numUsers :=
    (if inLoop then []
     else g.inputValues.map (fun v => (v.vid, (Int.ofNat v.users.length)))) ++
    g.tempValues.map (fun v => (v.vid, (Int.ofNat v.users.length)))
  emitGraphNodes inLoop (getComputationSequence g) []
    ((outputValues.map (fun v => v.vid)).dedup) numUsers st

/-- `XCVMEmitter::EmitOutputs`: one `Out` (tagging the name) and one `Free`
per declared output. -/
def emitOutputs : List EValue → EmSt → Except String EmSt
  | [], st => .ok st
  | v :: rest, st =>
    match getValueId st v with
    | .error e => .error e
    | .ok id =>
      emitOutputs rest
        (emit (emit st { op := "Out", inputs := [.str v.name, .reg id] })
          { op := "Free", inputs := [.reg id] })

/-- `XCVMEmitter::EmitStackQuit`: free the retained stack registers (the
`stack_ids_` map is populated nowhere in the sampled source). -/
def emitStackQuit (st : EmSt) : EmSt :=
  st.stackIds.foldl
    (fun st p => emit st { op := "Free", inputs := [.reg (Int.ofNat p.2)] }) st

/-- `XCVMEmitter::EmitModel` (the value-name dump is diagnostic output with
no effect on the program). -/
def emitModel (g : EGraph) (st : EmSt) : Except String EmSt :=
  match assignValueIds g st with
  | .error e => .error e
  | .ok st1 =>
    match emitGraph g false g.outputValues st1 with
    | .error e => .error e
    | .ok st2 =>
      match emitOutputs g.outputValues st2 with
      | .error e => .error e
      | .ok st3 => .ok (emitStackQuit st3)

/-! ## `EmitIfImpl` (control-flow lowering of `If`) -/

/-- The input `Identity` copies of `emit_branch`: outer input (second
component) into body input (first component). -/
def emitBranchCopies : List (EValue × EValue) → EmSt → Except String EmSt
  | [], st => .ok st
  | (to', from') :: rest, st =>
    match getValueId st to' with
    | .error e => .error e
    | .ok d =>
      match getValueId st from' with
      | .error e => .error e
      | .ok s =>
        emitBranchCopies rest
          (emit st { op := "Identity", inputs := [.reg s], outputs := [d] })

/-- `FREE(GetValueId(v))` for each value of a list. -/
def emitFreeList : List EValue → EmSt → Except String EmSt
  | [], st => .ok st
  | v :: rest, st =>
    match getValueId st v with
    | .error e => .error e
    | .ok id =>
      emitFreeList rest (emit st { op := "Free", inputs := [.reg id] })

/-- The output moves of `emit_branch`: body output (second component) into
outer output (first component); `NullConstant` when the body output is null,
`MOVE` (`Identity` + `Free`) otherwise. -/
def emitBranchOuts : List (EValue × EValue) → EmSt → Except String EmSt
  | [], st => .ok st
  | (to', from') :: rest, st =>
    if from'.isNull then
      match getValueId st to' with
      | .error e => .error e
      | .ok d =>
        emitBranchOuts rest (emit st { op := "NullConstant", outputs := [d] })
    else
      match getValueId st to' with
      | .error e => .error e
      | .ok d =>
        match getValueId st from' with
        | .error e => .error e
        | .ok s =>
          emitBranchOuts rest
            (emit (emit st { op := "Identity", inputs := [.reg s], outputs := [d] })
              { op := "Free", inputs := [.reg s] })

/-- The `emit_branch` lambda of `EmitIfImpl`: copy the outer branch inputs
into the body inputs, emit the body, free the body inputs, move the body
outputs into the outer outputs. -/
def emitBranch (cond : ENode) (graph : EGraph) (inputs outputs : List EValue)
    (st : EmSt) : Except String EmSt :=
  match emitBranchCopies (inputs.zip (cond.inputs.drop 1)) st with
  | .error e => .error e
  | .ok st1 =>
    match emitGraph graph true outputs st1 with
    | .error e => .error e
    | .ok st2 =>
      match emitFreeList inputs st2 with
      | .error e => .error e
      | .ok st3 => emitBranchOuts (cond.outputs.zip outputs) st3

/-- `XCVMEmitter::EmitIfImpl`: shape checks, `JmpTrue` on the condition, the
else branch, `Jmp`, the then branch; both jump targets are patched to the
instruction indices known only after the bodies are emitted. -/
def emitIfImpl (cond : ENode) (thenBody : EGraph)
    (thenIns thenOuts : List EValue) (elseBody : EGraph)
    (elseIns elseOuts : List EValue) (st : EmSt) : Except String EmSt :=
  if cond.inputs.length = thenIns.length + 1 then
    if cond.inputs.length = elseIns.length + 1 then
      if cond.outputs.length = thenOuts.length then
        if cond.outputs.length = elseOuts.length then
          match cond.inputs[0]? with
          | none => .error "If: condition input missing"
          | some condv =>
            match getValueId st condv with
            | .error e => .error e
            | .ok condId =>
              let branchJmp := st.prog.length
              let st1 := emit st
                { op := "JmpTrue", inputs := [.reg condId, .imm (-1)] }
              match emitBranch cond elseBody elseIns elseOuts st1 with
              | .error e => .error e
              | .ok st2 =>
                let doneJmp := st2.prog.length
                let st3 := emit st2 { op := "Jmp", inputs := [.imm (-1)] }
                let st4 := { st3 with
                  prog := patchInst st3.prog branchJmp 1
                    (Int.ofNat st3.prog.length) }
                match emitBranch cond thenBody thenIns thenOuts st4 with
                | .error e => .error e
                | .ok st5 =>
                  .ok { st5 with
                    prog := patchInst st5.prog doneJmp 0
                      (Int.ofNat st5.prog.length) }
        else .error "CHECK_EQ: else outputs"
      else .error "CHECK_EQ: then outputs"
    else .error "CHECK_EQ: else inputs"
  else .error "CHECK_EQ: then inputs"

/-! ## `EmitLoopImpl` (control-flow lowering of `Loop`) -/

/-- The body of `EmitLoopImpl` after the shape checks and the
infinite-loop check have passed.  A faithful straight-line transcription;
iteration counts clamp negative values to zero exactly as the C++ `for`
loops over non-positive bounds run zero times. -/
def emitLoopAfterCheck (loop : ENode) (body : EGraph)
    (bodyIns bodyOuts : List EValue)
    (maxTripCount terminalCondition : EValue) (st0 : EmSt) :
    Except String EmSt := do
  let numStates := (loop.inputs.length : Int) - 2
  let numScans := (bodyOuts.length : Int) - 1 - numStates
  let mut st := st0
  -- Initialize loop variables.
  let some iterV := bodyIns[0]? | .error "Loop: body input 0 missing"
  let iterId ← getValueId st iterV
  st := emit st { op := "IntScalarConstant"
                  inputs := [.imm 0, .dt .int64, .bool' true]
                  outputs := [iterId] }
  let some condV := bodyIns[1]? | .error "Loop: body input 1 missing"
  let condId ← getValueId st condV
  st := emit st { op := "IntScalarConstant"
                  inputs := [.imm 1, .dt .boolean, .bool' true]
                  outputs := [condId] }
  for i in List.range numStates.toNat do
    let some loopIn := loop.inputs[i + 2]? | .error "Loop: state input missing"
    let some bodyIn := bodyIns[i + 2]? | .error "Loop: body state input missing"
    let d ← getValueId st bodyIn
    let s ← getValueId st loopIn
    st := emit st { op := "Identity", inputs := [.reg s], outputs := [d] }
  -- Prepare temporary sequences for scan outputs.
  let mut scanOutIds : List Int := []
  for _ in List.range numScans.toNat do
    let id := Int.ofNat st.nextValueId
    st := { st with nextValueId := st.nextValueId + 1 }
    st := emit st { op := "SequenceCreate", outputs := [id] }
    scanOutIds := scanOutIds ++ [id]
  -- Loop entry guard.
  let mut skipLoopJmp : Int := -1
  let mut skipLoopCondId : Int := -1
  if !maxTripCount.isNull then
    let zeroId := Int.ofNat st.nextValueId
    st := { st with nextValueId := st.nextValueId + 1 }
    skipLoopCondId := Int.ofNat st.nextValueId
    st := { st with nextValueId := st.nextValueId + 1 }
    st := emit st { op := "IntScalarConstant"
                    inputs := [.imm 0, .dt .int64, .bool' true]
                    outputs := [zeroId] }
    let mtc ← getValueId st maxTripCount
    st := emit st { op := "Greater", inputs := [.reg mtc, .reg zeroId]
                    outputs := [skipLoopCondId] }
    st := emit st { op := "Free", inputs := [.reg zeroId] }
  if !terminalCondition.isNull then
    let tmpId := Int.ofNat st.nextValueId
    st := { st with nextValueId := st.nextValueId + 1 }
    if skipLoopCondId >= 0 then
      let tc ← getValueId st terminalCondition
      st := emit st { op := "Mul", inputs := [.reg skipLoopCondId, .reg tc]
                      outputs := [tmpId] }
      st := emit st { op := "Free", inputs := [.reg skipLoopCondId] }
    else
      let tc ← getValueId st terminalCondition
      st := emit st { op := "Identity", inputs := [.reg tc], outputs := [tmpId] }
    skipLoopCondId := tmpId
  if skipLoopCondId >= 0 then
    skipLoopJmp := Int.ofNat st.prog.length
    st := emit st { op := "JmpFalse", inputs := [.reg skipLoopCondId, .imm (-1)] }
  let loopBegin := st.prog.length
  st ← emitGraph body true bodyOuts st
  let oneId := Int.ofNat st.nextValueId
  st := { st with nextValueId := st.nextValueId + 1 }
  st := emit st { op := "IntScalarConstant"
                  inputs := [.imm 1, .dt .int64, .bool' true]
                  outputs := [oneId] }
  let tmpId := Int.ofNat st.nextValueId
  st := { st with nextValueId := st.nextValueId + 1 }
  st := emit st { op := "Add", inputs := [.reg iterId, .reg oneId]
                  outputs := [tmpId] }
  st := emit st { op := "Free", inputs := [.reg oneId] }
  for v in bodyIns do
    let id ← getValueId st v
    st := emit st { op := "Free", inputs := [.reg id] }
  st := emit st { op := "Identity", inputs := [.reg tmpId], outputs := [iterId] }
  st := emit st { op := "Free", inputs := [.reg tmpId] }
  let some bodyOut0 := bodyOuts[0]? | .error "Loop: body output 0 missing"
  let bo0 ← getValueId st bodyOut0
  st := emit st { op := "Identity", inputs := [.reg bo0], outputs := [condId] }
  st := emit st { op := "Free", inputs := [.reg bo0] }
  -- Propagate the loop state.
  for i in List.range numStates.toNat do
    let some bodyIn := bodyIns[i + 2]? | .error "Loop: body state input missing"
    let some bodyOut := bodyOuts[i + 1]? | .error "Loop: body state output missing"
    let d ← getValueId st bodyIn
    if bodyOut.isNull then
      st := emit st { op := "NullConstant", outputs := [d] }
    else
      let s ← getValueId st bodyOut
      st := emit st { op := "Identity", inputs := [.reg s], outputs := [d] }
      st := emit st { op := "Free", inputs := [.reg s] }
  -- Push scan outputs.
  for i in List.range numScans.toNat do
    let some bodyOut := bodyOuts[i + numStates.toNat + 1]? |
      .error "Loop: scan output missing"
    let some sid := scanOutIds[i]? | .error "Loop: scan id missing"
    let bo ← getValueId st bodyOut
    st := emit st { op := "SequenceAppend", inputs := [.reg bo], outputs := [sid] }
    st := emit st { op := "Free", inputs := [.reg bo] }
  -- Check if the loop finishes.
  if terminalCondition.isNull then
    st := emit st { op := "Free", inputs := [.reg condId] }
    let some loopIn0 := loop.inputs[0]? | .error "Loop: input 0 missing"
    let mtc ← getValueId st loopIn0
    st := emit st { op := "Greater", inputs := [.reg mtc, .reg iterId]
                    outputs := [condId] }
  else if !maxTripCount.isNull then
    let some loopIn0 := loop.inputs[0]? | .error "Loop: input 0 missing"
    let mtc ← getValueId st loopIn0
    st := emit st { op := "Greater", inputs := [.reg mtc, .reg iterId]
                    outputs := [tmpId] }
    let tmp2Id := Int.ofNat st.nextValueId
    st := { st with nextValueId := st.nextValueId + 1 }
    st := emit st { op := "Mul", inputs := [.reg condId, .reg tmpId]
                    outputs := [tmp2Id] }
    st := emit st { op := "Free", inputs := [.reg condId] }
    st := emit st { op := "Identity", inputs := [.reg tmp2Id], outputs := [condId] }
    st := emit st { op := "Free", inputs := [.reg tmp2Id] }
    st := emit st { op := "Free", inputs := [.reg tmpId] }
  st := emit st { op := "JmpTrue", inputs := [.reg condId, .imm (Int.ofNat loopBegin)] }
  if skipLoopJmp >= 0 then
    st := { st with
      prog := patchInst st.prog skipLoopJmp.toNat 1 (Int.ofNat st.prog.length) }
    st := emit st { op := "Free", inputs := [.reg skipLoopCondId] }
  -- Output final states.
  for i in List.range numStates.toNat do
    let some bodyIn := bodyIns[i + 2]? | .error "Loop: body state input missing"
    let some loopOut := loop.outputs[i]? | .error "Loop: state output missing"
    if loopOut.isNull then
      let id ← getValueId st bodyIn
      st := emit st { op := "Free", inputs := [.reg id] }
    else
      let d ← getValueId st loopOut
      let s ← getValueId st bodyIn
      st := emit st { op := "Identity", inputs := [.reg s], outputs := [d] }
      st := emit st { op := "Free", inputs := [.reg s] }
  -- Stack and output scan outputs.
  for i in List.range numScans.toNat do
    let some loopOut := loop.outputs[i + numStates.toNat]? |
      .error "Loop: scan loop output missing"
    let some sid := scanOutIds[i]? | .error "Loop: scan id missing"
    let d ← getValueId st loopOut
    st := emit st { op := "SequenceStack"
                    inputs := [.reg sid, .imm loop.stackAxis], outputs := [d] }
    st := emit st { op := "Free", inputs := [.reg sid] }
  st := emit st { op := "Free", inputs := [.reg iterId] }
  st := emit st { op := "Free", inputs := [.reg condId] }
  return st

/-- `XCVMEmitter::EmitLoopImpl`: shape checks, then the infinite-loop check
(`CHECK(!max_trip_count->IsNull() || !terminal_condition->IsNull())`), then
the loop lowering. -/
def emitLoopImpl (loop : ENode) (body : EGraph)
    (bodyIns bodyOuts : List EValue) (st : EmSt) : Except String EmSt :=
  let numStates := (loop.inputs.length : Int) - 2
  let numScans := (bodyOuts.length : Int) - 1 - numStates
  if (bodyIns.length : Int) = numStates + 2 then
    if (loop.outputs.length : Int) = numStates + numScans then
      match loop.inputs[0]?, loop.inputs[1]? with
      | some maxTripCount, some terminalCondition =>
        if maxTripCount.isNull && terminalCondition.isNull then
          .error "Inifinite loop is detected"
        else
          emitLoopAfterCheck loop body bodyIns bodyOuts maxTripCount
            terminalCondition st
      | _, _ => .error "Loop: trip-count inputs missing"
    else .error "CHECK_EQ: loop outputs"
  else .error "CHECK_EQ: body inputs"

/-! ## Claim C2: the infinite-loop check of `EmitLoopImpl` -/

/-- C2: lowering a `Loop` node whose `max_trip_count` (input 0) and
`terminal_condition` (input 1) are both null aborts the emission with
"Inifinite loop is detected"; when at least one of the two is non-null the
check passes and lowering proceeds into the loop body emission
(`emitLoopAfterCheck`). -/
theorem emitLoopImpl_infinite_loop_check (loop : ENode) (body : EGraph)
    (bodyIns bodyOuts : List EValue) (st : EmSt)
    (maxTripCount terminalCondition : EValue)
    (h0 : loop.inputs[0]? = some maxTripCount)
    (h1 : loop.inputs[1]? = some terminalCondition)
    (hc1 : (bodyIns.length : Int) = ((loop.inputs.length : Int) - 2) + 2)
    (hc2 : (loop.outputs.length : Int) =
      ((loop.inputs.length : Int) - 2) +
        ((bodyOuts.length : Int) - 1 - ((loop.inputs.length : Int) - 2))) :
    (maxTripCount.isNull = true ∧ terminalCondition.isNull = true →
      emitLoopImpl loop body bodyIns bodyOuts st =
        .error "Inifinite loop is detected") ∧
    (maxTripCount.isNull = false ∨ terminalCondition.isNull = false →
      emitLoopImpl loop body bodyIns bodyOuts st =
        emitLoopAfterCheck loop body bodyIns bodyOuts maxTripCount
          terminalCondition st) := by
  constructor
  · rintro ⟨hm, ht⟩
    unfold emitLoopImpl
    rw [if_pos hc1, if_pos hc2]
    simp [h0, h1, hm, ht]
  · intro hor
    unfold emitLoopImpl
    rw [if_pos hc1, if_pos hc2]
    simp only [h0, h1]
    have hcond : ¬((maxTripCount.isNull && terminalCondition.isNull) = true) := by
      rw [Bool.and_eq_true]
      rintro ⟨hm, ht⟩
      rcases hor with hf | hf <;> simp [hf] at hm ht
    rw [if_neg hcond]

/-- Witness for C2: a `Loop` with two null trip-control inputs, no states,
a two-input one-output body, is rejected as an infinite loop. -/
theorem emitLoopImpl_infinite_loop_check_witness :
    emitLoopImpl
      { nid := 0, op := OpType.kIdentity
        inputs := [{ vid := 0, name := "", kind := kNull },
                   { vid := 1, name := "", kind := kNull }]
        outputs := [] }
      {}
      [{ vid := 2, name := "it", kind := kTemp },
       { vid := 3, name := "cd", kind := kTemp }]
      [{ vid := 4, name := "c2", kind := kTemp }]
      {} = .error "Inifinite loop is detected" :=
  (emitLoopImpl_infinite_loop_check
    { nid := 0, op := OpType.kIdentity
      inputs := [{ vid := 0, name := "", kind := kNull },
                 { vid := 1, name := "", kind := kNull }]
      outputs := [] }
    {}
    [{ vid := 2, name := "it", kind := kTemp },
     { vid := 3, name := "cd", kind := kTemp }]
    [{ vid := 4, name := "c2", kind := kTemp }]
    {}
    { vid := 0, name := "", kind := kNull }
    { vid := 1, name := "", kind := kNull }
    rfl rfl (by decide) (by decide)).1 ⟨by decide, by decide⟩

/-! ## Claim C8: `SequenceAppend` move/copy selection -/

/-- C8: lowering `OnikuxSequenceAppend` emits `SequenceMove` followed by
`SequenceAppend` when the input sequence has exactly one user (no copy), and
`SequenceCopy` followed by `SequenceAppend` when it has more than one
user. -/
theorem emitNode_sequenceAppend (node : ENode) (st : EmSt)
    (hop : node.op = .kOnikuxSequenceAppend) (s : EValue)
    (hin0 : node.inputs[0]? = some s) (o a b : Int)
    (ho : outF node st 0 = .ok o) (ha : inF node st 0 = .ok a)
    (hb : inF node st 1 = .ok b) :
    (s.users.length = 1 →
      emitNode node st = .ok { st with prog := st.prog ++
        [{ op := "SequenceMove", inputs := [.reg a], outputs := [o] },
         { op := "SequenceAppend", inputs := [.reg b], outputs := [o] }] }) ∧
    (2 ≤ s.users.length →
      emitNode node st = .ok { st with prog := st.prog ++
        [{ op := "SequenceCopy", inputs := [.reg a], outputs := [o] },
         { op := "SequenceAppend", inputs := [.reg b], outputs := [o] }] }) := by
  constructor
  · intro husers
    simp only [emitNode, hop, unaryMnemonic, binaryMnemonic, hin0, ho, ha, hb]
    rw [if_pos husers]
    simp [emit, List.append_assoc]
  · intro husers
    simp only [emitNode, hop, unaryMnemonic, binaryMnemonic, hin0, ho, ha, hb]
    rw [if_neg (by omega)]
    simp [emit, List.append_assoc]

/-- Witness for C8: a concrete `SequenceAppend` whose sequence input has a
single user lowers to `SequenceMove; SequenceAppend`. -/
theorem emitNode_sequenceAppend_witness :
    emitNode
      { nid := 0, op := OpType.kOnikuxSequenceAppend
        inputs := [{ vid := 0, name := "s", kind := kTemp, users := [0] },
                   { vid := 1, name := "x", kind := kTemp, users := [0] }]
        outputs := [{ vid := 2, name := "o", kind := kTemp }] }
      { nextValueId := 4, valueIds := [(0, 1), (1, 2), (2, 3)] } =
      .ok { nextValueId := 4, valueIds := [(0, 1), (1, 2), (2, 3)]
            prog := [{ op := "SequenceMove", inputs := [.reg 1], outputs := [3] },
                     { op := "SequenceAppend", inputs := [.reg 2], outputs := [3] }] } :=
  (emitNode_sequenceAppend
    { nid := 0, op := OpType.kOnikuxSequenceAppend
      inputs := [{ vid := 0, name := "s", kind := kTemp, users := [0] },
                 { vid := 1, name := "x", kind := kTemp, users := [0] }]
      outputs := [{ vid := 2, name := "o", kind := kTemp }] }
    { nextValueId := 4, valueIds := [(0, 1), (1, 2), (2, 3)] }
    rfl { vid := 0, name := "s", kind := kTemp, users := [0] } rfl 3 1 2
    rfl rfl rfl).1 rfl

/-! ## Claim C4: emitting the one-`Identity` model -/

/-- The boundary-scenario graph of claim C4: one input, one output, one
scheduled `Identity` node connecting them. -/
def identityGraph (xn yn : String) : EGraph :=
  { inputValues := [{ vid := 0, name := xn, kind := kInput, users := [0] }]
    outputValues := [{ vid := 1, name := yn, kind := kOutput }]
    nodes := [{ nid := 0, op := .kIdentity
                inputs := [{ vid := 0, name := xn, kind := kInput, users := [0] }]
                outputs := [{ vid := 1, name := yn, kind := kOutput }]
                order := 0 }] }

theorem kindIsNull_kInput : kindIsNull kInput = false := rfl
theorem kindIsNull_kOutput : kindIsNull kOutput = false := rfl
theorem kindIsNull_kTemp : kindIsNull kTemp = false := rfl
theorem kindIsInput_kInput : kindIsInput kInput = true := rfl
theorem kindIsInput_kOutput : kindIsInput kOutput = false := rfl
theorem kindIsInput_kTemp : kindIsInput kTemp = false := rfl
theorem kindIsTemp_kInput : kindIsTemp kInput = false := rfl
theorem kindIsTemp_kOutput : kindIsTemp kOutput = false := rfl
theorem kindIsTemp_kTemp : kindIsTemp kTemp = true := rfl

/-- Counterexample to C4 as stated: the emitted opcode sequence is
`In; Identity; Free; Out; Free` — the `Free` of the input register is
emitted by the driver's liveness release *before* `EmitOutputs` runs, not
after the `Out` as the claim orders it. -/
theorem emitModel_identity_graph_counterexample :
    ((emitModel (identityGraph "x" "y") {}).map (fun st => st.prog.map XInst.op) =
      .ok ["In", "Identity", "Free", "Out", "Free"]) ∧
    ["In", "Identity", "Free", "Out", "Free"] ≠
      ["In", "Identity", "Out", "Free", "Free"] :=
  ⟨rfl, by decide⟩

/-- C4 (amended): emitting the one-`Identity` model produces exactly
`In x→$1; Identity $2,$1; Free $1; Out y,$2; Free $2` — the input register
is freed when its user count reaches zero, directly after the node, and the
output register is freed after its `Out`. -/
theorem emitModel_identity_graph (xn yn : String) (hx : xn ≠ "")
    (hy : yn ≠ "") :
    emitModel (identityGraph xn yn) {} = .ok
      { nextValueId := 3, valueIds := [(1, 2), (0, 1)], emitted := [0]
        prog := [{ op := "In", inputs := [.str xn], outputs := [1] },
                 { op := "Identity", inputs := [.reg 1], outputs := [2] },
                 { op := "Free", inputs := [.reg 1] },
                 { op := "Out", inputs := [.str yn, .reg 2] },
                 { op := "Free", inputs := [.reg 2] }] } := by
  simp [emitModel, identityGraph, assignValueIds, assignIdList, assignId,
    assignOutputId, emitGraph, getComputationSequence, sortByOrder,
    insertByOrder, emitGraphNodes, emitGraphStep, stageInputsFold, emitNode,
    unaryMnemonic, inF, outF, getValueId, freeOutputsFold, freeInputsFold,
    assocSet, emitOutputs, emitStackQuit, emit, EValue.isNull, EValue.isInput,
    EValue.isTemp, kindIsNull_kInput, kindIsNull_kOutput, kindIsInput_kInput,
    kindIsInput_kOutput, kindIsTemp_kInput, kindIsTemp_kOutput,
    List.lookup, hx, hy]

/-- Witness for the amended C4 at concrete names. -/
theorem emitModel_identity_graph_witness :
    emitModel (identityGraph "x" "y") {} = .ok
      { nextValueId := 3, valueIds := [(1, 2), (0, 1)], emitted := [0]
        prog := [{ op := "In", inputs := [.str "x"], outputs := [1] },
                 { op := "Identity", inputs := [.reg 1], outputs := [2] },
                 { op := "Free", inputs := [.reg 1] },
                 { op := "Out", inputs := [.str "y", .reg 2] },
                 { op := "Free", inputs := [.reg 2] }] } :=
  emitModel_identity_graph "x" "y" (by decide) (by decide)

/-! ## C3: the optional-slot encoding of `EmitNode` and value-id registration -/

/-- `List.lookup` over a `Nat`-keyed association list only returns stored
bindings. -/
theorem lookupNat_mem {m : List (Nat × Nat)} {k v : Nat} :
    m.lookup k = some v → (k, v) ∈ m := by
  induction m with
  | nil => intro h; cases h
  | cons p rest ih =>
    intro h
    rw [List.lookup] at h
    cases hbeq : k == p.1 with
    | false =>
      rw [hbeq] at h
      exact List.mem_cons_of_mem p (ih h)
    | true =>
      rw [hbeq] at h
      have hk : k = p.1 := eq_of_beq hbeq
      have hv2 : some p.2 = some v := h
      have hpv : p.2 = v := by injection hv2
      have hkv : (k, v) = p := by
        cases p with
        | mk a b =>
          simp only [Prod.mk.injEq]
          exact ⟨hk, hpv.symm⟩
      rw [hkv]
      exact List.mem_cons_self _ _

/-- Well-formedness of an emission session: `next_value_id_` starts at 1 and
every registered id is positive. -/
def EmStWF (st : EmSt) : Prop :=
  1 ≤ st.nextValueId ∧ ∀ q ∈ st.valueIds, 1 ≤ q.2

theorem EmStWF_init : EmStWF {} :=
  ⟨by decide, by decide⟩

theorem EmStWF_assignId (st : EmSt) (v : EValue) (st' : EmSt)
    (hwf : EmStWF st) (h : assignId st v = .ok st') : EmStWF st' := by
  unfold assignId at h
  split at h
  · exact Except.noConfusion h
  · injection h with h'
    subst h'
    refine ⟨Nat.le_succ_of_le hwf.1, ?_⟩
    intro q hq
    rcases List.mem_cons.mp hq with hq | hq
    · subst hq; exact hwf.1
    · exact hwf.2 q hq

theorem EmStWF_assignOutputId (st : EmSt) (v : EValue) (st' : EmSt)
    (hwf : EmStWF st) (h : assignOutputId st v = .ok st') : EmStWF st' := by
  unfold assignOutputId at h
  split at h
  · split at h
    · injection h with h'
      subst h'
      exact ⟨Nat.le_succ_of_le hwf.1, hwf.2⟩
    · exact Except.noConfusion h
  · injection h with h'
    subst h'
    refine ⟨Nat.le_succ_of_le hwf.1, ?_⟩
    intro q hq
    rcases List.mem_cons.mp hq with hq | hq
    · subst hq; exact hwf.1
    · exact hwf.2 q hq

theorem EmStWF_assignIdList (f : EmSt → EValue → Except String EmSt)
    (hf : ∀ (st : EmSt) (v : EValue) (st' : EmSt),
      EmStWF st → f st v = .ok st' → EmStWF st')
    (vs : List EValue) : ∀ (st st' : EmSt), EmStWF st →
    assignIdList f st vs = .ok st' → EmStWF st' := by
  induction vs with
  | nil =>
    intro st st' hwf h
    unfold assignIdList at h
    injection h with h'
    subst h'
    exact hwf
  | cons v rest ih =>
    intro st st' hwf h
    unfold assignIdList at h
    split at h
    · exact Except.noConfusion h
    next st1 heq =>
      exact ih st1 st' (hf st v st1 hwf heq) h

/-- `AssignValueIds` preserves well-formedness: the session value-id map only
ever holds positive ids. -/
theorem EmStWF_assignValueIds (g : EGraph) (st st' : EmSt) (hwf : EmStWF st)
    (h : assignValueIds g st = .ok st') : EmStWF st' := by
  unfold assignValueIds at h
  split at h
  · exact Except.noConfusion h
  next st1 h1 =>
    split at h
    · exact Except.noConfusion h
    next st2 h2 =>
      exact EmStWF_assignIdList assignOutputId EmStWF_assignOutputId
        g.outputValues st2 st'
        (EmStWF_assignIdList assignId EmStWF_assignId g.tempValues st1 st2
          (EmStWF_assignIdList assignId EmStWF_assignId g.inputValues st st1
            hwf h1) h2) h

/-- `GetValueId` only succeeds with the positive id registered for the
value in the session value-id map (given a well-formed session). -/
theorem getValueId_pos (st : EmSt) (hwf : EmStWF st) (v : EValue) (r : Int)
    (h : getValueId st v = .ok r) :
    ∃ id : Nat, st.valueIds.lookup v.vid = some id ∧
      r = Int.ofNat id ∧ 1 ≤ id := by
  unfold getValueId at h
  split at h
  · exact Except.noConfusion h
  · split at h
    next id heq =>
      refine ⟨id, heq, ?_, hwf.2 (v.vid, id) (lookupNat_mem heq)⟩
      injection h with h'
      exact h'.symm
    next heq => exact Except.noConfusion h

theorem oinF_some (node : ENode) (st : EmSt) (i : Nat) (v : EValue)
    (hv : node.inputs[i]? = some v) :
    oinF node st i = if v.isNull then Except.ok (-1) else inF node st i := by
  unfold oinF
  rw [hv]

theorem inF_some (node : ENode) (st : EmSt) (i : Nat) (v : EValue)
    (hv : node.inputs[i]? = some v) :
    inF node st i =
      if v.isNull then Except.error "mandatory input is null"
      else getValueId st v := by
  unfold inF
  rw [hv]

theorem ooutF_some (node : ENode) (st : EmSt) (i : Nat) (v : EValue)
    (hv : node.outputs[i]? = some v) :
    ooutF node st i = if v.isNull then Except.ok (-1) else outF node st i := by
  unfold ooutF
  rw [hv]

theorem outF_some (node : ENode) (st : EmSt) (i : Nat) (v : EValue)
    (hv : node.outputs[i]? = some v) :
    outF node st i =
      if v.isNull then Except.error "mandatory output is null"
      else getValueId st v := by
  unfold outF
  rw [hv]

/-- C3 counterexample: the claim says a Null-kind value is never registered
in the value-id map, but `AssignValueIds` registers the Null-kind
(empty-named, kind `kOutput ||| kNull = 6`) graph output with vid 0 under
id 1, because the `emplace(v, next_value_id_++)` for graph outputs inserts
empty-named values too (the `|| v->name().empty()` escape only matters when
the insertion fails). -/
theorem optional_slot_encoding_counterexample :
    EValue.isNull { vid := 0, name := "", kind := 6 } = true ∧
    assignValueIds
      { outputValues := [{ vid := 0, name := "", kind := 6 }] } {} =
      .ok { nextValueId := 2, valueIds := [(0, 1)] } ∧
    ([(0, 1)] : List (Nat × Nat)).lookup 0 = some 1 :=
  ⟨by decide, rfl, by decide⟩

/-- C3 (amended): in `EmitNode`, an optional input or output slot whose index
is past the end of the list, or whose value is Null-kind, is encoded as
operand `-1`; a non-null in-range optional slot is encoded exactly as the
mandatory lookup, namely as `Int.ofNat id` for the positive id registered
for that value in the session value-id map; `GetValueId` rejects every
empty-named value, so a Null-kind value never yields a register operand —
although `AssignValueIds` does register empty-named graph outputs (see the
counterexample). -/
theorem optional_slot_encoding (node : ENode) (st : EmSt) (hwf : EmStWF st) :
    (∀ i : Nat, node.inputs.length ≤ i → oinF node st i = .ok (-1)) ∧
    (∀ (i : Nat) (v : EValue), node.inputs[i]? = some v → v.isNull = true →
      oinF node st i = .ok (-1)) ∧
    (∀ (i : Nat) (v : EValue) (r : Int), node.inputs[i]? = some v →
        v.isNull = false → oinF node st i = .ok r →
      inF node st i = .ok r ∧
        ∃ id : Nat, st.valueIds.lookup v.vid = some id ∧
          r = Int.ofNat id ∧ 1 ≤ id) ∧
    (∀ i : Nat, node.outputs.length ≤ i → ooutF node st i = .ok (-1)) ∧
    (∀ (i : Nat) (v : EValue), node.outputs[i]? = some v → v.isNull = true →
      ooutF node st i = .ok (-1)) ∧
    (∀ (i : Nat) (v : EValue) (r : Int), node.outputs[i]? = some v →
        v.isNull = false → ooutF node st i = .ok r →
      outF node st i = .ok r ∧
        ∃ id : Nat, st.valueIds.lookup v.vid = some id ∧
          r = Int.ofNat id ∧ 1 ≤ id) ∧
    (∀ v : EValue, v.name = "" →
      getValueId st v = .error "GetValueId: empty name") := by
  refine ⟨?_, ?_, ?_, ?_, ?_, ?_, ?_⟩
  · intro i h
    unfold oinF
    rw [List.getElem?_eq_none h]
  · intro i v hv hnull
    rw [oinF_some node st i v hv, if_pos hnull]
  · intro i v r hv hnull hok
    rw [oinF_some node st i v hv, if_neg (by simp [hnull])] at hok
    refine ⟨hok, ?_⟩
    rw [inF_some node st i v hv, if_neg (by simp [hnull])] at hok
    exact getValueId_pos st hwf v r hok
  · intro i h
    unfold ooutF
    rw [List.getElem?_eq_none h]
  · intro i v hv hnull
    rw [ooutF_some node st i v hv, if_pos hnull]
  · intro i v r hv hnull hok
    rw [ooutF_some node st i v hv, if_neg (by simp [hnull])] at hok
    refine ⟨hok, ?_⟩
    rw [outF_some node st i v hv, if_neg (by simp [hnull])] at hok
    exact getValueId_pos st hwf v r hok
  · intro v hv
    unfold getValueId
    rw [if_pos hv]

/-- A concrete node and session for the C3 witness: one real input (vid 5,
id 1), one null input, one real output (vid 9, id 2). -/
def c3Node : ENode :=
  { nid := 0, op := OpType.kRelu,
    inputs := [{ vid := 5, name := "a", kind := 0 },
               { vid := 7, name := "", kind := 4 }],
    outputs := [{ vid := 9, name := "b", kind := 0 }] }

def c3St : EmSt := { nextValueId := 3, valueIds := [(5, 1), (9, 2)] }

/-- Witness for C3 at the concrete node and session above. -/
theorem optional_slot_encoding_witness :
    EmStWF c3St ∧
    oinF c3Node c3St 2 = .ok (-1) ∧
    oinF c3Node c3St 1 = .ok (-1) ∧
    (inF c3Node c3St 0 = .ok 1 ∧
      ∃ id : Nat, c3St.valueIds.lookup 5 = some id ∧
        (1 : Int) = Int.ofNat id ∧ 1 ≤ id) ∧
    ooutF c3Node c3St 3 = .ok (-1) ∧
    getValueId c3St { vid := 7, name := "", kind := 4 } =
      .error "GetValueId: empty name" :=
  ⟨⟨by decide, by decide⟩,
   (optional_slot_encoding c3Node c3St ⟨by decide, by decide⟩).1 2 (by decide),
   (optional_slot_encoding c3Node c3St ⟨by decide, by decide⟩).2.1 1
     { vid := 7, name := "", kind := 4 } rfl (by decide),
   (optional_slot_encoding c3Node c3St ⟨by decide, by decide⟩).2.2.1 0
     { vid := 5, name := "a", kind := 0 } 1 rfl (by decide) rfl,
   (optional_slot_encoding c3Node c3St ⟨by decide, by decide⟩).2.2.2.1 3
     (by decide),
   (optional_slot_encoding c3Node c3St ⟨by decide, by decide⟩).2.2.2.2.2.2
     { vid := 7, name := "", kind := 4 } rfl⟩

/-! ## C6: the output auto-free step of `EmitGraph` -/

/-- The auto-free test of `EmitGraph` (emitter.cc lines 730-737): the output
is a temp, non-null, user-less, and the node is not `BatchNormalization`. -/
def autoFreeCond (op : OpType) (o : EValue) : Bool :=
  o.isTemp && !o.isNull && o.users.isEmpty && !(op == OpType.kBatchNormalization)

theorem getValueId_emit (st : EmSt) (inst : XInst) (v : EValue) :
    getValueId (emit st inst) v = getValueId st v := rfl

/-- `freeOutputsFold` appends exactly one `Free` per output that is not a
remaining graph output and passes the auto-free test, and changes nothing
else about the session: every instruction already emitted stays in place. -/
theorem freeOutputsFold_frees (op : OpType) (idOf : EValue → Int) :
    ∀ (outs : List EValue) (todo : List Nat) (st : EmSt),
    (outs.map (fun o => o.vid)).Nodup →
    (∀ o ∈ outs, o.vid ∉ todo → autoFreeCond op o = true →
      getValueId st o = .ok (idOf o)) →
    ∃ todo' : List Nat,
      freeOutputsFold op outs todo st = .ok (todo',
        { st with prog := st.prog ++
            ((outs.filter (fun o =>
                !(decide (o.vid ∈ todo)) && autoFreeCond op o)).map
              (fun o => { op := "Free", inputs := [XArg.reg (idOf o)] })) }) := by
  intro outs
  induction outs with
  | nil =>
    intro todo st hnd hids
    refine ⟨todo, ?_⟩
    unfold freeOutputsFold
    simp
  | cons o rest ih =>
    intro todo st hnd hids
    have hnd' : (rest.map (fun o => o.vid)).Nodup := (List.nodup_cons.mp hnd).2
    have hvid : o.vid ∉ rest.map (fun o => o.vid) := (List.nodup_cons.mp hnd).1
    by_cases hmem : o.vid ∈ todo
    · have hids' : ∀ o' ∈ rest, o'.vid ∉ todo.erase o.vid →
          autoFreeCond op o' = true → getValueId st o' = .ok (idOf o') := by
        intro o' ho' hno hc
        refine hids o' (List.mem_cons_of_mem o ho') ?_ hc
        intro hin
        have hne : o'.vid ≠ o.vid := by
          intro he
          exact hvid (he ▸ List.mem_map_of_mem (fun o => o.vid) ho')
        exact hno ((List.mem_erase_of_ne hne).mpr hin)
      obtain ⟨todo', hrec⟩ := ih (todo.erase o.vid) st hnd' hids'
      refine ⟨todo', ?_⟩
      have hstep : freeOutputsFold op (o :: rest) todo st =
          freeOutputsFold op rest (todo.erase o.vid) st := by
        conv_lhs => unfold freeOutputsFold
        rw [if_pos hmem]
      rw [hstep, hrec]
      have hfe : rest.filter (fun o' =>
            !(decide (o'.vid ∈ todo.erase o.vid)) && autoFreeCond op o') =
          rest.filter (fun o' =>
            !(decide (o'.vid ∈ todo)) && autoFreeCond op o') := by
        apply List.filter_congr
        intro o' ho'
        have hne : o'.vid ≠ o.vid := by
          intro he
          exact hvid (he ▸ List.mem_map_of_mem (fun o => o.vid) ho')
        have hdec : decide (o'.vid ∈ todo.erase o.vid) =
            decide (o'.vid ∈ todo) := by
          rw [decide_eq_decide]
          exact List.mem_erase_of_ne hne
        rw [hdec]
      rw [hfe, List.filter_cons, if_neg (by simp [hmem])]
    · by_cases hc : autoFreeCond op o = true
      · have hg : getValueId st o = .ok (idOf o) :=
          hids o (List.mem_cons_self o rest) hmem hc
        have hids' : ∀ o' ∈ rest, o'.vid ∉ todo →
            autoFreeCond op o' = true →
            getValueId
              (emit st { op := "Free", inputs := [XArg.reg (idOf o)] }) o' =
              .ok (idOf o') := by
          intro o' ho' h1 h2
          rw [getValueId_emit]
          exact hids o' (List.mem_cons_of_mem o ho') h1 h2
        obtain ⟨todo', hrec⟩ :=
          ih todo (emit st { op := "Free", inputs := [XArg.reg (idOf o)] })
            hnd' hids'
        refine ⟨todo', ?_⟩
        have hstep : freeOutputsFold op (o :: rest) todo st =
            freeOutputsFold op rest todo
              (emit st { op := "Free", inputs := [XArg.reg (idOf o)] }) := by
          conv_lhs => unfold freeOutputsFold
          rw [if_neg hmem,
            if_pos (show (o.isTemp && !o.isNull && o.users.isEmpty &&
              !(op == OpType.kBatchNormalization)) = true from hc), hg]
        rw [hstep, hrec, List.filter_cons, if_pos (by simp [hmem, hc])]
        simp [emit, List.append_assoc]
      · have hids' : ∀ o' ∈ rest, o'.vid ∉ todo →
            autoFreeCond op o' = true → getValueId st o' = .ok (idOf o') := by
          intro o' ho' h1 h2
          exact hids o' (List.mem_cons_of_mem o ho') h1 h2
        obtain ⟨todo', hrec⟩ := ih todo st hnd' hids'
        refine ⟨todo', ?_⟩
        have hstep : freeOutputsFold op (o :: rest) todo st =
            freeOutputsFold op rest todo st := by
          conv_lhs => unfold freeOutputsFold
          rw [if_neg hmem,
            if_neg (show ¬((o.isTemp && !o.isNull && o.users.isEmpty &&
              !(op == OpType.kBatchNormalization)) = true) from hc)]
        have hcf : autoFreeCond op o = false := by
          cases hval : autoFreeCond op o with
          | false => rfl
          | true => exact absurd hval hc
        rw [hstep, hrec, List.filter_cons, if_neg (by simp [hcf])]

/-- C6: after lowering a node, `EmitGraph` immediately (between `EmitNode`
and the input-liveness release) appends one `Free` for each output of the
node that is not a remaining graph output, is a temp, non-null and user-less
— never for an output of a `BatchNormalization` node — and leaves every
instruction already emitted for the node untouched: the session program is
only extended, and registers, ids and the emitted set are unchanged. -/
theorem emitGraph_output_autofree (op : OpType) (outs : List EValue)
    (todo : List Nat) (st : EmSt) (idOf : EValue → Int)
    (hnd : (outs.map (fun o => o.vid)).Nodup)
    (hids : ∀ o ∈ outs, o.vid ∉ todo → autoFreeCond op o = true →
      getValueId st o = .ok (idOf o)) :
    (∃ todo' : List Nat,
      freeOutputsFold op outs todo st = .ok (todo',
        { st with prog := st.prog ++
            ((outs.filter (fun o =>
                !(decide (o.vid ∈ todo)) && autoFreeCond op o)).map
              (fun o => { op := "Free", inputs := [XArg.reg (idOf o)] })) })) ∧
    (∀ (inLoop : Bool) (node : ENode) (staged staged1 todo0 todo1 : List Nat)
        (numUsers numUsers1 : List (Nat × Int)) (s0 s1 s2 s3 s4 : EmSt),
      node.nid ∉ s0.emitted →
      (if inLoop then
        Except.ok (staged, { s0 with emitted := node.nid :: s0.emitted })
       else stageInputsFold node.inputs staged
        { s0 with emitted := node.nid :: s0.emitted }) = .ok (staged1, s1) →
      emitNode node s1 = .ok s2 →
      freeOutputsFold node.op node.outputs todo0 s2 = .ok (todo1, s3) →
      freeInputsFold node.inputs numUsers s3 = .ok (numUsers1, s4) →
      emitGraphStep inLoop node staged todo0 numUsers s0 =
        .ok (staged1, todo1, numUsers1, s4)) := by
  refine ⟨freeOutputsFold_frees op idOf outs todo st hnd hids, ?_⟩
  intro inLoop node staged staged1 todo0 todo1 numUsers numUsers1
    s0 s1 s2 s3 s4 hm hst hn hf hi
  unfold emitGraphStep
  rw [if_neg hm]
  simp only [hst, hn, hf, hi]

/-- A temp, non-null, user-less output (vid 3, registered under id 1) for the
C6 witness. -/
def c6Out : EValue := { vid := 3, name := "t", kind := 0, users := [] }

/-- A session that has already emitted one instruction for the node, so the
frame part of C6 is visible. -/
def c6St : EmSt :=
  { nextValueId := 2, valueIds := [(3, 1)],
    prog := [{ op := "Relu", inputs := [XArg.reg 9], outputs := [1] }] }

/-- Witness for C6: the single qualifying output of a `Relu` node is freed,
the previously emitted instruction staying in place. -/
theorem emitGraph_output_autofree_witness :
    (([c6Out].map (fun o => o.vid)).Nodup) ∧
    (∃ todo' : List Nat,
      freeOutputsFold OpType.kRelu [c6Out] [] c6St = .ok (todo',
        { c6St with prog := c6St.prog ++
            [{ op := "Free", inputs := [XArg.reg 1] }] })) :=
  ⟨by decide,
   (emitGraph_output_autofree OpType.kRelu [c6Out] [] c6St (fun _ => 1)
      (by decide)
      (by
        intro o ho h1 h2
        rw [List.mem_singleton] at ho
        subst ho
        rfl)).1⟩

/-! ## C1: frame lemmas for the emitter (program-extension, id-map
invariance) -/

/-- Between two session states of one `EmitGraph`/`EmitNode` run the value-id
map is unchanged and the program has only been extended at the end. -/
def sessionExt (st st' : EmSt) : Prop :=
  st'.valueIds = st.valueIds ∧ ∃ l : List XInst, st'.prog = st.prog ++ l

theorem sessionExt_refl (st : EmSt) : sessionExt st st :=
  ⟨rfl, [], by simp⟩

theorem sessionExt_trans {a b c : EmSt} (h1 : sessionExt a b)
    (h2 : sessionExt b c) : sessionExt a c := by
  obtain ⟨hv1, l1, hp1⟩ := h1
  obtain ⟨hv2, l2, hp2⟩ := h2
  exact ⟨hv2.trans hv1, l1 ++ l2, by rw [hp2, hp1, List.append_assoc]⟩

theorem sessionExt_emit {st st' : EmSt} (i : XInst) (h : sessionExt st st') :
    sessionExt st (emit st' i) := by
  obtain ⟨hv, l, hp⟩ := h
  exact ⟨hv, l ++ [i], by simp [emit, hp]⟩

theorem sessionExt_of_emit {st st' : EmSt} {i : XInst}
    (h : sessionExt (emit st i) st') : sessionExt st st' :=
  sessionExt_trans (sessionExt_emit i (sessionExt_refl st)) h

theorem getValueId_congr {st st' : EmSt} (h : st'.valueIds = st.valueIds)
    (v : EValue) : getValueId st' v = getValueId st v := by
  unfold getValueId
  rw [h]

theorem emitBatchNorm_ext (node : ENode) (st st' : EmSt)
    (h : emitBatchNorm node st = .ok st') : sessionExt st st' := by
  unfold emitBatchNorm at h
  simp only [] at h
  iterate 8 (all_goals try split at h)
  all_goals first
    | exact Except.noConfusion h
    | (injection h with h'
       subst h'
       exact sessionExt_emit _ (sessionExt_refl st))

theorem emitNode_ext (node : ENode) (st st' : EmSt)
    (h : emitNode node st = .ok st') : sessionExt st st' := by
  unfold emitNode at h
  repeat' split at h
  all_goals first
    | exact Except.noConfusion h
    | exact emitBatchNorm_ext node st st' h
    | (injection h with h'
       subst h'
       exact sessionExt_emit _ (sessionExt_refl st))
    | (injection h with h'
       subst h'
       exact sessionExt_emit _ (sessionExt_emit _ (sessionExt_refl st)))

theorem stageInputsFold_ext :
    ∀ (vs : List EValue) (staged : List Nat) (st : EmSt)
      (staged' : List Nat) (st' : EmSt),
    stageInputsFold vs staged st = .ok (staged', st') → sessionExt st st' := by
  intro vs
  induction vs with
  | nil =>
    intro staged st staged' st' h
    unfold stageInputsFold at h
    injection h with h'
    rw [← (Prod.mk.injEq _ _ _ _).mp h' |>.2]
    exact sessionExt_refl st
  | cons v rest ih =>
    intro staged st staged' st' h
    unfold stageInputsFold at h
    split at h
    · split at h
      · exact ih staged st staged' st' h
      · split at h
        · exact Except.noConfusion h
        · exact sessionExt_of_emit (ih _ _ staged' st' h)
    · exact ih staged st staged' st' h

theorem freeOutputsFold_ext (op : OpType) :
    ∀ (outs : List EValue) (todo : List Nat) (st : EmSt)
      (todo' : List Nat) (st' : EmSt),
    freeOutputsFold op outs todo st = .ok (todo', st') → sessionExt st st' := by
  intro outs
  induction outs with
  | nil =>
    intro todo st todo' st' h
    unfold freeOutputsFold at h
    injection h with h'
    rw [← (Prod.mk.injEq _ _ _ _).mp h' |>.2]
    exact sessionExt_refl st
  | cons o rest ih =>
    intro todo st todo' st' h
    unfold freeOutputsFold at h
    split at h
    · exact ih _ st todo' st' h
    · split at h
      · split at h
        · exact Except.noConfusion h
        · exact sessionExt_of_emit (ih _ _ todo' st' h)
      · exact ih _ st todo' st' h

theorem freeInputsFold_ext :
    ∀ (vs : List EValue) (m : List (Nat × Int)) (st : EmSt)
      (m' : List (Nat × Int)) (st' : EmSt),
    freeInputsFold vs m st = .ok (m', st') → sessionExt st st' := by
  intro vs
  induction vs with
  | nil =>
    intro m st m' st' h
    unfold freeInputsFold at h
    injection h with h'
    rw [← (Prod.mk.injEq _ _ _ _).mp h' |>.2]
    exact sessionExt_refl st
  | cons v rest ih =>
    intro m st m' st' h
    unfold freeInputsFold at h
    split at h
    · exact ih _ st m' st' h
    · split at h
      · split at h
        · exact Except.noConfusion h
        · exact sessionExt_of_emit (ih _ _ m' st' h)
      · exact ih _ st m' st' h

theorem sessionExt_emitted (st : EmSt) (e : List Nat) :
    sessionExt st { st with emitted := e } :=
  ⟨rfl, [], by simp⟩

theorem emitGraphStep_ext (inLoop : Bool) (node : ENode)
    (staged todo : List Nat) (numUsers : List (Nat × Int)) (st : EmSt)
    (staged' todo' : List Nat) (numUsers' : List (Nat × Int)) (st' : EmSt)
    (h : emitGraphStep inLoop node staged todo numUsers st =
      .ok (staged', todo', numUsers', st')) : sessionExt st st' := by
  unfold emitGraphStep at h
  split at h
  · injection h with h'
    injection h' with ha h'
    injection h' with hb h'
    injection h' with hc hd
    rw [← hd]
    exact sessionExt_refl st
  · split at h
    · -- inLoop = true: no input staging
      simp only [] at h
      split at h
      · exact Except.noConfusion h
      next st2 hn =>
        split at h
        · exact Except.noConfusion h
        next todo1 st3 hf =>
          split at h
          · exact Except.noConfusion h
          next numUsers1 st4 hi =>
            injection h with h'
            injection h' with ha h'
            injection h' with hb h'
            injection h' with hc hd
            rw [← hd]
            exact sessionExt_trans (sessionExt_emitted st _)
              (sessionExt_trans (emitNode_ext node _ st2 hn)
                (sessionExt_trans
                  (freeOutputsFold_ext node.op node.outputs todo st2 todo1 st3 hf)
                  (freeInputsFold_ext node.inputs numUsers st3 numUsers1 st4 hi)))
    · -- inLoop = false: input staging first
      simp only [] at h
      split at h
      · exact Except.noConfusion h
      next staged1 st1 hstage =>
        split at h
        · exact Except.noConfusion h
        next st2 hn =>
          split at h
          · exact Except.noConfusion h
          next todo1 st3 hf =>
            split at h
            · exact Except.noConfusion h
            next numUsers1 st4 hi =>
              injection h with h'
              injection h' with ha h'
              injection h' with hb h'
              injection h' with hc hd
              rw [← hd]
              exact sessionExt_trans (sessionExt_emitted st _)
                (sessionExt_trans
                  (stageInputsFold_ext node.inputs staged _ staged1 st1 hstage)
                  (sessionExt_trans (emitNode_ext node st1 st2 hn)
                    (sessionExt_trans
                      (freeOutputsFold_ext node.op node.outputs todo st2
                        todo1 st3 hf)
                      (freeInputsFold_ext node.inputs numUsers st3
                        numUsers1 st4 hi))))

theorem emitGraphNodes_ext (inLoop : Bool) :
    ∀ (nds : List ENode) (staged todo : List Nat)
      (numUsers : List (Nat × Int)) (st st' : EmSt),
    emitGraphNodes inLoop nds staged todo numUsers st = .ok st' →
    sessionExt st st' := by
  intro nds
  induction nds with
  | nil =>
    intro staged todo numUsers st st' h
    unfold emitGraphNodes at h
    injection h with h'
    rw [← h']
    exact sessionExt_refl st
  | cons nd rest ih =>
    intro staged todo numUsers st st' h
    unfold emitGraphNodes at h
    split at h
    · exact Except.noConfusion h
    next staged1 todo1 numUsers1 st1 hstep =>
      exact sessionExt_trans
        (emitGraphStep_ext inLoop nd staged todo numUsers st
          staged1 todo1 numUsers1 st1 hstep)
        (ih staged1 todo1 numUsers1 st1 st' h)

theorem emitGraph_ext (g : EGraph) (inLoop : Bool)
    (outputValues : List EValue) (st st' : EmSt)
    (h : emitGraph g inLoop outputValues st = .ok st') : sessionExt st st' := by
  unfold emitGraph at h
  exact emitGraphNodes_ext inLoop _ _ _ _ st st' h

/-! ## C1: characterizations of the three `emit_branch` stages -/

/-- The copy stage of `emit_branch`, as an instruction list: one `Identity`
from the outer input into the body input per pair. -/
def branchCopyInsts (idOf : EValue → Int) (pairs : List (EValue × EValue)) :
    List XInst :=
  pairs.map (fun p =>
    { op := "Identity", inputs := [XArg.reg (idOf p.2)],
      outputs := [idOf p.1] })

/-- The free stage of `emit_branch`: one `Free` per body input. -/
def freeInsts (idOf : EValue → Int) (vs : List EValue) : List XInst :=
  vs.map (fun v => { op := "Free", inputs := [XArg.reg (idOf v)] })

/-- The output-move stage of `emit_branch`: per outer output either a
`NullConstant` (null body output) or `Identity` + `Free` (a `MOVE`). -/
def branchOutInsts (idOf : EValue → Int) :
    List (EValue × EValue) → List XInst
  | [] => []
  | p :: rest =>
    (if p.2.isNull then [{ op := "NullConstant", outputs := [idOf p.1] }]
     else [{ op := "Identity", inputs := [XArg.reg (idOf p.2)],
             outputs := [idOf p.1] },
           { op := "Free", inputs := [XArg.reg (idOf p.2)] }]) ++
    branchOutInsts idOf rest

theorem emitBranchCopies_chars (idOf : EValue → Int) :
    ∀ (pairs : List (EValue × EValue)) (st st' : EmSt),
    (∀ p ∈ pairs, getValueId st p.1 = .ok (idOf p.1) ∧
      getValueId st p.2 = .ok (idOf p.2)) →
    emitBranchCopies pairs st = .ok st' →
    st'.valueIds = st.valueIds ∧
      st'.prog = st.prog ++ branchCopyInsts idOf pairs := by
  intro pairs
  induction pairs with
  | nil =>
    intro st st' _ h
    unfold emitBranchCopies at h
    injection h with h'
    subst h'
    exact ⟨rfl, by simp [branchCopyInsts]⟩
  | cons p rest ih =>
    intro st st' hids h
    obtain ⟨hd, hs⟩ := hids p (List.mem_cons_self p rest)
    cases p with
    | mk to' from' =>
      have hred : emitBranchCopies ((to', from') :: rest) st =
          emitBranchCopies rest
            (emit st { op := "Identity", inputs := [XArg.reg (idOf from')],
                       outputs := [idOf to'] }) := by
        conv_lhs => unfold emitBranchCopies
        rw [hd, hs]
      rw [hred] at h
      obtain ⟨hv, hp⟩ := ih _ st'
        (fun q hq => by
          simp only [getValueId_emit]
          exact hids q (List.mem_cons_of_mem _ hq)) h
      refine ⟨hv, ?_⟩
      rw [hp]
      simp [emit, branchCopyInsts]

theorem emitFreeList_chars (idOf : EValue → Int) :
    ∀ (vs : List EValue) (st st' : EmSt),
    (∀ v ∈ vs, getValueId st v = .ok (idOf v)) →
    emitFreeList vs st = .ok st' →
    st'.valueIds = st.valueIds ∧
      st'.prog = st.prog ++ freeInsts idOf vs := by
  intro vs
  induction vs with
  | nil =>
    intro st st' _ h
    unfold emitFreeList at h
    injection h with h'
    subst h'
    exact ⟨rfl, by simp [freeInsts]⟩
  | cons v rest ih =>
    intro st st' hids h
    have hd := hids v (List.mem_cons_self v rest)
    have hred : emitFreeList (v :: rest) st =
        emitFreeList rest
          (emit st { op := "Free", inputs := [XArg.reg (idOf v)] }) := by
      conv_lhs => unfold emitFreeList
      rw [hd]
    rw [hred] at h
    obtain ⟨hv, hp⟩ := ih _ st'
      (fun w hw => by
        simp only [getValueId_emit]
        exact hids w (List.mem_cons_of_mem _ hw)) h
    refine ⟨hv, ?_⟩
    rw [hp]
    simp [emit, freeInsts]

theorem emitBranchOuts_chars (idOf : EValue → Int) :
    ∀ (pairs : List (EValue × EValue)) (st st' : EmSt),
    (∀ p ∈ pairs, getValueId st p.1 = .ok (idOf p.1) ∧
      (p.2.isNull = false → getValueId st p.2 = .ok (idOf p.2))) →
    emitBranchOuts pairs st = .ok st' →
    st'.valueIds = st.valueIds ∧
      st'.prog = st.prog ++ branchOutInsts idOf pairs := by
  intro pairs
  induction pairs with
  | nil =>
    intro st st' _ h
    unfold emitBranchOuts at h
    injection h with h'
    subst h'
    exact ⟨rfl, by simp [branchOutInsts]⟩
  | cons p rest ih =>
    intro st st' hids h
    obtain ⟨hd, hs⟩ := hids p (List.mem_cons_self p rest)
    cases p with
    | mk to' from' =>
      have hbo : branchOutInsts idOf ((to', from') :: rest) =
          (if EValue.isNull from' = true then [{ op := "NullConstant", outputs := [idOf to'] }] else [{ op := "Identity", inputs := [XArg.reg (idOf from')], outputs := [idOf to'] }, { op := "Free", inputs := [XArg.reg (idOf from')] }]) ++ branchOutInsts idOf rest := rfl
      by_cases hnull : EValue.isNull from' = true
      · have hred : emitBranchOuts ((to', from') :: rest) st =
            emitBranchOuts rest
              (emit st { op := "NullConstant", outputs := [idOf to'] }) := by
          conv_lhs => unfold emitBranchOuts
          rw [if_pos hnull, hd]
        rw [hred] at h
        obtain ⟨hv, hp⟩ := ih _ st'
          (fun q hq => by
            simp only [getValueId_emit]
            exact hids q (List.mem_cons_of_mem _ hq)) h
        refine ⟨hv, ?_⟩
        rw [hp, hbo, if_pos hnull]
        simp [emit]
      · have hnf : EValue.isNull from' = false := by
          cases hval : EValue.isNull from' with
          | false => rfl
          | true => exact absurd hval hnull
        have hs' := hs hnf
        have hred : emitBranchOuts ((to', from') :: rest) st =
            emitBranchOuts rest
              (emit (emit st { op := "Identity", inputs := [XArg.reg (idOf from')], outputs := [idOf to'] }) { op := "Free", inputs := [XArg.reg (idOf from')] }) := by
          conv_lhs => unfold emitBranchOuts
          rw [if_neg hnull, hd, hs']
        rw [hred] at h
        obtain ⟨hv, hp⟩ := ih _ st'
          (fun q hq => by
            simp only [getValueId_emit]
            exact hids q (List.mem_cons_of_mem _ hq)) h
        refine ⟨hv, ?_⟩
        rw [hp, hbo, if_neg hnull]
        simp [emit]

/-- `emit_branch` decomposed: the copies, some body instructions, the frees
and the output moves, in that order; the value-id map is untouched. -/
theorem emitBranch_chars (cond : ENode) (graph : EGraph)
    (ins outs : List EValue) (st st' : EmSt) (idOf : EValue → Int)
    (hcp : ∀ p ∈ ins.zip (cond.inputs.drop 1),
      getValueId st p.1 = .ok (idOf p.1) ∧ getValueId st p.2 = .ok (idOf p.2))
    (hfr : ∀ v ∈ ins, getValueId st v = .ok (idOf v))
    (hos : ∀ p ∈ cond.outputs.zip outs,
      getValueId st p.1 = .ok (idOf p.1) ∧
      (p.2.isNull = false → getValueId st p.2 = .ok (idOf p.2)))
    (h : emitBranch cond graph ins outs st = .ok st') :
    st'.valueIds = st.valueIds ∧
    ∃ B : List XInst,
      st'.prog = st.prog ++
        (branchCopyInsts idOf (ins.zip (cond.inputs.drop 1)) ++
          (B ++ (freeInsts idOf ins ++
            branchOutInsts idOf (cond.outputs.zip outs)))) := by
  unfold emitBranch at h
  split at h
  · exact Except.noConfusion h
  next st1 hc =>
    split at h
    · exact Except.noConfusion h
    next st2 hg =>
      split at h
      · exact Except.noConfusion h
      next st3 hf =>
        obtain ⟨hv1, hp1⟩ := emitBranchCopies_chars idOf _ st st1 hcp hc
        obtain ⟨hv2, B, hp2⟩ := emitGraph_ext graph true outs st1 st2 hg
        have hv21 : st2.valueIds = st.valueIds := hv2.trans hv1
        obtain ⟨hv3, hp3⟩ := emitFreeList_chars idOf ins st2 st3
          (by
            intro v hvv
            rw [getValueId_congr hv21]
            exact hfr v hvv) hf
        have hv31 : st3.valueIds = st.valueIds := hv3.trans hv21
        obtain ⟨hv4, hp4⟩ := emitBranchOuts_chars idOf _ st3 st'
          (by
            intro p hp
            constructor
            · rw [getValueId_congr hv31]
              exact (hos p hp).1
            · intro hn
              rw [getValueId_congr hv31]
              exact (hos p hp).2 hn) h
        refine ⟨hv4.trans hv31, B, ?_⟩
        rw [hp4, hp3, hp2, hp1]
        simp [List.append_assoc]

/-! ## C1: patching at a known index, jump semantics, write counting -/

theorem getElem?_append_len {α : Type} (p : List α) (i : α) (rest : List α) :
    (p ++ i :: rest)[p.length]? = some i := by
  induction p with
  | nil => simp
  | cons x q ih => simpa using ih

theorem set_append_len {α : Type} (p : List α) (i : α) (rest : List α)
    (a : α) : (p ++ i :: rest).set p.length a = p ++ a :: rest := by
  induction p with
  | nil => rfl
  | cons x q ih => simp [List.set, ih]

/-- Patching the instruction at the junction of a known prefix. -/
theorem patchInst_at_len (p : List XInst) (i : XInst) (rest : List XInst)
    (idx : Nat) (v : Int) :
    patchInst (p ++ i :: rest) p.length idx v =
      p ++ i.setInputI idx v :: rest := by
  unfold patchInst
  rw [getElem?_append_len]
  exact set_append_len p i rest _

theorem getElem?_prefix_add {α : Type} (p l : List α) (j : Nat) :
    (p ++ l)[p.length + j]? = l[j]? := by
  rw [List.getElem?_append_right (Nat.le_add_right p.length j)]
  congr 1
  omega

/-- An instruction the control-flow step semantics treats as a jump. -/
def isJump (i : XInst) : Bool := i.op == "Jmp" || i.op == "JmpTrue"

/-- The downstream VM control-flow semantics restricted to what the If
lowering uses: `Jmp` moves to its immediate input 0, `JmpTrue` moves to its
immediate input 1 when the condition register holds true and falls through
otherwise; every other instruction falls through.  Returns the trace of
executed instruction indices (fuel-bounded; the trace ends on running off
the program). -/
def execFrom (prog : List XInst) (condVal : Bool) : Nat → Nat → List Nat
  | 0, _ => []
  | fuel + 1, pc =>
    match prog[pc]? with
    | none => []
    | some i =>
      if i.op == "Jmp" then
        match i.inputs[0]? with
        | some (XArg.imm t) => pc :: execFrom prog condVal fuel t.toNat
        | _ => [pc]
      else if i.op == "JmpTrue" then
        match i.inputs[1]? with
        | some (XArg.imm t) =>
          pc :: execFrom prog condVal fuel (if condVal then t.toNat else pc + 1)
        | _ => [pc]
      else pc :: execFrom prog condVal fuel (pc + 1)

theorem execFrom_halt (prog : List XInst) (condVal : Bool) (fuel pc : Nat)
    (h : prog.length ≤ pc) : execFrom prog condVal fuel pc = [] := by
  cases fuel with
  | zero => rfl
  | succ f =>
    unfold execFrom
    rw [List.getElem?_eq_none h]

/-- Straight-line execution: a jump-free section is traversed in order. -/
theorem execFrom_straight (prog : List XInst) (condVal : Bool) :
    ∀ (n s fuel : Nat),
    (∀ j : Nat, j < n → ∃ i : XInst, prog[s + j]? = some i ∧
      isJump i = false) →
    n ≤ fuel →
    execFrom prog condVal fuel s =
      List.range' s n ++ execFrom prog condVal (fuel - n) (s + n) := by
  intro n
  induction n with
  | zero =>
    intro s fuel _ _
    simp
  | succ m ih =>
    intro s fuel hns hfuel
    cases fuel with
    | zero => exact absurd hfuel (by omega)
    | succ f =>
      obtain ⟨i0, hg, hnj⟩ := hns 0 (Nat.succ_pos m)
      rw [Nat.add_zero] at hg
      have hj1 : (i0.op == "Jmp") = false := by
        unfold isJump at hnj
        exact (Bool.or_eq_false_iff.mp hnj).1
      have hj2 : (i0.op == "JmpTrue") = false := by
        unfold isJump at hnj
        exact (Bool.or_eq_false_iff.mp hnj).2
      have hstep : execFrom prog condVal (f + 1) s =
          s :: execFrom prog condVal f (s + 1) := by
        conv_lhs => unfold execFrom
        simp [hg, hj1, hj2]
      rw [hstep]
      have hrec := ih (s + 1) f
        (fun j hj => by
          have := hns (j + 1) (by omega)
          rwa [show s + (j + 1) = s + 1 + j by omega] at this)
        (by omega)
      rw [hrec]
      rw [List.range'_succ]
      simp only [List.cons_append]
      rw [show f + 1 - (m + 1) = f - m from by omega,
          show s + (m + 1) = s + 1 + m from by omega]

/-- How many of the instructions write register `d`. -/
def countWrites (l : List XInst) (d : Int) : Nat :=
  l.countP (fun i => decide (d ∈ i.outputs))

theorem countWrites_append (a b : List XInst) (d : Int) :
    countWrites (a ++ b) d = countWrites a d + countWrites b d := by
  unfold countWrites
  exact List.countP_append _ _ _

/-- The output-move stage writes register `d` exactly as often as `d`
appears among the outer-output ids of its pairs. -/
theorem countWrites_branchOutInsts (idOf : EValue → Int) :
    ∀ (pairs : List (EValue × EValue)) (d : Int),
    countWrites (branchOutInsts idOf pairs) d =
      (pairs.map (fun q => idOf q.1)).count d := by
  intro pairs
  induction pairs with
  | nil => intro d; rfl
  | cons p rest ih =>
    intro d
    have hbo : branchOutInsts idOf (p :: rest) =
        (if EValue.isNull p.2 = true then [{ op := "NullConstant", outputs := [idOf p.1] }] else [{ op := "Identity", inputs := [XArg.reg (idOf p.2)], outputs := [idOf p.1] }, { op := "Free", inputs := [XArg.reg (idOf p.2)] }]) ++ branchOutInsts idOf rest := rfl
    rw [hbo, countWrites_append, ih]
    by_cases hnull : EValue.isNull p.2 = true
    · rw [if_pos hnull]
      simp [countWrites, List.countP_cons, List.count_cons]
      by_cases hd : idOf p.1 = d
      · simp [hd]
        omega
      · simp [hd, Ne.symm hd]
    · rw [if_neg hnull]
      simp [countWrites, List.countP_cons, List.count_cons]
      by_cases hd : idOf p.1 = d
      · simp [hd]
        omega
      · simp [hd, Ne.symm hd]

/-- `emitBranch_chars` with the value ids read off a reference state `st0`
sharing the value-id map of the branch entry state `st4`. -/
theorem emitBranch_chars_at (cond : ENode) (graph : EGraph)
    (ins outs : List EValue) (st0 st4 st' : EmSt) (idOf : EValue → Int)
    (h : emitBranch cond graph ins outs st4 = .ok st')
    (hv : st4.valueIds = st0.valueIds)
    (hcp : ∀ p ∈ ins.zip (cond.inputs.drop 1),
      getValueId st0 p.1 = .ok (idOf p.1) ∧
      getValueId st0 p.2 = .ok (idOf p.2))
    (hfr : ∀ v ∈ ins, getValueId st0 v = .ok (idOf v))
    (hos : ∀ p ∈ cond.outputs.zip outs,
      getValueId st0 p.1 = .ok (idOf p.1) ∧
      (p.2.isNull = false → getValueId st0 p.2 = .ok (idOf p.2))) :
    st'.valueIds = st0.valueIds ∧
    ∃ B : List XInst,
      st'.prog = st4.prog ++
        (branchCopyInsts idOf (ins.zip (cond.inputs.drop 1)) ++
          (B ++ (freeInsts idOf ins ++
            branchOutInsts idOf (cond.outputs.zip outs)))) := by
  obtain ⟨hv', B, hp⟩ := emitBranch_chars cond graph ins outs st4 st' idOf
    (fun p hp => by
      rw [getValueId_congr hv, getValueId_congr hv]
      exact hcp p hp)
    (fun v hvv => by
      rw [getValueId_congr hv]
      exact hfr v hvv)
    (fun p hp => by
      constructor
      · rw [getValueId_congr hv]
        exact (hos p hp).1
      · intro hn
        rw [getValueId_congr hv]
        exact (hos p hp).2 hn)
    h
  exact ⟨hv'.trans hv, B, hp⟩

/-- The layout produced by `EmitIfImpl`: a `JmpTrue` patched to the first
then-branch index, the else instructions, a `Jmp` patched to the index just
past the then branch, the then instructions; each branch is copies, body,
frees, output moves; under jump-free bodies exactly one branch executes per
condition value, and the output-move segment writes each outer output
exactly once per branch. -/
def IfLoweringLayout (cond : ENode)
    (thenIns thenOuts elseIns elseOuts : List EValue)
    (st stF : EmSt) (condId : Int) (idOf : EValue → Int) : Prop :=
  ∃ E T Be Bt : List XInst,
    stF.prog = st.prog ++
      ({ op := "JmpTrue", inputs := [XArg.reg condId, XArg.imm (Int.ofNat (st.prog.length + 2 + E.length))] } : XInst) ::
      (E ++ ({ op := "Jmp", inputs := [XArg.imm (Int.ofNat (st.prog.length + 2 + E.length + T.length))] } : XInst) :: T) ∧
    E = branchCopyInsts idOf (elseIns.zip (cond.inputs.drop 1)) ++
      (Be ++ (freeInsts idOf elseIns ++
        branchOutInsts idOf (cond.outputs.zip elseOuts))) ∧
    T = branchCopyInsts idOf (thenIns.zip (cond.inputs.drop 1)) ++
      (Bt ++ (freeInsts idOf thenIns ++
        branchOutInsts idOf (cond.outputs.zip thenOuts))) ∧
    ((∀ i ∈ E, isJump i = false) → (∀ i ∈ T, isJump i = false) →
      ∀ fuel : Nat, E.length + 2 ≤ fuel → T.length + 1 ≤ fuel →
      execFrom stF.prog true fuel st.prog.length =
        st.prog.length ::
          List.range' (st.prog.length + 2 + E.length) T.length ∧
      execFrom stF.prog false fuel st.prog.length =
        st.prog.length :: (List.range' (st.prog.length + 1) E.length ++
          [st.prog.length + 1 + E.length])) ∧
    (∀ p ∈ cond.outputs.zip elseOuts,
      countWrites (branchCopyInsts idOf (elseIns.zip (cond.inputs.drop 1)) ++
        (Be ++ freeInsts idOf elseIns)) (idOf p.1) = 0 →
      ((cond.outputs.zip elseOuts).map (fun q => idOf q.1)).Nodup →
      countWrites E (idOf p.1) = 1) ∧
    (∀ p ∈ cond.outputs.zip thenOuts,
      countWrites (branchCopyInsts idOf (thenIns.zip (cond.inputs.drop 1)) ++
        (Bt ++ freeInsts idOf thenIns)) (idOf p.1) = 0 →
      ((cond.outputs.zip thenOuts).map (fun q => idOf q.1)).Nodup →
      countWrites T (idOf p.1) = 1)

/-- C1: lowering an `If` emits `JmpTrue` on the condition register, the
else branch (input copies, body, input frees, output moves), a `Jmp`, then
the then branch in the same shape; the `JmpTrue` target is patched to the
first then-branch instruction index and the `Jmp` target to the index just
past the then branch; per condition value exactly one branch executes
(straight through that branch only), and the output-move segment of each
branch writes every outer output exactly once. -/
theorem if_lowering_control_flow
    (cond : ENode) (thenBody : EGraph) (thenIns thenOuts : List EValue)
    (elseBody : EGraph) (elseIns elseOuts : List EValue)
    (st stF : EmSt) (condv : EValue) (condId : Int) (idOf : EValue → Int)
    (h1 : cond.inputs.length = thenIns.length + 1)
    (h2 : cond.inputs.length = elseIns.length + 1)
    (h3 : cond.outputs.length = thenOuts.length)
    (h4 : cond.outputs.length = elseOuts.length)
    (hcv : cond.inputs[0]? = some condv)
    (hid : getValueId st condv = .ok condId)
    (hcpE : ∀ p ∈ elseIns.zip (cond.inputs.drop 1), getValueId st p.1 = .ok (idOf p.1) ∧ getValueId st p.2 = .ok (idOf p.2))
    (hfrE : ∀ v ∈ elseIns, getValueId st v = .ok (idOf v))
    (hosE : ∀ p ∈ cond.outputs.zip elseOuts, getValueId st p.1 = .ok (idOf p.1) ∧ (p.2.isNull = false → getValueId st p.2 = .ok (idOf p.2)))
    (hcpT : ∀ p ∈ thenIns.zip (cond.inputs.drop 1), getValueId st p.1 = .ok (idOf p.1) ∧ getValueId st p.2 = .ok (idOf p.2))
    (hfrT : ∀ v ∈ thenIns, getValueId st v = .ok (idOf v))
    (hosT : ∀ p ∈ cond.outputs.zip thenOuts, getValueId st p.1 = .ok (idOf p.1) ∧ (p.2.isNull = false → getValueId st p.2 = .ok (idOf p.2)))
    (hok : emitIfImpl cond thenBody thenIns thenOuts elseBody elseIns elseOuts st = .ok stF) :
    IfLoweringLayout cond thenIns thenOuts elseIns elseOuts st stF condId idOf := by
  unfold emitIfImpl at hok
  rw [if_pos h1, if_pos h2, if_pos h3, if_pos h4] at hok
  simp only [hcv, hid] at hok
  split at hok
  · exact Except.noConfusion hok
  next st2 helse =>
    split at hok
    · exact Except.noConfusion hok
    next st5 hthen =>
      injection hok with hF
      subst hF
      obtain ⟨hv2, Be, hp2⟩ := emitBranch_chars_at cond elseBody elseIns
        elseOuts st _ st2 idOf helse rfl hcpE hfrE hosE
      obtain ⟨hv5, Bt, hp5⟩ := emitBranch_chars_at cond thenBody thenIns
        thenOuts st _ st5 idOf hthen hv2 hcpT hfrT hosT
      simp only [emit] at hp2 hp5
      set E := branchCopyInsts idOf (elseIns.zip (cond.inputs.drop 1)) ++
        (Be ++ (freeInsts idOf elseIns ++
          branchOutInsts idOf (cond.outputs.zip elseOuts))) with hEdef
      set T := branchCopyInsts idOf (thenIns.zip (cond.inputs.drop 1)) ++
        (Bt ++ (freeInsts idOf thenIns ++
          branchOutInsts idOf (cond.outputs.zip thenOuts))) with hTdef
      have hp2x : st2.prog = st.prog ++ ({ op := "JmpTrue", inputs := [XArg.reg condId, XArg.imm (-1)] } : XInst) :: E := by
        rw [hp2]
        simp
      have hsh3 : st2.prog ++ [({ op := "Jmp", inputs := [XArg.imm (-1)] } : XInst)] =
          st.prog ++ ({ op := "JmpTrue", inputs := [XArg.reg condId, XArg.imm (-1)] } : XInst) :: (E ++ [({ op := "Jmp", inputs := [XArg.imm (-1)] } : XInst)]) := by
        rw [hp2x]
        simp
      have hlen3 : (st.prog ++ ({ op := "JmpTrue", inputs := [XArg.reg condId, XArg.imm (-1)] } : XInst) :: (E ++ [({ op := "Jmp", inputs := [XArg.imm (-1)] } : XInst)])).length =
          st.prog.length + 2 + E.length := by
        simp only [List.length_append, List.length_cons, List.length_nil]
        omega
      have hp4 : patchInst (st2.prog ++ [({ op := "Jmp", inputs := [XArg.imm (-1)] } : XInst)]) st.prog.length 1
          (Int.ofNat (st2.prog ++ [({ op := "Jmp", inputs := [XArg.imm (-1)] } : XInst)]).length) =
          st.prog ++ ({ op := "JmpTrue", inputs := [XArg.reg condId, XArg.imm (Int.ofNat (st.prog.length + 2 + E.length))] } : XInst) :: (E ++ [({ op := "Jmp", inputs := [XArg.imm (-1)] } : XInst)]) := by
        rw [hsh3, hlen3, patchInst_at_len]
        rfl
      rw [hp4] at hp5
      have hlen2 : st2.prog.length = (st.prog ++ ({ op := "JmpTrue", inputs := [XArg.reg condId, XArg.imm (Int.ofNat (st.prog.length + 2 + E.length))] } : XInst) :: E).length := by
        rw [hp2x]
        simp
      have hsh5 : st5.prog = (st.prog ++ ({ op := "JmpTrue", inputs := [XArg.reg condId, XArg.imm (Int.ofNat (st.prog.length + 2 + E.length))] } : XInst) :: E) ++ ({ op := "Jmp", inputs := [XArg.imm (-1)] } : XInst) :: T := by
        rw [hp5]
        simp
      have hlen5 : st5.prog.length = st.prog.length + 2 + E.length + T.length := by
        rw [hsh5]
        simp only [List.length_append, List.length_cons]
        omega
      have hfin : patchInst st5.prog st2.prog.length 0
          (Int.ofNat st5.prog.length) = st.prog ++ ({ op := "JmpTrue", inputs := [XArg.reg condId, XArg.imm (Int.ofNat (st.prog.length + 2 + E.length))] } : XInst) :: (E ++ ({ op := "Jmp", inputs := [XArg.imm (Int.ofNat (st.prog.length + 2 + E.length + T.length))] } : XInst) :: T) := by
        rw [hlen5, hlen2, hsh5, patchInst_at_len]
        simp [XInst.setInputI]
      have hPlen : (st.prog ++ ({ op := "JmpTrue", inputs := [XArg.reg condId, XArg.imm (Int.ofNat (st.prog.length + 2 + E.length))] } : XInst) :: (E ++ ({ op := "Jmp", inputs := [XArg.imm (Int.ofNat (st.prog.length + 2 + E.length + T.length))] } : XInst) :: T)).length = st.prog.length + 2 + E.length + T.length := by
        simp only [List.length_append, List.length_cons]
        omega
      refine ⟨E, T, Be, Bt, ?_, hEdef, hTdef, ?_, ?_, ?_⟩
      · simp only []
        exact hfin
      · simp only []
        rw [hfin]
        intro hEnj hTnj fuel hfE hfT
        obtain ⟨f, rfl⟩ : ∃ f, fuel = f + 1 := ⟨fuel - 1, by omega⟩
        have hshapeT : (st.prog ++ ({ op := "JmpTrue", inputs := [XArg.reg condId, XArg.imm (Int.ofNat (st.prog.length + 2 + E.length))] } : XInst) :: (E ++ ({ op := "Jmp", inputs := [XArg.imm (Int.ofNat (st.prog.length + 2 + E.length + T.length))] } : XInst) :: T)) = (st.prog ++ ({ op := "JmpTrue", inputs := [XArg.reg condId, XArg.imm (Int.ofNat (st.prog.length + 2 + E.length))] } : XInst) :: (E ++ [({ op := "Jmp", inputs := [XArg.imm (Int.ofNat (st.prog.length + 2 + E.length + T.length))] } : XInst)])) ++ T := by
          simp
        have hshapeE : (st.prog ++ ({ op := "JmpTrue", inputs := [XArg.reg condId, XArg.imm (Int.ofNat (st.prog.length + 2 + E.length))] } : XInst) :: (E ++ ({ op := "Jmp", inputs := [XArg.imm (Int.ofNat (st.prog.length + 2 + E.length + T.length))] } : XInst) :: T)) = (st.prog ++ [({ op := "JmpTrue", inputs := [XArg.reg condId, XArg.imm (Int.ofNat (st.prog.length + 2 + E.length))] } : XInst)]) ++ (E ++ ({ op := "Jmp", inputs := [XArg.imm (Int.ofNat (st.prog.length + 2 + E.length + T.length))] } : XInst) :: T) := by
          simp
        have hshapeJ : (st.prog ++ ({ op := "JmpTrue", inputs := [XArg.reg condId, XArg.imm (Int.ofNat (st.prog.length + 2 + E.length))] } : XInst) :: (E ++ ({ op := "Jmp", inputs := [XArg.imm (Int.ofNat (st.prog.length + 2 + E.length + T.length))] } : XInst) :: T)) = (st.prog ++ ({ op := "JmpTrue", inputs := [XArg.reg condId, XArg.imm (Int.ofNat (st.prog.length + 2 + E.length))] } : XInst) :: E) ++ ({ op := "Jmp", inputs := [XArg.imm (Int.ofNat (st.prog.length + 2 + E.length + T.length))] } : XInst) :: T := by
          simp
        have hget0 : (st.prog ++ ({ op := "JmpTrue", inputs := [XArg.reg condId, XArg.imm (Int.ofNat (st.prog.length + 2 + E.length))] } : XInst) :: (E ++ ({ op := "Jmp", inputs := [XArg.imm (Int.ofNat (st.prog.length + 2 + E.length + T.length))] } : XInst) :: T))[st.prog.length]? = some ({ op := "JmpTrue", inputs := [XArg.reg condId, XArg.imm (Int.ofNat (st.prog.length + 2 + E.length))] } : XInst) :=
          getElem?_append_len st.prog _ _
        constructor
        · have hstep : execFrom (st.prog ++ ({ op := "JmpTrue", inputs := [XArg.reg condId, XArg.imm (Int.ofNat (st.prog.length + 2 + E.length))] } : XInst) :: (E ++ ({ op := "Jmp", inputs := [XArg.imm (Int.ofNat (st.prog.length + 2 + E.length + T.length))] } : XInst) :: T)) true (f + 1) st.prog.length =
              st.prog.length ::
                execFrom (st.prog ++ ({ op := "JmpTrue", inputs := [XArg.reg condId, XArg.imm (Int.ofNat (st.prog.length + 2 + E.length))] } : XInst) :: (E ++ ({ op := "Jmp", inputs := [XArg.imm (Int.ofNat (st.prog.length + 2 + E.length + T.length))] } : XInst) :: T)) true f (st.prog.length + 2 + E.length) := by
            conv_lhs => unfold execFrom
            rw [hget0]
            simp
            congr 1
          have hstraight := execFrom_straight (st.prog ++ ({ op := "JmpTrue", inputs := [XArg.reg condId, XArg.imm (Int.ofNat (st.prog.length + 2 + E.length))] } : XInst) :: (E ++ ({ op := "Jmp", inputs := [XArg.imm (Int.ofNat (st.prog.length + 2 + E.length + T.length))] } : XInst) :: T)) true T.length
            (st.prog.length + 2 + E.length) f
            (fun j hj => by
              refine ⟨T.get ⟨j, hj⟩, ?_, hTnj _ (List.get_mem T j hj)⟩
              rw [hshapeT]
              rw [show st.prog.length + 2 + E.length + j =
                (st.prog ++ ({ op := "JmpTrue", inputs := [XArg.reg condId, XArg.imm (Int.ofNat (st.prog.length + 2 + E.length))] } : XInst) :: (E ++ [({ op := "Jmp", inputs := [XArg.imm (Int.ofNat (st.prog.length + 2 + E.length + T.length))] } : XInst)])).length + j from by
                  simp only [List.length_append, List.length_cons,
                    List.length_nil]
                  omega]
              rw [getElem?_prefix_add]
              exact List.getElem?_eq_getElem hj)
            (by omega)
          rw [hstep, hstraight]
          rw [execFrom_halt _ _ _ _ (by omega)]
          simp
        · have hstep : execFrom (st.prog ++ ({ op := "JmpTrue", inputs := [XArg.reg condId, XArg.imm (Int.ofNat (st.prog.length + 2 + E.length))] } : XInst) :: (E ++ ({ op := "Jmp", inputs := [XArg.imm (Int.ofNat (st.prog.length + 2 + E.length + T.length))] } : XInst) :: T)) false (f + 1) st.prog.length =
              st.prog.length ::
                execFrom (st.prog ++ ({ op := "JmpTrue", inputs := [XArg.reg condId, XArg.imm (Int.ofNat (st.prog.length + 2 + E.length))] } : XInst) :: (E ++ ({ op := "Jmp", inputs := [XArg.imm (Int.ofNat (st.prog.length + 2 + E.length + T.length))] } : XInst) :: T)) false f (st.prog.length + 1) := by
            conv_lhs => unfold execFrom
            rw [hget0]
            simp
          have hstraight := execFrom_straight (st.prog ++ ({ op := "JmpTrue", inputs := [XArg.reg condId, XArg.imm (Int.ofNat (st.prog.length + 2 + E.length))] } : XInst) :: (E ++ ({ op := "Jmp", inputs := [XArg.imm (Int.ofNat (st.prog.length + 2 + E.length + T.length))] } : XInst) :: T)) false E.length
            (st.prog.length + 1) f
            (fun j hj => by
              refine ⟨E.get ⟨j, hj⟩, ?_, hEnj _ (List.get_mem E j hj)⟩
              rw [hshapeE]
              rw [show st.prog.length + 1 + j =
                (st.prog ++ [({ op := "JmpTrue", inputs := [XArg.reg condId, XArg.imm (Int.ofNat (st.prog.length + 2 + E.length))] } : XInst)]).length + j from by
                  simp]
              rw [getElem?_prefix_add]
              rw [getElem?_append_left' hj]
              exact List.getElem?_eq_getElem hj)
            (by omega)
          rw [hstep, hstraight]
          obtain ⟨f2, hf2⟩ : ∃ f2, f - E.length = f2 + 1 :=
            ⟨f - E.length - 1, by omega⟩
          rw [hf2]
          have hgetJ : (st.prog ++ ({ op := "JmpTrue", inputs := [XArg.reg condId, XArg.imm (Int.ofNat (st.prog.length + 2 + E.length))] } : XInst) :: (E ++ ({ op := "Jmp", inputs := [XArg.imm (Int.ofNat (st.prog.length + 2 + E.length + T.length))] } : XInst) :: T))[st.prog.length + 1 + E.length]? = some ({ op := "Jmp", inputs := [XArg.imm (Int.ofNat (st.prog.length + 2 + E.length + T.length))] } : XInst) := by
            rw [hshapeJ]
            rw [show st.prog.length + 1 + E.length =
              (st.prog ++ ({ op := "JmpTrue", inputs := [XArg.reg condId, XArg.imm (Int.ofNat (st.prog.length + 2 + E.length))] } : XInst) :: E).length from by
                simp only [List.length_append, List.length_cons]
                omega]
            exact getElem?_append_len _ _ _
          have hstepJ : execFrom (st.prog ++ ({ op := "JmpTrue", inputs := [XArg.reg condId, XArg.imm (Int.ofNat (st.prog.length + 2 + E.length))] } : XInst) :: (E ++ ({ op := "Jmp", inputs := [XArg.imm (Int.ofNat (st.prog.length + 2 + E.length + T.length))] } : XInst) :: T)) false (f2 + 1)
              (st.prog.length + 1 + E.length) =
              (st.prog.length + 1 + E.length) ::
                execFrom (st.prog ++ ({ op := "JmpTrue", inputs := [XArg.reg condId, XArg.imm (Int.ofNat (st.prog.length + 2 + E.length))] } : XInst) :: (E ++ ({ op := "Jmp", inputs := [XArg.imm (Int.ofNat (st.prog.length + 2 + E.length + T.length))] } : XInst) :: T)) false f2
                  (st.prog.length + 2 + E.length + T.length) := by
            conv_lhs => unfold execFrom
            rw [hgetJ]
            simp
            congr 1
          rw [hstepJ]
          rw [execFrom_halt _ _ _ _ (by omega)]
      · intro p hp hpre hnd
        rw [hEdef, countWrites_append, countWrites_append,
          countWrites_append, countWrites_branchOutInsts]
        rw [countWrites_append, countWrites_append] at hpre
        have hone := List.count_eq_one_of_mem hnd
          (List.mem_map_of_mem (fun q => idOf q.1) hp)
        omega
      · intro p hp hpre hnd
        rw [hTdef, countWrites_append, countWrites_append,
          countWrites_append, countWrites_branchOutInsts]
        rw [countWrites_append, countWrites_append] at hpre
        have hone := List.count_eq_one_of_mem hnd
          (List.mem_map_of_mem (fun q => idOf q.1) hp)
        omega

/-! Concrete If lowering for the C1 witness: condition `c`, one outer
input/output pair, empty branch bodies. -/

def c1CondV : EValue := { vid := 0, name := "c", kind := 0 }
def c1XOut : EValue := { vid := 1, name := "x", kind := 0 }
def c1YOut : EValue := { vid := 2, name := "y", kind := 0 }
def c1XT : EValue := { vid := 3, name := "xt", kind := 0 }
def c1YT : EValue := { vid := 4, name := "yt", kind := 0 }
def c1XE : EValue := { vid := 5, name := "xe", kind := 0 }
def c1YE : EValue := { vid := 6, name := "ye", kind := 0 }

def c1Cond : ENode :=
  { nid := 0, op := OpType.kRelu, inputs := [c1CondV, c1XOut],
    outputs := [c1YOut] }

def c1Body : EGraph := {}

def c1St : EmSt :=
  { nextValueId := 8,
    valueIds := [(0, 1), (1, 2), (2, 3), (3, 4), (4, 5), (5, 6), (6, 7)] }

def c1IdOf (v : EValue) : Int := Int.ofNat (v.vid + 1)

/-- Witness for C1 at the concrete If above. -/
theorem if_lowering_control_flow_witness :
    ∃ stF : EmSt,
      emitIfImpl c1Cond c1Body [c1XT] [c1YT] c1Body [c1XE] [c1YE] c1St =
        .ok stF ∧
      IfLoweringLayout c1Cond [c1XT] [c1YT] [c1XE] [c1YE] c1St stF 1 c1IdOf :=
  ⟨_, rfl,
   if_lowering_control_flow c1Cond c1Body [c1XT] [c1YT] c1Body [c1XE] [c1YE]
     c1St _ c1CondV 1 c1IdOf rfl rfl rfl rfl rfl rfl
     (by
       intro p hp
       simp [c1Cond] at hp
       subst hp
       exact ⟨rfl, rfl⟩)
     (by
       intro v hv
       simp at hv
       subst hv
       rfl)
     (by
       intro p hp
       simp [c1Cond] at hp
       subst hp
       exact ⟨rfl, fun _ => rfl⟩)
     (by
       intro p hp
       simp [c1Cond] at hp
       subst hp
       exact ⟨rfl, rfl⟩)
     (by
       intro v hv
       simp at hv
       subst hv
       rfl)
     (by
       intro p hp
       simp [c1Cond] at hp
       subst hp
       exact ⟨rfl, fun _ => rfl⟩)
     rfl⟩

end ChainerCompiler
